import Mathlib

/-! Coalesced-hashing `HashMap` (src/hashmap.h)

A shallow embedding of the C++ class template `HashMap<Key, T, Hash>`.

* `std::vector<Element *> data` is a `List (Element K V)`, the elements that the
  pointers of the vector designate. The section "The free store" keeps the
  pointers: there the members run on a table object (`PTable`, the counters and
  the vector of addresses) in a free store shared by all table objects, and
  they are shown to follow the members on the lists (`insert_sim`, `copy_sim`).
* `size_t` members are `Nat`; the increments and decrements the source performs
  on them wrap modulo `2 ^ 64` (`incr`, `decr`).
* The hasher is a parameter `hash : K → Nat`.
* Loops that the source does not bound (`get_key_id`, the chain walk of
  `insert`, and the `insert` ↔ `rehash` recursion) take a `fuel` argument and
  report `Fault.fuel` when it runs out.
* Undefined behaviour of the source is reported as a fault: indexing `sizes`
  or `data` out of range, reading or deleting through a pointer whose element
  was deleted, and a failing `assert`.
* The two `double` comparisons are evaluated exactly (IEEE-754 binary64,
  round to nearest even), see `dmul_load`.
-/

namespace HashMap

/-- Reasons why a call does not return normally. -/
inductive Fault where
  | fuel
  | schedule
  | bounds
  | assertion
  | out_of_range
deriving DecidableEq, Repr

/-- Result of a call: a value, or the reason why there is none. -/
inductive Outcome (α : Type) where
  | ok (a : α)
  | fault (f : Fault)
deriving DecidableEq, Repr

def SIZE_MAX : Nat := 2 ^ 64 - 1

/-- Value of `x + 1` for a `size_t`. -/
def incr (x : Nat) : Nat := (x + 1) % (SIZE_MAX + 1)

/-- Value of `x - 1` for a `size_t`. -/
def decr (x : Nat) : Nat := (x + SIZE_MAX) % (SIZE_MAX + 1)

/-- Class `Element`: the pair `data` (`key`, `value`) and the flags. The member
`used` of the source is never read nor written and is left out. -/
structure Element (K V : Type) where
  key : K
  value : V
  is_used : Bool
  is_empty : Bool
  last : Bool
  next : Nat
deriving DecidableEq, Repr

/-- The default constructor `Element()`. -/
def Element.fresh {K V : Type} [Inhabited K] [Inhabited V] : Element K V :=
  { key := default, value := default, is_used := false, is_empty := true,
    last := true, next := SIZE_MAX }

/-- The data members of `HashMap` (the hasher is a parameter of the operations). -/
structure Table (K V : Type) where
  current_size : Nat
  size_id : Nat
  hash_capacity : Nat
  capacity : Nat
  collision_bucket_id : Nat
  data : List (Element K V)
deriving DecidableEq, Repr

def sizes : List Nat :=
  [5, 11, 23, 47, 97, 197, 397, 797, 1597,
   3203, 6421, 12853, 25717, 51437, 102877,
   205759, 411527, 823117, 1646237, 3292489, 6584983, 13169977, 28973957]

/-- The constant `CELLAR_FACTOR = 1`. -/
def CELLAR_FACTOR : Nat := 1

/-- The expression `std::ceil(hash_capacity + hash_capacity * CELLAR_FACTOR)`: with
`CELLAR_FACTOR = 1.0` the sum is an integer below `2 ^ 53`, so it is computed
exactly and `ceil` leaves it unchanged. -/
def cellar_capacity (hash_capacity : Nat) : Nat :=
  hash_capacity + hash_capacity * CELLAR_FACTOR

/-- Numerator of `MAX_LOAD_FACTOR`: the `double` nearest to `0.3` is
`5404319552844595 / 2 ^ 54`. -/
def MAX_LOAD_FACTOR_num : Nat := 5404319552844595

/-- Number of binary digits of `n` (at most `fuel` of them are counted). -/
def bit_length : Nat → Nat → Nat
  | 0, _ => 0
  | fuel + 1, n => if n = 0 then 0 else bit_length fuel (n / 2) + 1

/-- Rounding of the integer `p` to 53 significant bits, to nearest, ties to even. -/
def round53 (p : Nat) : Nat :=
  let s := bit_length 128 p - 53
  let q := p / 2 ^ s
  let r := p % 2 ^ s
  if 2 ^ s < 2 * r ∨ (2 * r = 2 ^ s ∧ q % 2 = 1) then (q + 1) * 2 ^ s else q * 2 ^ s

/-- The `double` product `c * MAX_LOAD_FACTOR` in units of `2 ^ (-54)`, for a
`size_t` value `c < 2 ^ 53` (which converts to `double` exactly). -/
def dmul_load (c : Nat) : Nat := round53 (c * MAX_LOAD_FACTOR_num)

/-- The comparison `n > c * MAX_LOAD_FACTOR` of `rehash`. -/
def exceeds_load (n c : Nat) : Bool := decide (dmul_load c < n * 2 ^ 54)

/-- The comparison `n >= c * MAX_LOAD_FACTOR` of `insert`. -/
def reaches_load (n c : Nat) : Bool := decide (dmul_load c ≤ n * 2 ^ 54)

section ops

variable {K V : Type} [DecidableEq K] [Inhabited K] [Inhabited V]

/-- A vector of `n` default-constructed elements, as `init()` leaves it. -/
def init (n : Nat) : List (Element K V) := List.replicate n Element.fresh

/-- State after the member initialisers and `init()` for tier `size_id` whose
schedule entry is `h`. -/
def blank (size_id h : Nat) : Table K V :=
  { current_size := 0
    size_id := size_id
    hash_capacity := h
    capacity := cellar_capacity h
    collision_bucket_id := decr (cellar_capacity h)
    data := init (cellar_capacity h) }

/-- The constructor `HashMap(const Hash &)`: `size_id = 1`, `hash_capacity = sizes[1]`. -/
def empty : Table K V := blank 1 11

/-- The loop of `get_key_id` started at slot `i`. -/
def get_key_id_loop (t : Table K V) (key : K) : Nat → Nat → Outcome Nat
  | 0, _ => .fault .fuel
  | fuel + 1, i =>
    match t.data[i]? with
    | none => .fault .bounds
    | some e =>
      if e.last = false then
        if e.is_empty = false ∧ e.key = key then .ok i
        else if e.next < t.capacity then get_key_id_loop t key fuel e.next
        else .fault .assertion
      else if e.is_empty = false ∧ e.key = key then .ok i
      else .ok t.capacity

/-- The member `get_key_id`: slot of `key`, or `capacity`. -/
def get_key_id (hash : K → Nat) (fuel : Nat) (t : Table K V) (key : K) : Outcome Nat :=
  get_key_id_loop t key fuel (hash key % t.hash_capacity)

/-- The chain walk of `insert` (`while (data[i]->is_used && !data[i]->last)`). -/
def insert_walk (t : Table K V) : Nat → Nat → Outcome Nat
  | 0, _ => .fault .fuel
  | fuel + 1, i =>
    match t.data[i]? with
    | none => .fault .bounds
    | some e =>
      if e.is_used = true ∧ e.last = false then
        if e.next = SIZE_MAX then .fault .assertion else insert_walk t fuel e.next
      else .ok i

/-- The `while` loop of `update_collision_bucket_id`. -/
def lower_cursor (data : List (Element K V)) : Nat → Outcome Nat
  | 0 => .ok 0
  | c + 1 =>
    match data[c + 1]? with
    | none => .fault .bounds
    | some e => if e.is_used = true then lower_cursor data c else .ok (c + 1)

/-- The member `update_collision_bucket_id`, with `rehash` as a parameter. -/
def update_collision_bucket_id (rehash : Table K V → Outcome (Table K V))
    (t : Table K V) : Outcome (Table K V) :=
  match lower_cursor t.data t.collision_bucket_id with
  | .fault f => .fault f
  | .ok c =>
    if c = SIZE_MAX then .fault .assertion
    else if c = 0 then rehash { t with collision_bucket_id := c }
    else .ok { t with collision_bucket_id := c }

/-- Lines 334-347 of `insert` without the calls of `update_collision_bucket_id`:
the entry is written at the slot `i` where the walk stopped. The flag tells
whether `update_collision_bucket_id` is called next. -/
def write_entry (t : Table K V) (i : Nat) (key : K) (value : V) :
    Outcome (Table K V × Bool) :=
  match t.data[i]? with
  | none => .fault .bounds
  | some buf =>
    if buf.is_used = false then
      let e : Element K V :=
        { key := key, value := value, is_used := true, is_empty := false,
          last := buf.last, next := buf.next }
      .ok ({ t with data := t.data.set i e }, decide (i = t.collision_bucket_id))
    else
      let d := t.data.set i { buf with last := false, next := t.collision_bucket_id }
      let e : Element K V :=
        { key := key, value := value, is_used := true, is_empty := false,
          last := true, next := SIZE_MAX }
      if t.collision_bucket_id < d.length then
        .ok ({ t with data := d.set t.collision_bucket_id e }, true)
      else .fault .bounds

/-- The member `insert`, with `rehash` as a parameter. -/
def insert_with (hash : K → Nat) (rehash : Table K V → Outcome (Table K V))
    (fuel : Nat) (t : Table K V) (key : K) (value : V) : Outcome (Table K V) :=
  match get_key_id hash fuel t key with
  | .fault f => .fault f
  | .ok id =>
    if id ≠ t.capacity then .ok t
    else
      match insert_walk t fuel (hash key % t.hash_capacity) with
      | .fault f => .fault f
      | .ok i =>
        match write_entry { t with current_size := incr t.current_size } i key value with
        | .fault f => .fault f
        | .ok (t2, upd) =>
          match (if upd = true then update_collision_bucket_id rehash t2 else .ok t2) with
          | .fault f => .fault f
          | .ok t3 =>
            if reaches_load t3.current_size t3.capacity = true then rehash t3 else .ok t3

/-- The loop `for (auto &element: old_data)` of `rehash`. -/
def reinsert (ins : Table K V → K → V → Outcome (Table K V)) :
    List (Element K V) → Table K V → Outcome (Table K V)
  | [], t => .ok t
  | e :: es, t =>
    if e.is_empty = false then
      match ins t e.key e.value with
      | .fault f => .fault f
      | .ok t1 => reinsert ins es t1
    else reinsert ins es t

/-- The member `rehash`, with `insert` as a parameter. -/
def rehash_with (ins : Table K V → K → V → Outcome (Table K V))
    (t : Table K V) : Outcome (Table K V) :=
  let size_id :=
    if exceeds_load t.current_size t.hash_capacity = true then t.size_id + 1 else t.size_id
  match sizes[size_id]? with
  | none => .fault .schedule
  | some h => reinsert ins t.data (blank size_id h)

/-- The member `insert`. -/
def insert (hash : K → Nat) : Nat → Table K V → K → V → Outcome (Table K V)
  | 0, _, _, _ => .fault .fuel
  | fuel + 1, t, key, value =>
    insert_with hash (rehash_with (insert hash fuel)) (fuel + 1) t key value

/-- The member `rehash`. -/
def rehash (hash : K → Nat) (fuel : Nat) (t : Table K V) : Outcome (Table K V) :=
  rehash_with (insert hash fuel) t

/-- The members `find`: the iterator is its slot index `id` (the table is the
argument); `find(key) == end()` holds when the index is `capacity`. -/
def find (hash : K → Nat) (fuel : Nat) (t : Table K V) (key : K) : Outcome Nat :=
  get_key_id hash fuel t key

/-- The member `end`. -/
def end_ (t : Table K V) : Nat := t.capacity

/-- The member `size`. -/
def size (t : Table K V) : Nat := t.current_size

/-- The member `empty`. -/
def is_empty (t : Table K V) : Bool := decide (t.current_size = 0)

/-- The members `operator*` and `operator->` of the iterators: the pair stored at
the slot. -/
def deref (t : Table K V) (id : Nat) : Outcome (K × V) :=
  match t.data[id]? with
  | none => .fault .bounds
  | some e => .ok (e.key, e.value)

/-- The member `erase`. -/
def erase (hash : K → Nat) (fuel : Nat) (t : Table K V) (key : K) : Outcome (Table K V) :=
  match get_key_id hash fuel t key with
  | .fault f => .fault f
  | .ok id =>
    if id = t.capacity then .ok t
    else
      match t.data[id]? with
      | none => .fault .bounds
      | some e =>
        .ok { t with data := t.data.set id { e with is_empty := true },
                     current_size := decr t.current_size }

/-- The member `operator[]`: the table afterwards and the slot whose `value` the
returned reference designates. -/
def index (hash : K → Nat) (fuel : Nat) (t : Table K V) (key : K) :
    Outcome (Table K V × Nat) :=
  match get_key_id hash fuel t key with
  | .fault f => .fault f
  | .ok id =>
    if id = t.capacity then
      match insert hash fuel t key default with
      | .fault f => .fault f
      | .ok t1 =>
        match get_key_id hash fuel t1 key with
        | .fault f => .fault f
        | .ok id1 =>
          if id1 = t1.capacity then .fault .assertion
          else if id1 < t1.data.length then .ok (t1, id1) else .fault .bounds
    else if id < t.data.length then .ok (t, id) else .fault .bounds

/-- The member `at`; the exception `std::out_of_range` is `Fault.out_of_range`. -/
def at_ (hash : K → Nat) (fuel : Nat) (t : Table K V) (key : K) : Outcome V :=
  match get_key_id hash fuel t key with
  | .fault f => .fault f
  | .ok id =>
    if id = t.capacity then .fault .out_of_range
    else
      match t.data[id]? with
      | none => .fault .bounds
      | some e => .ok e.value

/-- The member `clear`. -/
def clear (hash : K → Nat) (fuel : Nat) (t : Table K V) : Outcome (Table K V) :=
  if t.capacity ≤ t.data.length then
    rehash hash fuel
      { t with data := init t.capacity ++ t.data.drop t.capacity, size_id := 0 }
  else .fault .bounds

/-- The loop `while (id < capacity && data[id]->is_empty) ++id` shared by `begin`
and `operator++`; the first argument is `capacity - id`, the number of slots
from `id` to the end of the array. -/
def skip_empty (t : Table K V) : Nat → Nat → Outcome Nat
  | 0, id => .ok id
  | n + 1, id =>
    match t.data[id]? with
    | none => .fault .bounds
    | some e => if e.is_empty = true then skip_empty t n (id + 1) else .ok id

/-- The members `begin`. -/
def begin (t : Table K V) : Outcome Nat := skip_empty t t.capacity 0

/-- The prefix `operator++` of the iterators. -/
def iter_next (t : Table K V) (id : Nat) : Outcome Nat :=
  skip_empty t (t.capacity - (id + 1)) (id + 1)

/-- The slots visited by `for (it = begin(); it != end(); ++it)`, from the
iterator `id` on. -/
def traverse_from (t : Table K V) : Nat → Nat → Outcome (List Nat)
  | 0, _ => .fault .fuel
  | fuel + 1, id =>
    if id = end_ t then .ok []
    else
      match iter_next t id with
      | .fault f => .fault f
      | .ok id1 =>
        match traverse_from t fuel id1 with
        | .fault f => .fault f
        | .ok ids => .ok (id :: ids)

/-- The slots visited by a full traversal. -/
def traverse (fuel : Nat) (t : Table K V) : Outcome (List Nat) :=
  match begin t with
  | .fault f => .fault f
  | .ok id => traverse_from t fuel id

/-- The loop `for (auto it = other.begin(); it != other.end(); ++it) insert(*it)`
of the copy constructor and of `operator=`, from the iterator `id` on. -/
def insert_from (hash : K → Nat) (fuel : Nat) (other : Table K V) :
    Nat → Nat → Table K V → Outcome (Table K V)
  | 0, _, _ => .fault .fuel
  | steps + 1, id, t =>
    if id = end_ other then .ok t
    else
      match deref other id with
      | .fault f => .fault f
      | .ok (key, value) =>
        match insert hash fuel t key value with
        | .fault f => .fault f
        | .ok t1 =>
          match iter_next other id with
          | .fault f => .fault f
          | .ok id1 => insert_from hash fuel other steps id1 t1

/-- The copy constructor `HashMap(const HashMap &other)`. -/
def copy (hash : K → Nat) (fuel : Nat) (other : Table K V) : Outcome (Table K V) :=
  match begin other with
  | .fault f => .fault f
  | .ok id => insert_from hash fuel other fuel id empty

/-- The member `operator=` for `this != &other` (when `this == &other` the
source returns at once and nothing changes). -/
def assign (hash : K → Nat) (fuel : Nat) (t other : Table K V) : Outcome (Table K V) :=
  match clear hash fuel t with
  | .fault f => .fault f
  | .ok t1 =>
    match begin other with
    | .fault f => .fault f
    | .ok id => insert_from hash fuel other fuel id { t1 with data := init t1.data.length }

end ops

/-! ## The free store

The vector `data` of the source holds pointers to elements allocated with `new`.
The definitions above read a table as the elements its pointers designate. The
definitions of this section keep the pointers: a table object is its counters
and its vector of addresses (`PTable`), the free store is shared by all table
objects (`Heap`), and every member reads and writes the elements through the
addresses. -/

section store

variable {K V : Type} [DecidableEq K] [Inhabited K] [Inhabited V]

/-- The free store: cell `a` holds the element that the pointer `a` designates, or
nothing once the element was deleted; `new` appends a cell. -/
abbrev Heap (K V : Type) := List (Option (Element K V))

/-- The data members of a `HashMap` object, with the vector `data` of pointers. -/
structure PTable where
  current_size : Nat
  size_id : Nat
  hash_capacity : Nat
  capacity : Nat
  collision_bucket_id : Nat
  data : List Nat
deriving DecidableEq, Repr

/-- A table object in a free store. -/
structure HState (K V : Type) where
  heap : Heap K V
  tab : PTable

/-- Reading through a pointer; a pointer to a deleted element must not be read. -/
def heap_read (H : Heap K V) (a : Nat) : Outcome (Element K V) :=
  match H[a]? with
  | some (some e) => .ok e
  | _ => .fault .bounds

/-- The expression `delete p` for a pointer `p` that is not null. -/
def heap_free (H : Heap K V) (a : Nat) : Outcome (Heap K V) :=
  match heap_read H a with
  | .fault f => .fault f
  | .ok _ => .ok (H.set a none)

/-- The elements that a vector of pointers designates. -/
def read_all (H : Heap K V) : List Nat → Outcome (List (Element K V))
  | [] => .ok []
  | a :: as =>
    match heap_read H a with
    | .fault f => .fault f
    | .ok e =>
      match read_all H as with
      | .fault f => .fault f
      | .ok es => .ok (e :: es)

/-- The table that the members read through the pointers of a table object. -/
def view (H : Heap K V) (p : PTable) : Outcome (Table K V) :=
  match read_all H p.data with
  | .fault f => .fault f
  | .ok d =>
    .ok (Table.mk p.current_size p.size_id p.hash_capacity p.capacity
      p.collision_bucket_id d)

/-- The member `init()` on a vector of `n` null pointers (in the constructors and
in `rehash`): `delete` of a null pointer does nothing, and every slot gets a
`new Element()`. -/
def init_ptr : Nat → Heap K V → Heap K V × List Nat
  | 0, H => (H, [])
  | n + 1, H =>
    let r := init_ptr n (H ++ [some Element.fresh])
    (r.1, H.length :: r.2)

/-- The loop `delete element; element = new Element()` over pointers that are not
null (the member `init()` in `operator=`, and the loop of `clear`). -/
def reset_ptr : List Nat → Heap K V → Outcome (Heap K V × List Nat)
  | [], H => .ok (H, [])
  | a :: as, H =>
    match heap_free H a with
    | .fault f => .fault f
    | .ok H1 =>
      match reset_ptr as (H1 ++ [some Element.fresh]) with
      | .fault f => .fault f
      | .ok r => .ok (r.1, H1.length :: r.2)

/-- Lines 334-347 of `insert` on the free store. When slot `i` was never written,
`data[i]` gets a new element and the old one is deleted; otherwise the element
of slot `i` is changed in place, the element at the cursor is deleted and
`data[collision_bucket_id]` gets a new element. -/
def write_entry_ptr (s : HState K V) (i : Nat) (key : K) (value : V) :
    Outcome (HState K V × Bool) :=
  match s.tab.data[i]? with
  | none => .fault .bounds
  | some a =>
    match heap_read s.heap a with
    | .fault f => .fault f
    | .ok buf =>
      if buf.is_used = false then
        match heap_free (s.heap ++ [some (Element.mk key value true false buf.last
            buf.next)]) a with
        | .fault f => .fault f
        | .ok H1 =>
          .ok (HState.mk H1 { s.tab with data := s.tab.data.set i s.heap.length },
            decide (i = s.tab.collision_bucket_id))
      else
        match s.tab.data[s.tab.collision_bucket_id]? with
        | none => .fault .bounds
        | some c =>
          match heap_free (s.heap.set a (some (Element.mk buf.key buf.value buf.is_used
              buf.is_empty false s.tab.collision_bucket_id))) c with
          | .fault f => .fault f
          | .ok H2 =>
            .ok (HState.mk (H2 ++ [some (Element.mk key value true false true SIZE_MAX)])
              { s.tab with data := s.tab.data.set s.tab.collision_bucket_id H2.length },
              true)

/-- The member `update_collision_bucket_id` on the free store. -/
def update_collision_bucket_id_ptr (rehash : HState K V → Outcome (HState K V))
    (s : HState K V) : Outcome (HState K V) :=
  match view s.heap s.tab with
  | .fault f => .fault f
  | .ok t =>
    match lower_cursor t.data t.collision_bucket_id with
    | .fault f => .fault f
    | .ok c =>
      if c = SIZE_MAX then .fault .assertion
      else if c = 0 then rehash (HState.mk s.heap { s.tab with collision_bucket_id := c })
      else .ok (HState.mk s.heap { s.tab with collision_bucket_id := c })

/-- The member `insert` on the free store, with `rehash` as a parameter. The two
chain walks only read: they run on the elements that the pointers designate. -/
def insert_with_ptr (hash : K → Nat) (rehash : HState K V → Outcome (HState K V))
    (fuel : Nat) (s : HState K V) (key : K) (value : V) : Outcome (HState K V) :=
  match view s.heap s.tab with
  | .fault f => .fault f
  | .ok t =>
    match get_key_id hash fuel t key with
    | .fault f => .fault f
    | .ok id =>
      if id ≠ t.capacity then .ok s
      else
        match insert_walk t fuel (hash key % t.hash_capacity) with
        | .fault f => .fault f
        | .ok i =>
          match write_entry_ptr
              (HState.mk s.heap { s.tab with current_size := incr s.tab.current_size })
              i key value with
          | .fault f => .fault f
          | .ok (s2, upd) =>
            match (if upd = true then update_collision_bucket_id_ptr rehash s2
                else .ok s2) with
            | .fault f => .fault f
            | .ok s3 =>
              if reaches_load s3.tab.current_size s3.tab.capacity = true then rehash s3
              else .ok s3

/-- The loop `for (auto &element: old_data)` of `rehash` on the free store: the
element is read through the old pointer, reinserted when it is live, and
deleted. -/
def reinsert_ptr (ins : HState K V → K → V → Outcome (HState K V)) :
    List Nat → HState K V → Outcome (HState K V)
  | [], s => .ok s
  | a :: as, s =>
    match heap_read s.heap a with
    | .fault f => .fault f
    | .ok e =>
      match (if e.is_empty = false then ins s e.key e.value else .ok s) with
      | .fault f => .fault f
      | .ok s1 =>
        match heap_free s1.heap a with
        | .fault f => .fault f
        | .ok H2 => reinsert_ptr ins as (HState.mk H2 s1.tab)

/-- State after the member initialisers and `init()` for tier `size_id` whose
schedule entry is `h`, in the free store `H`: the vector holds new elements. -/
def blank_ptr (size_id h : Nat) (H : Heap K V) : HState K V :=
  HState.mk (init_ptr (cellar_capacity h) H).1
    (PTable.mk 0 size_id h (cellar_capacity h) (decr (cellar_capacity h))
      (init_ptr (cellar_capacity h) H).2)

/-- The member `rehash` on the free store, with `insert` as a parameter: the
object gets a new vector of new elements, and the old elements are reinserted
and deleted. -/
def rehash_with_ptr (ins : HState K V → K → V → Outcome (HState K V))
    (s : HState K V) : Outcome (HState K V) :=
  let size_id :=
    if exceeds_load s.tab.current_size s.tab.hash_capacity = true then s.tab.size_id + 1
    else s.tab.size_id
  match sizes[size_id]? with
  | none => .fault .schedule
  | some h => reinsert_ptr ins s.tab.data (blank_ptr size_id h s.heap)

/-- The member `insert` on the free store. -/
def insert_ptr (hash : K → Nat) : Nat → HState K V → K → V → Outcome (HState K V)
  | 0, _, _, _ => .fault .fuel
  | fuel + 1, s, key, value =>
    insert_with_ptr hash (rehash_with_ptr (insert_ptr hash fuel)) (fuel + 1) s key value

/-- The member `rehash` on the free store. -/
def rehash_ptr (hash : K → Nat) (fuel : Nat) (s : HState K V) : Outcome (HState K V) :=
  rehash_with_ptr (insert_ptr hash fuel) s

/-- The member `erase` on the free store: the element is changed in place. -/
def erase_ptr (hash : K → Nat) (fuel : Nat) (s : HState K V) (key : K) :
    Outcome (HState K V) :=
  match view s.heap s.tab with
  | .fault f => .fault f
  | .ok t =>
    match get_key_id hash fuel t key with
    | .fault f => .fault f
    | .ok id =>
      if id = t.capacity then .ok s
      else
        match s.tab.data[id]? with
        | none => .fault .bounds
        | some a =>
          match heap_read s.heap a with
          | .fault f => .fault f
          | .ok e =>
            .ok (HState.mk
              (s.heap.set a (some (Element.mk e.key e.value e.is_used true e.last e.next)))
              { s.tab with current_size := decr s.tab.current_size })

/-- The member `operator[]` on the free store: the state afterwards and the slot
whose `value` the returned reference designates. -/
def index_ptr (hash : K → Nat) (fuel : Nat) (s : HState K V) (key : K) :
    Outcome (HState K V × Nat) :=
  match view s.heap s.tab with
  | .fault f => .fault f
  | .ok t =>
    match get_key_id hash fuel t key with
    | .fault f => .fault f
    | .ok id =>
      if id = t.capacity then
        match insert_ptr hash fuel s key default with
        | .fault f => .fault f
        | .ok s1 =>
          match view s1.heap s1.tab with
          | .fault f => .fault f
          | .ok t1 =>
            match get_key_id hash fuel t1 key with
            | .fault f => .fault f
            | .ok id1 =>
              if id1 = t1.capacity then .fault .assertion
              else if id1 < t1.data.length then .ok (s1, id1) else .fault .bounds
      else if id < t.data.length then .ok (s, id) else .fault .bounds

/-- The statement `m[key] = value`: `operator[]`, then an assignment through the
reference it returns. -/
def store_ptr (hash : K → Nat) (fuel : Nat) (s : HState K V) (key : K) (value : V) :
    Outcome (HState K V) :=
  match index_ptr hash fuel s key with
  | .fault f => .fault f
  | .ok (s1, id) =>
    match s1.tab.data[id]? with
    | none => .fault .bounds
    | some a =>
      match heap_read s1.heap a with
      | .fault f => .fault f
      | .ok e =>
        .ok (HState.mk
          (s1.heap.set a (some (Element.mk e.key value e.is_used e.is_empty e.last e.next)))
          s1.tab)

/-- The member `clear` on the free store. -/
def clear_ptr (hash : K → Nat) (fuel : Nat) (s : HState K V) : Outcome (HState K V) :=
  if s.tab.capacity ≤ s.tab.data.length then
    match reset_ptr (s.tab.data.take s.tab.capacity) s.heap with
    | .fault f => .fault f
    | .ok r =>
      rehash_ptr hash fuel
        (HState.mk r.1
          { s.tab with data := r.2 ++ s.tab.data.drop s.tab.capacity, size_id := 0 })
  else .fault .bounds

/-- The loop `for (auto it = other.begin(); it != other.end(); ++it) insert(*it)`
on the free store, from the iterator `id` on: the iterator reads through the
pointers of `other`. -/
def insert_from_ptr (hash : K → Nat) (fuel : Nat) (other : PTable) :
    Nat → Nat → HState K V → Outcome (HState K V)
  | 0, _, _ => .fault .fuel
  | steps + 1, id, s =>
    match view s.heap other with
    | .fault f => .fault f
    | .ok o =>
      if id = end_ o then .ok s
      else
        match deref o id with
        | .fault f => .fault f
        | .ok (key, value) =>
          match insert_ptr hash fuel s key value with
          | .fault f => .fault f
          | .ok s1 =>
            match view s1.heap other with
            | .fault f => .fault f
            | .ok o1 =>
              match iter_next o1 id with
              | .fault f => .fault f
              | .ok id1 => insert_from_ptr hash fuel other steps id1 s1

/-- The constructor `HashMap(const Hash &)` in the free store `H`. -/
def empty_ptr (H : Heap K V) : HState K V := blank_ptr 1 11 H

/-- The copy constructor `HashMap(const HashMap &other)` in the free store `H`. -/
def copy_ptr (hash : K → Nat) (fuel : Nat) (H : Heap K V) (other : PTable) :
    Outcome (HState K V) :=
  match view (empty_ptr H).heap other with
  | .fault f => .fault f
  | .ok o =>
    match begin o with
    | .fault f => .fault f
    | .ok id => insert_from_ptr hash fuel other fuel id (empty_ptr H)

/-- The member `operator=` on the free store, for `this != &other`. -/
def assign_ptr (hash : K → Nat) (fuel : Nat) (s : HState K V) (other : PTable) :
    Outcome (HState K V) :=
  match clear_ptr hash fuel s with
  | .fault f => .fault f
  | .ok s1 =>
    match reset_ptr s1.tab.data s1.heap with
    | .fault f => .fault f
    | .ok r =>
      match view r.1 other with
      | .fault f => .fault f
      | .ok o =>
        match begin o with
        | .fault f => .fault f
        | .ok id =>
          insert_from_ptr hash fuel other fuel id (HState.mk r.1 { s1.tab with data := r.2 })

end store

/-! ## Specification vocabulary -/

/-- Check that the rounded product `c * MAX_LOAD_FACTOR` separates the same
counts as the exact bound `3 * c / 10`. -/
def load_check (c : Nat) : Bool :=
  decide (((3 * c + 9) / 10 - 1) * 2 ^ 54 < dmul_load c ∧
    dmul_load c ≤ ((3 * c + 9) / 10) * 2 ^ 54 ∧
    (3 * c / 10) * 2 ^ 54 ≤ dmul_load c ∧ dmul_load c < (3 * c / 10 + 1) * 2 ^ 54)

/-- Largest capacity of the growth schedule. -/
def max_capacity : Nat := 57947914

section spec

variable {K V : Type}

/-- Slot `j` is reached from slot `i` by following `next` through slots that are
not terminal. -/
inductive OnChain (d : List (Element K V)) : Nat → Nat → Prop
  | here (i : Nat) : OnChain d i i
  | step {i j : Nat} {e : Element K V} :
      d[i]? = some e → e.last = false → OnChain d e.next j → OnChain d i j

/-- Number of slots that were ever written. -/
def used_count (d : List (Element K V)) : Nat := d.countP (fun e => e.is_used)

/-- Number of slots that hold a live entry. -/
def live_count (d : List (Element K V)) : Nat := d.countP (fun e => !e.is_empty)

/-- Some live slot of the table holds the pair `(k, v)`. -/
def Has (t : Table K V) (k : K) (v : V) : Prop :=
  ∃ (j : Nat) (e : Element K V),
    t.data[j]? = some e ∧ e.is_empty = false ∧ e.key = k ∧ e.value = v

/-- The value stored for `k` in the first live slot that holds `k`. -/
def lookup [DecidableEq K] (t : Table K V) (k : K) : Option V :=
  (t.data.find? (fun e => decide (e.is_empty = false ∧ e.key = k))).map (fun e => e.value)

/-- The keys of the live slots, in slot order. -/
def live_keys (d : List (Element K V)) : List K :=
  (d.filter (fun e => !e.is_empty)).map (fun e => e.key)

/-- Structural invariant of the slot array and the counters. -/
structure Inv (hash : K → Nat) (t : Table K V) : Prop where
  tier : sizes[t.size_id]? = some t.hash_capacity
  cap : t.capacity = cellar_capacity t.hash_capacity
  len : t.data.length = t.capacity
  unused : ∀ (i : Nat) (e : Element K V), t.data[i]? = some e → e.is_used = false →
    e.is_empty = true ∧ e.last = true
  link : ∃ rank : Nat → Nat, (∀ i, rank i ≤ used_count t.data) ∧
    ∀ (i : Nat) (e : Element K V), t.data[i]? = some e → e.last = false →
      e.next < t.data.length ∧ rank e.next < rank i
  target : ∀ (i : Nat) (e : Element K V), t.data[i]? = some e → e.last = false →
    ∃ e1 : Element K V, t.data[e.next]? = some e1 ∧ e1.is_used = true
  home : ∀ (j : Nat) (e : Element K V), t.data[j]? = some e → e.is_empty = false →
    OnChain t.data (hash e.key % t.hash_capacity) j
  uniq : ∀ (i j : Nat) (ei ej : Element K V), t.data[i]? = some ei → t.data[j]? = some ej →
    ei.is_empty = false → ej.is_empty = false → ei.key = ej.key → i = j
  count : t.current_size = live_count t.data

/-- The cellar cursor designates a slot other than slot 0 that was never written,
and every slot above it was. -/
structure Cursor (t : Table K V) : Prop where
  pos : 0 < t.collision_bucket_id
  lt : t.collision_bucket_id < t.data.length
  free : ∀ e : Element K V, t.data[t.collision_bucket_id]? = some e → e.is_used = false
  above : ∀ (j : Nat) (e : Element K V), t.collision_bucket_id < j → t.data[j]? = some e →
    e.is_used = true

/-- The count is below the load threshold of `insert`. -/
def Loaded (t : Table K V) : Prop := reaches_load t.current_size t.capacity = false

/-- No slot is a tombstone: every written slot is live. -/
def Tight (t : Table K V) : Prop := used_count t.data = t.current_size

/-- The invariant that holds between two calls of public members. -/
structure Good (hash : K → Nat) (t : Table K V) : Prop where
  inv : Inv hash t
  cursor : Cursor t
  loaded : Loaded t

/-- The array `d1` is the array `d` after the pair `(k, v)` was written into the
never-written slot `p`; the other slots keep their pair and flags, the links
of the non-terminal slots are kept, and a new link leads to `p`. -/
structure Placed (d d1 : List (Element K V)) (p : Nat) (k : K) (v : V) : Prop where
  len : d1.length = d.length
  old : ∃ b : Element K V, d[p]? = some b ∧ b.is_used = false
  new : ∃ e : Element K V, d1[p]? = some e ∧ e.key = k ∧ e.value = v ∧
    e.is_used = true ∧ e.is_empty = false
  other : ∀ (j : Nat) (e : Element K V), j ≠ p → d[j]? = some e →
    ∃ e1 : Element K V, d1[j]? = some e1 ∧ e1.key = e.key ∧ e1.value = e.value ∧
      e1.is_used = e.is_used ∧ e1.is_empty = e.is_empty ∧ (e.is_used = false → e1 = e)
  chain : ∀ (j : Nat) (e : Element K V), d[j]? = some e → e.last = false →
    ∃ e1 : Element K V, d1[j]? = some e1 ∧ e1.last = false ∧ e1.next = e.next
  links : ∀ (j : Nat) (e1 : Element K V), d1[j]? = some e1 → e1.last = false →
    (∃ e : Element K V, d[j]? = some e ∧ e.last = false ∧ e.next = e1.next) ∨ e1.next = p

/-- The links of the array are well founded, with chains no longer than the
number of written slots. -/
def Linked (d : List (Element K V)) : Prop :=
  ∃ rank : Nat → Nat, (∀ i, rank i ≤ used_count d) ∧
    ∀ (i : Nat) (e : Element K V), d[i]? = some e → e.last = false →
      e.next < d.length ∧ rank e.next < rank i

/-- No two live slots hold the same key. -/
def Uniq (d : List (Element K V)) : Prop :=
  ∀ (i j : Nat) (ei ej : Element K V), d[i]? = some ei → d[j]? = some ej →
    ei.is_empty = false → ej.is_empty = false → ei.key = ej.key → i = j

/-- Contract of `insert`: the invariant is kept, and the pair is added when the
key was absent. -/
def InsertSpec (hash : K → Nat) (ins : Table K V → K → V → Outcome (Table K V)) : Prop :=
  ∀ (t : Table K V) (k : K) (v : V) (t1 : Table K V), Inv hash t → Cursor t →
    ins t k v = .ok t1 →
    Inv hash t1 ∧ Cursor t1 ∧ (Loaded t → Loaded t1) ∧
      ∀ k1 v1, Has t1 k1 v1 ↔ Has t k1 v1 ∨ ((∀ w, ¬ Has t k w) ∧ k1 = k ∧ v1 = v)

/-- Contract of `rehash`: the new table satisfies the invariant and holds the
live pairs of the old array. -/
def RehashSpec (hash : K → Nat) (rh : Table K V → Outcome (Table K V)) : Prop :=
  ∀ (t t1 : Table K V), Uniq t.data → rh t = .ok t1 →
    Inv hash t1 ∧ Cursor t1 ∧ Loaded t1 ∧ ∀ k v, Has t1 k v ↔ Has t k v

/-- What `find(key)` tells its caller: `none` when the iterator equals `end()`,
otherwise the value of the pair the iterator designates. -/
def find_result [DecidableEq K] (hash : K → Nat) (fuel : Nat) (t : Table K V) (key : K) :
    Outcome (Option V) :=
  match find hash fuel t key with
  | .fault f => .fault f
  | .ok id =>
    if id = end_ t then .ok none
    else
      match deref t id with
      | .fault f => .fault f
      | .ok p => .ok (some p.2)

/-- Tables built from the default-constructed one by calls of the public members
that return. -/
inductive Reachable [DecidableEq K] [Inhabited K] [Inhabited V] (hash : K → Nat) :
    Table K V → Prop
  | empty : Reachable hash empty
  | insert {t t1 : Table K V} {fuel : Nat} {k : K} {v : V} :
      Reachable hash t → insert hash fuel t k v = .ok t1 → Reachable hash t1
  | erase {t t1 : Table K V} {fuel : Nat} {k : K} :
      Reachable hash t → erase hash fuel t k = .ok t1 → Reachable hash t1
  | index {t t1 : Table K V} {fuel : Nat} {k : K} {id : Nat} :
      Reachable hash t → index hash fuel t k = .ok (t1, id) → Reachable hash t1
  | clear {t t1 : Table K V} {fuel : Nat} :
      Reachable hash t → clear hash fuel t = .ok t1 → Reachable hash t1
  | copy {t t1 : Table K V} {fuel : Nat} :
      Reachable hash t → copy hash fuel t = .ok t1 → Reachable hash t1
  | assign {t o t1 : Table K V} {fuel : Nat} :
      Reachable hash t → Reachable hash o → assign hash fuel t o = .ok t1 →
      Reachable hash t1

/-- Fuel that suffices for every call on a reachable table. -/
def enough_fuel : Nat := max_capacity + 2

/-- The set of keys that have a live slot. -/
def keys [DecidableEq K] (t : Table K V) : Finset K := (live_keys t.data).toFinset

/-- A client loop `for (auto &p : pairs) m.insert(p)`, as in the constructor from
an initializer list. -/
def insert_list [DecidableEq K] [Inhabited K] [Inhabited V] (hash : K → Nat) (fuel : Nat) :
    List (K × V) → Table K V → Outcome (Table K V)
  | [], t => .ok t
  | p :: ps, t =>
    match insert hash fuel t p.1 p.2 with
    | .fault f => .fault f
    | .ok t1 => insert_list hash fuel ps t1

/-- A call of `insert` or of `erase`. -/
inductive Op (K V : Type) where
  | ins (k : K) (v : V)
  | del (k : K)

/-- A client program: a sequence of `insert` and `erase` calls. -/
def run [DecidableEq K] [Inhabited K] [Inhabited V] (hash : K → Nat) (fuel : Nat) :
    List (Op K V) → Table K V → Outcome (Table K V)
  | [], t => .ok t
  | .ins k v :: ops, t =>
    match insert hash fuel t k v with
    | .fault f => .fault f
    | .ok t1 => run hash fuel ops t1
  | .del k :: ops, t =>
    match erase hash fuel t k with
    | .fault f => .fault f
    | .ok t1 => run hash fuel ops t1

/-- The reference key set: the same calls replayed on a mathematical set. -/
def ref_keys [DecidableEq K] : List (Op K V) → Finset K → Finset K
  | [], s => s
  | .ins k _ :: ops, s => ref_keys ops (Insert.insert k s)
  | .del k :: ops, s => ref_keys ops (s.erase k)

/-- The live element that holds a pair; `insert_list` is the loop of `rehash` over
such elements. -/
def Element.of_pair (p : K × V) : Element K V :=
  { key := p.1, value := p.2, is_used := true, is_empty := false, last := true,
    next := SIZE_MAX }

/-- The pairs read through `operator*` at the slots of a traversal. -/
def deref_all (t : Table K V) : List Nat → Outcome (List (K × V))
  | [] => .ok []
  | id :: ids =>
    match deref t id with
    | .fault f => .fault f
    | .ok p =>
      match deref_all t ids with
      | .fault f => .fault f
      | .ok ps => .ok (p :: ps)

/-- The growth decision of `rehash` (lines 71-73) as a function of the tier, the
primary size of the tier and the count. -/
def next_tier (size_id hash_capacity count : Nat) : Nat :=
  if exceeds_load count hash_capacity = true then size_id + 1 else size_id

/-- The key placement property: a key has at most one live slot, and a live slot
lies on the chain of the home bucket of its key. -/
def KeyPlacement (hash : K → Nat) (t : Table K V) : Prop :=
  (∀ (i j : Nat) (ei ej : Element K V), t.data[i]? = some ei → t.data[j]? = some ej →
    ei.is_empty = false → ej.is_empty = false → ei.key = ej.key → i = j) ∧
  ∀ (j : Nat) (e : Element K V), t.data[j]? = some e → e.is_empty = false →
    OnChain t.data (hash e.key % t.hash_capacity) j

/-- The member `insert` run with a `rehash` that stops the run: it returns a table
exactly when `insert` returns without a call of `rehash`. -/
def insert_no_rehash [DecidableEq K] (hash : K → Nat) (fuel : Nat) (t : Table K V) (key : K)
    (value : V) : Outcome (Table K V) :=
  insert_with hash (fun _ => .fault .assertion) fuel t key value

/-- The slots that the loop of `get_key_id` visits from slot `i` when it finds the
key in none of them: the chain of slot `i`, up to its terminal slot. -/
def chain_slots (d : List (Element K V)) : Nat → Nat → List Nat
  | 0, _ => []
  | fuel + 1, i =>
    match d[i]? with
    | none => []
    | some e => if e.last = false then i :: chain_slots d fuel e.next else [i]

/-- Sequencing: the second step runs on the result of the first, unless the first
stopped the run. -/
def Outcome.and_then {α β : Type} (r : Outcome α) (f : α → Outcome β) : Outcome β :=
  match r with
  | .fault e => .fault e
  | .ok a => f a

/-- Lines 348-350 of `insert`: the load check, with `rehash` as a parameter. -/
def load_step (rehash : Table K V → Outcome (Table K V)) (t : Table K V) :
    Outcome (Table K V) :=
  if reaches_load t.current_size t.capacity = true then rehash t else .ok t

/-- The largest cardinality that the reference key set takes while the calls are
replayed on a mathematical set. -/
def ref_peak [DecidableEq K] : List (Op K V) → Finset K → Nat
  | [], s => s.card
  | .ins k _ :: ops, s => max s.card (ref_peak ops (Insert.insert k s))
  | .del k :: ops, s => max s.card (ref_peak ops (s.erase k))

/-- The states in which the program calls `rehash`. The member is private; it is
called by `update_collision_bucket_id` when `insert` has driven the cursor to
slot 0 (then the load check follows on the result), by the load check of
`insert`, and by `clear` after the slots were reset and `size_id` was set to 0.
The table `t2` is the argument of the call: `insert`, run with any function `rh`
in the place of `rehash`, applies `rh` to `t2`. -/
inductive RehashCall [DecidableEq K] [Inhabited K] [Inhabited V] (hash : K → Nat) :
    Table K V → Prop
  | cursor {t t2 : Table K V} {fuel : Nat} {k : K} {v : V} :
      Reachable hash t → enough_fuel ≤ fuel → find_result hash fuel t k = .ok none →
      (∀ rh : Table K V → Outcome (Table K V),
        insert_with hash rh fuel t k v = (rh t2).and_then (load_step rh)) →
      RehashCall hash t2
  | load {t t2 : Table K V} {fuel : Nat} {k : K} {v : V} :
      Reachable hash t → enough_fuel ≤ fuel → find_result hash fuel t k = .ok none →
      (∀ rh : Table K V → Outcome (Table K V), insert_with hash rh fuel t k v = rh t2) →
      RehashCall hash t2
  | clear {t : Table K V} :
      Reachable hash t →
      RehashCall hash
        { t with data := init t.capacity ++ t.data.drop t.capacity, size_id := 0 }

/-- A call that changes a table: `insert`, `erase`, `operator[]`, or an assignment
`m[key] = value` through the reference that `operator[]` returns. -/
inductive Mut (K V : Type) where
  | ins (k : K) (v : V)
  | del (k : K)
  | idx (k : K)
  | put (k : K) (v : V)

/-- One call of a client on a table object of the free store. -/
def step_ptr [DecidableEq K] [Inhabited K] [Inhabited V] (hash : K → Nat) (fuel : Nat)
    (s : HState K V) : Mut K V → Outcome (HState K V)
  | .ins k v => insert_ptr hash fuel s k v
  | .del k => erase_ptr hash fuel s k
  | .idx k =>
    match index_ptr hash fuel s k with
    | .fault f => .fault f
    | .ok r => .ok r.1
  | .put k v => store_ptr hash fuel s k v

/-- A client program that changes one table object of the free store. -/
def run_ptr [DecidableEq K] [Inhabited K] [Inhabited V] (hash : K → Nat) (fuel : Nat) :
    List (Mut K V) → HState K V → Outcome (HState K V)
  | [], s => .ok s
  | m :: ms, s =>
    match step_ptr hash fuel s m with
    | .fault f => .fault f
    | .ok s1 => run_ptr hash fuel ms s1

/-- What `find(key)` tells its caller when the table is read through the pointers
of the table object `p`. -/
def find_ptr [DecidableEq K] (hash : K → Nat) (fuel : Nat) (H : Heap K V) (p : PTable)
    (key : K) : Outcome (Option V) :=
  match view H p with
  | .fault f => .fault f
  | .ok t => find_result hash fuel t key

/-- The table object `p` designates the table `t` in the free store `H`: the
counters agree, the pointers of two slots are distinct, and the pointer of each
slot designates the element of that slot. -/
structure Rep (H : Heap K V) (p : PTable) (t : Table K V) : Prop where
  current_size : p.current_size = t.current_size
  size_id : p.size_id = t.size_id
  hash_capacity : p.hash_capacity = t.hash_capacity
  capacity : p.capacity = t.capacity
  collision_bucket_id : p.collision_bucket_id = t.collision_bucket_id
  inj : ∀ (i j a : Nat), p.data[i]? = some a → p.data[j]? = some a → i = j
  len : p.data.length = t.data.length
  cells : ∀ (j a : Nat) (e : Element K V), p.data[j]? = some a → t.data[j]? = some e →
    H[a]? = some (some e)

/-- The frame of a call on a table object whose pointers were `own` and are `own1`
afterwards: the free store only grows, the cells that the object did not own are
unchanged, and the object owns old pointers of its own and new cells only. -/
structure Frame (H H1 : Heap K V) (own own1 : List Nat) : Prop where
  len : H.length ≤ H1.length
  keep : ∀ a, a < H.length → a ∉ own → H1[a]? = H[a]?
  fresh : ∀ a, a ∈ own1 → a ∈ own ∨ H.length ≤ a

/-- Frame contract of a function that stands for `rehash`. -/
def FrameRehash (rh : HState K V → Outcome (HState K V)) : Prop :=
  ∀ s s1, rh s = .ok s1 → Frame s.heap s1.heap s.tab.data s1.tab.data

/-- Frame contract of a function that stands for `insert`. -/
def FrameInsert (ins : HState K V → K → V → Outcome (HState K V)) : Prop :=
  ∀ s k v s1, ins s k v = .ok s1 → Frame s.heap s1.heap s.tab.data s1.tab.data

/-- Simulation contract of a function that stands for `rehash`: when the call on
the table returns, the call on a table object that designates the table returns
a table object that designates the result. -/
def SimRehash (rh : Table K V → Outcome (Table K V))
    (rhp : HState K V → Outcome (HState K V)) : Prop :=
  ∀ (s : HState K V) (t t1 : Table K V), Rep s.heap s.tab t → rh t = .ok t1 →
    ∃ s1, rhp s = .ok s1 ∧ Rep s1.heap s1.tab t1

/-- Simulation contract of a function that stands for `insert`. -/
def SimInsert (ins : Table K V → K → V → Outcome (Table K V))
    (insp : HState K V → K → V → Outcome (HState K V)) : Prop :=
  ∀ (s : HState K V) (t : Table K V) (k : K) (v : V) (t1 : Table K V),
    Rep s.heap s.tab t → ins t k v = .ok t1 →
    ∃ s1, insp s k v = .ok s1 ∧ Rep s1.heap s1.tab t1

end spec

/-! ## Sample tables -/

/-- The table of a call that returned (the default-constructed table otherwise). -/
def Outcome.table {K V : Type} [Inhabited K] [Inhabited V] :
    Outcome (Table K V) → Table K V
  | .ok t => t
  | .fault _ => empty

/-- Six pairs; the keys 1, 12 and 23 share the home bucket 1 of the initial tier. -/
def sample_pairs : List (Nat × Nat) := [(1, 10), (12, 120), (23, 230), (2, 20), (3, 30), (4, 40)]

/-- The table that holds `sample_pairs`, with the identity as hash function: one
more pair makes it reach the load threshold of its tier. -/
def sample : Table Nat Nat := (insert_list id 64 sample_pairs empty).table

/-- The scenario of the specification: insert `(1, 10)`, `(2, 20)`, `(1, 30)`, then
erase key 1. -/
def sample_ops : List (Op Nat Nat) := [.ins 1 10, .ins 2 20, .ins 1 30, .del 1]

/-- The table of the lowest tier (capacity 10) that `clear` leaves when it is called
on the default-constructed table, after the insertion of the keys 0 and 1. -/
def small_sample : Table Nat Nat :=
  (insert_list id 64 [(0, 0), (1, 10)] (clear id 64 empty).table).table

/-- The calls `insert(0, 0); erase(0)` repeated `n` times. -/
def churn_ops : Nat → List (Op Nat Nat)
  | 0 => []
  | n + 1 => .ins 0 0 :: .del 0 :: churn_ops n

/-- The default-constructed table after twelve rounds of `insert(0, 0); erase(0)`. -/
def churned : Table Nat Nat := (run id 64 (churn_ops 12) empty).table

/-- The table on which `insert(34, 340)`, applied to `sample`, calls `rehash`: the
pair was written and the count is 7 (the table that `insert` returns when it is
run with a `rehash` that returns its argument). -/
def sample_full : Table Nat Nat := (insert_with id Outcome.ok 64 sample 34 340).table

/-- A free store that holds the elements of `sample` in its cells 0 to 21. -/
def sample_store : Heap Nat Nat := sample.data.map some

/-- A table object whose pointers designate the elements of `sample` in
`sample_store`. -/
def sample_ptr : PTable :=
  PTable.mk sample.current_size sample.size_id sample.hash_capacity sample.capacity
    sample.collision_bucket_id (List.range sample.data.length)

/-- The copy of `sample_ptr` made by the copy constructor, after the calls
`c[1] = 99; c.erase(12); c.insert({5, 50}); c[7];` on the copy. -/
def sample_copy_run : Outcome (HState Nat Nat) :=
  (copy_ptr id 64 sample_store sample_ptr).and_then
    (run_ptr id 64 [.put 1 99, .del 12, .ins 5 50, .idx 7])

/-! ## The load thresholds -/

set_option maxRecDepth 100000 in
theorem load_check_all :
    sizes.all (fun h => load_check h && load_check (cellar_capacity h)) = true := by
  decide

theorem load_check_sizes {h : Nat} (hm : h ∈ sizes) :
    load_check h = true ∧ load_check (cellar_capacity h) = true := by
  have := List.all_eq_true.mp load_check_all h hm
  simpa using this

theorem pow54 : (2 : Nat) ^ 54 = 18014398509481984 := by norm_num

theorem exceeds_load_of_check {c : Nat} (hc : load_check c = true) (n : Nat) :
    exceeds_load n c = decide (3 * c < 10 * n) := by
  unfold load_check at hc
  unfold exceeds_load
  generalize dmul_load c = D at hc ⊢
  simp only [decide_eq_true_eq] at hc
  apply decide_eq_decide.mpr
  rw [pow54] at hc ⊢
  omega

theorem reaches_load_of_check {c : Nat} (hc : load_check c = true) (n : Nat) :
    reaches_load n c = decide (3 * c ≤ 10 * n) := by
  unfold load_check at hc
  unfold reaches_load
  generalize dmul_load c = D at hc ⊢
  simp only [decide_eq_true_eq] at hc
  apply decide_eq_decide.mpr
  rw [pow54] at hc ⊢
  omega

theorem sizes_mem {i h : Nat} (hs : sizes[i]? = some h) : h ∈ sizes :=
  List.getElem?_mem hs

theorem sizes_bounds {h : Nat} (hm : h ∈ sizes) : 5 ≤ h ∧ h ≤ 28973957 := by
  have : ∀ x ∈ sizes, 5 ≤ x ∧ x ≤ 28973957 := by decide
  exact this h hm

theorem sizes_index {i h : Nat} (hs : sizes[i]? = some h) : i < 23 := by
  have := (List.getElem?_eq_some.mp hs).1
  simpa [sizes] using this

theorem sizes_next {i h : Nat} (hs : sizes[i]? = some h) (hi : i < 22) :
    ∃ h1, sizes[i + 1]? = some h1 ∧ 2 * h + 1 ≤ h1 := by
  have key : ∀ j : Fin 22, ∀ x, sizes[j.val]? = some x →
      ∃ h1, sizes[j.val + 1]? = some h1 ∧ 2 * x + 1 ≤ h1 := by
    intro j
    fin_cases j <;> simp [sizes]
  exact key ⟨i, hi⟩ h hs

theorem cellar_capacity_eq (h : Nat) : cellar_capacity h = 2 * h := by
  unfold cellar_capacity CELLAR_FACTOR
  omega

/-- On the growth schedule the comparison of `rehash` is `3 * h < 10 * n`. -/
theorem exceeds_load_sizes {i h : Nat} (hs : sizes[i]? = some h) (n : Nat) :
    exceeds_load n h = decide (3 * h < 10 * n) :=
  exceeds_load_of_check (load_check_sizes (sizes_mem hs)).1 n

/-- On the growth schedule the comparison of `insert` is `3 * capacity ≤ 10 * n`. -/
theorem reaches_load_sizes {i h : Nat} (hs : sizes[i]? = some h) (n : Nat) :
    reaches_load n (cellar_capacity h) = decide (3 * cellar_capacity h ≤ 10 * n) :=
  reaches_load_of_check (load_check_sizes (sizes_mem hs)).2 n

end HashMap

namespace HashMap

section walks

variable {K V : Type}

theorem OnChain.cases_head {d : List (Element K V)} {i j : Nat} (h : OnChain d i j) :
    j = i ∨ ∃ e, d[i]? = some e ∧ e.last = false ∧ OnChain d e.next j := by
  cases h with
  | here => exact Or.inl rfl
  | step h1 h2 h3 => exact Or.inr ⟨_, h1, h2, h3⟩

theorem OnChain.trans {d : List (Element K V)} {i j k : Nat} (h1 : OnChain d i j)
    (h2 : OnChain d j k) : OnChain d i k := by
  induction h1 with
  | here => exact h2
  | step a b _ ih => exact OnChain.step a b (ih h2)

/-- What `get_key_id_loop` returns is the first live slot of the chain that holds
the key, or `capacity` when the chain has none. -/
theorem get_key_id_loop_sound [DecidableEq K] (t : Table K V) (key : K) :
    ∀ (fuel i r : Nat), get_key_id_loop t key fuel i = .ok r →
      (∃ e, t.data[r]? = some e ∧ e.is_empty = false ∧ e.key = key ∧ OnChain t.data i r) ∨
      (r = t.capacity ∧ ∀ j e, OnChain t.data i j → t.data[j]? = some e →
        ¬ (e.is_empty = false ∧ e.key = key)) := by
  intro fuel
  induction fuel with
  | zero => intro i r h; simp [get_key_id_loop] at h
  | succ fuel ih =>
    intro i r h
    unfold get_key_id_loop at h
    cases hd : t.data[i]? with
    | none => simp [hd] at h
    | some e =>
      simp only [hd] at h
      by_cases hl : e.last = false
      · simp only [hl, if_true] at h
        by_cases hm : e.is_empty = false ∧ e.key = key
        · simp only [hm, and_self, if_true, Outcome.ok.injEq] at h
          subst h
          exact Or.inl ⟨e, hd, hm.1, hm.2, OnChain.here _⟩
        · simp only [hm, if_false] at h
          by_cases hn : e.next < t.capacity
          · simp only [hn, if_true] at h
            rcases ih _ _ h with ⟨e1, h1, h2, h3, h4⟩ | ⟨h1, h2⟩
            · exact Or.inl ⟨e1, h1, h2, h3, OnChain.step hd hl h4⟩
            · refine Or.inr ⟨h1, ?_⟩
              intro j e1 hc hj
              rcases hc.cases_head with rfl | ⟨e2, he2, _, hc2⟩
              · rw [hd] at hj; cases hj; exact hm
              · rw [hd] at he2; cases he2; exact h2 j e1 hc2 hj
          · simp [hn] at h
      · rw [if_neg hl] at h
        by_cases hm : e.is_empty = false ∧ e.key = key
        · rw [if_pos hm] at h
          cases h
          exact Or.inl ⟨e, hd, hm.1, hm.2, OnChain.here _⟩
        · rw [if_neg hm] at h
          cases h
          refine Or.inr ⟨rfl, ?_⟩
          intro j e1 hc hj
          rcases hc.cases_head with rfl | ⟨e2, he2, hl2, _⟩
          · rw [hd] at hj; cases hj; exact hm
          · rw [hd] at he2; cases he2; exact absurd hl2 hl

/-- With enough fuel `get_key_id_loop` returns. -/
theorem get_key_id_loop_total [DecidableEq K] (t : Table K V) (key : K) (rank : Nat → Nat)
    (hlen : t.data.length = t.capacity)
    (hlink : ∀ (i : Nat) (e : Element K V), t.data[i]? = some e → e.last = false →
      e.next < t.data.length ∧ rank e.next < rank i) :
    ∀ (fuel i : Nat), i < t.data.length → rank i < fuel →
      ∃ r, get_key_id_loop t key fuel i = .ok r := by
  intro fuel
  induction fuel with
  | zero => intro i _ h; omega
  | succ fuel ih =>
    intro i hi hr
    unfold get_key_id_loop
    have hd : t.data[i]? = some t.data[i] := List.getElem?_eq_getElem hi
    simp only [hd]
    by_cases hl : t.data[i].last = false
    · simp only [hl, if_true]
      by_cases hm : t.data[i].is_empty = false ∧ t.data[i].key = key
      · simp [hm]
      · have := hlink i _ hd hl
        simp only [hm, if_false]
        rw [if_pos (by omega)]
        exact ih _ this.1 (by omega)
    · rw [if_neg hl]
      by_cases hm : t.data[i].is_empty = false ∧ t.data[i].key = key
      · exact ⟨_, if_pos hm⟩
      · exact ⟨_, if_neg hm⟩

/-- The walk of `insert` stops at the terminal slot of the chain. -/
theorem insert_walk_sound (t : Table K V) :
    ∀ (fuel i r : Nat), insert_walk t fuel i = .ok r →
      OnChain t.data i r ∧ ∃ e, t.data[r]? = some e ∧ (e.is_used = false ∨ e.last = true) := by
  intro fuel
  induction fuel with
  | zero => intro i r h; simp [insert_walk] at h
  | succ fuel ih =>
    intro i r h
    unfold insert_walk at h
    cases hd : t.data[i]? with
    | none => simp [hd] at h
    | some e =>
      simp only [hd] at h
      by_cases hc : e.is_used = true ∧ e.last = false
      · simp only [hc, and_self, if_true] at h
        by_cases hn : e.next = SIZE_MAX
        · simp [hn] at h
        · simp only [hn, if_false] at h
          have := ih _ _ h
          exact ⟨OnChain.step hd hc.2 this.1, this.2⟩
      · simp only [hc, if_false, Outcome.ok.injEq] at h
        subst h
        refine ⟨OnChain.here _, e, hd, ?_⟩
        by_cases hu : e.is_used = true
        · right
          by_contra hl
          exact hc ⟨hu, by simpa using hl⟩
        · left; simpa using hu

/-- With enough fuel the walk of `insert` returns. -/
theorem insert_walk_total (t : Table K V) (rank : Nat → Nat)
    (hsmall : t.data.length ≤ max_capacity)
    (hlink : ∀ (i : Nat) (e : Element K V), t.data[i]? = some e → e.last = false →
      e.next < t.data.length ∧ rank e.next < rank i) :
    ∀ (fuel i : Nat), i < t.data.length → rank i < fuel →
      ∃ r, insert_walk t fuel i = .ok r := by
  intro fuel
  induction fuel with
  | zero => intro i _ h; omega
  | succ fuel ih =>
    intro i hi hr
    unfold insert_walk
    have hd : t.data[i]? = some t.data[i] := List.getElem?_eq_getElem hi
    simp only [hd]
    by_cases hc : t.data[i].is_used = true ∧ t.data[i].last = false
    · have := hlink i _ hd hc.2
      have hn : t.data[i].next ≠ SIZE_MAX := by
        have : t.data[i].next < max_capacity := by omega
        unfold max_capacity at this
        unfold SIZE_MAX
        omega
      simp only [hc, and_self, if_true, hn, if_false]
      exact ih _ this.1 (by omega)
    · simp [hc]

end walks

end HashMap

namespace HashMap

section basics

variable {K V : Type}

theorem Inv.small {hash : K → Nat} {t : Table K V} (h : Inv hash t) :
    10 ≤ t.data.length ∧ t.data.length ≤ max_capacity ∧ 0 < t.hash_capacity ∧
      t.capacity = 2 * t.hash_capacity := by
  have hb := sizes_bounds (sizes_mem h.tier)
  have hc := h.cap
  rw [cellar_capacity_eq] at hc
  rw [h.len, hc]
  unfold max_capacity
  omega

theorem Inv.home_lt {hash : K → Nat} {t : Table K V} (h : Inv hash t) (k : K) :
    hash k % t.hash_capacity < t.data.length := by
  have hs := h.small
  have := Nat.mod_lt (hash k) hs.2.2.1
  rw [h.len]
  omega

theorem live_count_le (d : List (Element K V)) : live_count d ≤ d.length :=
  List.countP_le_length _

theorem used_count_le (d : List (Element K V)) : used_count d ≤ d.length :=
  List.countP_le_length _

theorem incr_eq {x : Nat} (h : x ≤ max_capacity) : incr x = x + 1 := by
  unfold incr SIZE_MAX
  unfold max_capacity at h
  omega

theorem decr_eq {x : Nat} (h : x ≤ max_capacity) (h0 : 0 < x) : decr x = x - 1 := by
  unfold decr SIZE_MAX
  unfold max_capacity at h
  omega

/-- The invariant does not mention the cellar cursor. -/
theorem Inv.with_cursor {hash : K → Nat} {t : Table K V} (h : Inv hash t) (c : Nat) :
    Inv hash { t with collision_bucket_id := c } :=
  { tier := h.tier, cap := h.cap, len := h.len, unused := h.unused, link := h.link,
    target := h.target, home := h.home, uniq := h.uniq, count := h.count }

/-- Soundness of `get_key_id` on a table that satisfies the invariant. -/
theorem get_key_id_sound [DecidableEq K] {hash : K → Nat} {t : Table K V} (h : Inv hash t)
    {fuel : Nat} {k : K} {r : Nat} (hr : get_key_id hash fuel t k = .ok r) :
    (r < t.capacity ∧ ∃ e, t.data[r]? = some e ∧ e.is_empty = false ∧ e.key = k) ∨
    (r = t.capacity ∧ ∀ v, ¬ Has t k v) := by
  rcases get_key_id_loop_sound t k _ _ _ hr with ⟨e, h1, h2, h3, _⟩ | ⟨h1, h2⟩
  · left
    refine ⟨?_, e, h1, h2, h3⟩
    have := (List.getElem?_eq_some.mp h1).1
    rw [h.len] at this
    exact this
  · right
    refine ⟨h1, ?_⟩
    rintro v ⟨j, e, hj, hl, hk, _⟩
    have hc := h.home j e hj hl
    rw [hk] at hc
    exact h2 j e hc hj ⟨hl, hk⟩

/-- Termination of `get_key_id` on a table that satisfies the invariant. -/
theorem get_key_id_total [DecidableEq K] {hash : K → Nat} {t : Table K V} (h : Inv hash t)
    {fuel : Nat} (hf : t.capacity < fuel) (k : K) :
    ∃ r, get_key_id hash fuel t k = .ok r := by
  obtain ⟨rank, hb, hl⟩ := h.link
  have h1 := hb (hash k % t.hash_capacity)
  have h2 := used_count_le t.data
  have h3 := h.len
  exact get_key_id_loop_total t k rank h.len hl fuel _ (h.home_lt k) (by omega)

theorem lookup_eq_some [DecidableEq K] {hash : K → Nat} {t : Table K V} (h : Inv hash t)
    (k : K) (v : V) : lookup t k = some v ↔ Has t k v := by
  unfold lookup
  constructor
  · intro hl
    rw [Option.map_eq_some'] at hl
    obtain ⟨e, he, hv⟩ := hl
    have hp := List.find?_some he
    have hm := List.mem_of_find?_eq_some he
    obtain ⟨j, hj⟩ := List.mem_iff_getElem?.mp hm
    simp only [decide_eq_true_eq] at hp
    exact ⟨j, e, hj, hp.1, hp.2, hv⟩
  · rintro ⟨j, e, hj, hl, hk, hv⟩
    cases hf : t.data.find? (fun e => decide (e.is_empty = false ∧ e.key = k)) with
    | none =>
      rw [List.find?_eq_none] at hf
      have := hf e (List.getElem?_mem hj)
      simp [hl, hk] at this
    | some e1 =>
      have hp := List.find?_some hf
      have hm := List.mem_of_find?_eq_some hf
      obtain ⟨j1, hj1⟩ := List.mem_iff_getElem?.mp hm
      simp only [decide_eq_true_eq] at hp
      have := h.uniq j1 j e1 e hj1 hj hp.1 hl (hp.2.trans hk.symm)
      subst this
      rw [hj] at hj1
      cases hj1
      simp [hv]

theorem lookup_eq_none [DecidableEq K] (t : Table K V) (k : K) :
    lookup t k = none ↔ ∀ v, ¬ Has t k v := by
  unfold lookup
  rw [Option.map_eq_none', List.find?_eq_none]
  constructor
  · rintro h v ⟨j, e, hj, hl, hk, _⟩
    have := h e (List.getElem?_mem hj)
    simp [hl, hk] at this
  · intro h e he
    obtain ⟨j, hj⟩ := List.mem_iff_getElem?.mp he
    simp only [decide_eq_true_eq, not_and]
    intro hl hk
    exact h e.value ⟨j, e, hj, hl, hk, rfl⟩

/-- Two tables that satisfy the invariant and hold the same pairs answer every
lookup alike. -/
theorem lookup_congr [DecidableEq K] {hash : K → Nat} {t t1 : Table K V} (h : Inv hash t)
    (h1 : Inv hash t1) (hh : ∀ k v, Has t1 k v ↔ Has t k v) (k : K) :
    lookup t1 k = lookup t k := by
  cases hl : lookup t k with
  | none =>
    rw [lookup_eq_none] at hl ⊢
    intro v hv
    exact hl v ((hh k v).mp hv)
  | some v =>
    rw [lookup_eq_some h] at hl
    rw [lookup_eq_some h1]
    exact (hh k v).mpr hl

end basics

end HashMap

namespace HashMap

section placing

variable {K V : Type}

theorem countP_eq_of_pointwise {α : Type} (q : α → Bool) :
    ∀ (d d1 : List α), d1.length = d.length →
      (∀ (j : Nat) (e e1 : α), d[j]? = some e → d1[j]? = some e1 → q e1 = q e) →
      d1.countP q = d.countP q := by
  intro d
  induction d with
  | nil =>
    intro d1 hl _
    cases d1 with
    | nil => rfl
    | cons a r => simp at hl
  | cons a r ih =>
    intro d1 hl hq
    cases d1 with
    | nil => simp at hl
    | cons a1 r1 =>
      have h0 : q a1 = q a := hq 0 a a1 (by simp) (by simp)
      have hr : r1.countP q = r.countP q :=
        ih r1 (by simpa using hl) (fun j e e1 he he1 => hq (j + 1) e e1 (by simpa using he)
          (by simpa using he1))
      rw [List.countP_cons, List.countP_cons, h0, hr]

theorem countP_succ_of_pointwise {α : Type} (q : α → Bool) :
    ∀ (d d1 : List α) (p : Nat), d1.length = d.length →
      (∀ (j : Nat) (e e1 : α), j ≠ p → d[j]? = some e → d1[j]? = some e1 → q e1 = q e) →
      (∃ b, d[p]? = some b ∧ q b = false) → (∃ e, d1[p]? = some e ∧ q e = true) →
      d1.countP q = d.countP q + 1 := by
  intro d
  induction d with
  | nil =>
    intro d1 p _ _ hb _
    obtain ⟨b, hb, _⟩ := hb
    simp at hb
  | cons a r ih =>
    intro d1 p hl hq hb he
    cases d1 with
    | nil => simp at hl
    | cons a1 r1 =>
      have hl1 : r1.length = r.length := by simpa using hl
      cases p with
      | zero =>
        obtain ⟨b, hb1, hb2⟩ := hb
        obtain ⟨e, he1, he2⟩ := he
        simp only [List.getElem?_cons_zero, Option.some.injEq] at hb1 he1
        subst hb1 he1
        have hr : r1.countP q = r.countP q :=
          countP_eq_of_pointwise q r r1 hl1 (fun j e e1 h1 h2 =>
            hq (j + 1) e e1 (by omega) (by simpa using h1) (by simpa using h2))
        rw [List.countP_cons, List.countP_cons, hb2, he2, hr]
        simp
      | succ p =>
        have h0 : q a1 = q a := hq 0 a a1 (by omega) (by simp) (by simp)
        have hr : r1.countP q = r.countP q + 1 :=
          ih r1 p hl1
            (fun j e e1 hj h1 h2 => hq (j + 1) e e1 (by omega) (by simpa using h1)
              (by simpa using h2))
            (by simpa using hb) (by simpa using he)
        rw [List.countP_cons, List.countP_cons, h0, hr]
        omega

theorem OnChain.transfer {d d1 : List (Element K V)}
    (hc : ∀ (j : Nat) (e : Element K V), d[j]? = some e → e.last = false →
      ∃ e1 : Element K V, d1[j]? = some e1 ∧ e1.last = false ∧ e1.next = e.next)
    {i j : Nat} (h : OnChain d i j) : OnChain d1 i j := by
  induction h with
  | here => exact OnChain.here _
  | step h1 h2 _ ih =>
    obtain ⟨e1, h3, h4, h5⟩ := hc _ _ h1 h2
    exact OnChain.step h3 h4 (h5 ▸ ih)

/-- Every slot of `d1` other than `p` comes from a slot of `d`. -/
theorem Placed.back {d d1 : List (Element K V)} {p : Nat} {k : K} {v : V}
    (hp : Placed d d1 p k v) {j : Nat} {e1 : Element K V} (hj : j ≠ p)
    (h1 : d1[j]? = some e1) :
    ∃ e, d[j]? = some e ∧ e1.key = e.key ∧ e1.value = e.value ∧
      e1.is_used = e.is_used ∧ e1.is_empty = e.is_empty ∧ (e.is_used = false → e1 = e) := by
  have hlt : j < d.length := by
    have := (List.getElem?_eq_some.mp h1).1
    rw [hp.len] at this
    exact this
  obtain ⟨e2, h2, h3⟩ := hp.other j d[j] hj (List.getElem?_eq_getElem hlt)
  rw [h1] at h2
  cases h2
  exact ⟨d[j], List.getElem?_eq_getElem hlt, h3⟩

theorem Placed.used_count {d d1 : List (Element K V)} {p : Nat} {k : K} {v : V}
    (hp : Placed d d1 p k v) : used_count d1 = used_count d + 1 := by
  unfold HashMap.used_count
  apply countP_succ_of_pointwise _ d d1 p hp.len
  · intro j e e1 hj he he1
    obtain ⟨e2, h2, h3⟩ := hp.back hj he1
    rw [he] at h2
    cases h2
    exact h3.2.2.1
  · obtain ⟨b, hb, hb2⟩ := hp.old
    exact ⟨b, hb, hb2⟩
  · obtain ⟨e, he, _, _, h4, _⟩ := hp.new
    exact ⟨e, he, h4⟩

theorem Placed.live_count {d d1 : List (Element K V)} {p : Nat} {k : K} {v : V}
    (hp : Placed d d1 p k v)
    (hu : ∀ (i : Nat) (e : Element K V), d[i]? = some e → e.is_used = false →
      e.is_empty = true ∧ e.last = true) :
    live_count d1 = live_count d + 1 := by
  unfold HashMap.live_count
  apply countP_succ_of_pointwise _ d d1 p hp.len
  · intro j e e1 hj he he1
    obtain ⟨e2, h2, h3⟩ := hp.back hj he1
    rw [he] at h2
    cases h2
    rw [h3.2.2.2.1]
  · obtain ⟨b, hb, hb2⟩ := hp.old
    exact ⟨b, hb, by simp [(hu p b hb hb2).1]⟩
  · obtain ⟨e, he, _, _, _, h5⟩ := hp.new
    exact ⟨e, he, by simp [h5]⟩

/-- The pairs of the table after a placement. -/
theorem Placed.has {t t1 : Table K V} {p : Nat} {k : K} {v : V}
    (hp : Placed t.data t1.data p k v)
    (hu : ∀ (i : Nat) (e : Element K V), t.data[i]? = some e → e.is_used = false →
      e.is_empty = true ∧ e.last = true) (k1 : K) (v1 : V) :
    Has t1 k1 v1 ↔ Has t k1 v1 ∨ (k1 = k ∧ v1 = v) := by
  constructor
  · rintro ⟨j, e1, hj, hl, hk, hv⟩
    by_cases hjp : j = p
    · subst hjp
      obtain ⟨e, he, h2, h3, _, _⟩ := hp.new
      rw [hj] at he
      cases he
      exact Or.inr ⟨hk.symm.trans h2, hv.symm.trans h3⟩
    · obtain ⟨e, he, h2, h3, _, h5, _⟩ := hp.back hjp hj
      exact Or.inl ⟨j, e, he, h5 ▸ hl, h2 ▸ hk, h3 ▸ hv⟩
  · rintro (⟨j, e, hj, hl, hk, hv⟩ | ⟨rfl, rfl⟩)
    · have hjp : j ≠ p := by
        rintro rfl
        obtain ⟨b, hb, hb2⟩ := hp.old
        rw [hj] at hb
        cases hb
        have := (hu _ _ hj hb2).1
        rw [hl] at this
        cases this
      obtain ⟨e1, he1, h2, h3, _, h5, _⟩ := hp.other j e hjp hj
      exact ⟨j, e1, he1, h5.trans hl, h2.trans hk, h3.trans hv⟩
    · obtain ⟨e, he, h2, h3, _, h5⟩ := hp.new
      exact ⟨p, e, he, h5, h2, h3⟩

/-- A placement of an absent key keeps the invariant. -/
theorem Placed.inv {hash : K → Nat} {t : Table K V} (h : Inv hash t)
    {d1 : List (Element K V)} {p : Nat} {k : K} {v : V}
    (hp : Placed t.data d1 p k v) (habs : ∀ w, ¬ Has t k w) (hlink : Linked d1)
    (hchain : OnChain d1 (hash k % t.hash_capacity) p) :
    Inv hash { t with current_size := incr t.current_size, data := d1 } := by
  have htarget : ∀ (i : Nat) (e1 : Element K V), d1[i]? = some e1 → e1.last = false →
      ∃ a1 : Element K V, d1[e1.next]? = some a1 ∧ a1.is_used = true := by
    intro i e1 hi hl
    have hnew : ∀ j : Nat, (∃ a : Element K V, t.data[j]? = some a ∧ a.is_used = true) →
        ∃ a1 : Element K V, d1[j]? = some a1 ∧ a1.is_used = true := by
      rintro j ⟨a, ha, hau⟩
      by_cases hjp : j = p
      · subst hjp
        obtain ⟨e, he, _, _, h4, _⟩ := hp.new
        exact ⟨e, he, h4⟩
      · obtain ⟨a1, ha1, _, _, h4, _⟩ := hp.other j a hjp ha
        exact ⟨a1, ha1, h4.trans hau⟩
    rcases hp.links i e1 hi hl with ⟨e, he, hel, hen⟩ | hen
    · rw [← hen]
      exact hnew _ (h.target i e he hel)
    · rw [hen]
      obtain ⟨e, he, _, _, h4, _⟩ := hp.new
      exact ⟨e, he, h4⟩
  refine { tier := h.tier, cap := h.cap, len := hp.len.trans h.len, unused := ?_,
           link := hlink, target := htarget, home := ?_, uniq := ?_, count := ?_ }
  · intro i e1 hi hu
    by_cases hip : i = p
    · subst hip
      obtain ⟨e, he, _, _, h4, _⟩ := hp.new
      have hi' : d1[i]? = some e1 := hi
      rw [hi'] at he
      cases he
      rw [hu] at h4
      cases h4
    · obtain ⟨e, he, _, _, h4, _, h6⟩ := hp.back hip hi
      have := h6 (h4 ▸ hu)
      subst this
      exact h.unused i e1 he hu
  · intro j e1 hj hl
    by_cases hjp : j = p
    · subst hjp
      obtain ⟨e, he, h2, _⟩ := hp.new
      have hj' : d1[j]? = some e1 := hj
      rw [hj'] at he
      cases he
      rw [h2]
      exact hchain
    · obtain ⟨e, he, h2, _, _, h5, _⟩ := hp.back hjp hj
      have := h.home j e he (h5 ▸ hl)
      rw [h2]
      exact OnChain.transfer hp.chain this
  · intro i j ei ej hi hj hli hlj hk
    have hi' : d1[i]? = some ei := hi
    have hj' : d1[j]? = some ej := hj
    by_cases hip : i = p
    · by_cases hjp : j = p
      · rw [hip, hjp]
      · exfalso
        subst hip
        obtain ⟨e, he, h2, _⟩ := hp.new
        rw [hi'] at he
        cases he
        obtain ⟨e, he, h2', _, _, h5, _⟩ := hp.back hjp hj'
        exact habs e.value ⟨j, e, he, h5 ▸ hlj, by rw [← h2', ← hk, h2], rfl⟩
    · by_cases hjp : j = p
      · exfalso
        subst hjp
        obtain ⟨e, he, h2, _⟩ := hp.new
        rw [hj'] at he
        cases he
        obtain ⟨e, he, h2', _, _, h5, _⟩ := hp.back hip hi'
        exact habs e.value ⟨i, e, he, h5 ▸ hli, by rw [← h2', hk, h2], rfl⟩
      · obtain ⟨e, he, h2, _, _, h5, _⟩ := hp.back hip hi'
        obtain ⟨e', he', h2', _, _, h5', _⟩ := hp.back hjp hj'
        exact h.uniq i j e e' he he' (h5 ▸ hli) (h5' ▸ hlj) (by rw [← h2, ← h2', hk])
  · show incr t.current_size = HashMap.live_count d1
    rw [hp.live_count h.unused, h.count]
    apply incr_eq
    have := live_count_le t.data
    have := h.small
    omega

end placing

end HashMap

namespace HashMap

section writing

variable {K V : Type}

theorem Placed.cursor_keep {t : Table K V} {d1 : List (Element K V)} {p : Nat} {k : K} {v : V}
    (hc : Cursor t) (hp : Placed t.data d1 p k v) (hne : p ≠ t.collision_bucket_id) :
    Cursor { t with current_size := incr t.current_size, data := d1 } := by
  refine { pos := hc.pos, lt := ?_, free := ?_, above := ?_ }
  · show t.collision_bucket_id < d1.length
    rw [hp.len]
    exact hc.lt
  · intro e1 he1
    obtain ⟨e, he, _, _, h4, _⟩ := hp.back (Ne.symm hne) he1
    rw [h4]
    exact hc.free e he
  · intro j e1 hj he1
    by_cases hjp : j = p
    · subst hjp
      obtain ⟨e, he, _, _, h4, _⟩ := hp.new
      have he1' : d1[j]? = some e1 := he1
      rw [he1'] at he
      cases he
      exact h4
    · obtain ⟨e, he, _, _, h4, _⟩ := hp.back hjp he1
      rw [h4]
      exact hc.above j e hj he

theorem Placed.cursor_above {t : Table K V} {d1 : List (Element K V)} {k : K} {v : V}
    (hc : Cursor t) (hp : Placed t.data d1 t.collision_bucket_id k v) :
    ∀ (j : Nat) (e : Element K V), t.collision_bucket_id ≤ j → d1[j]? = some e →
      e.is_used = true := by
  intro j e1 hj he1
  by_cases hjp : j = t.collision_bucket_id
  · subst hjp
    obtain ⟨e, he, _, _, h4, _⟩ := hp.new
    rw [he1] at he
    cases he
    exact h4
  · obtain ⟨e, he, _, _, h4, _⟩ := hp.back hjp he1
    rw [h4]
    exact hc.above j e (by omega) he

/-- The effect of lines 334-347 of `insert` on a table that satisfies the
invariant, for an absent key and the terminal slot `i` of its chain. -/
theorem write_entry_spec {hash : K → Nat} {t : Table K V} (h : Inv hash t) (hc : Cursor t)
    {k : K} (v : V) {i : Nat} (hi : OnChain t.data (hash k % t.hash_capacity) i)
    (hend : ∃ e, t.data[i]? = some e ∧ (e.is_used = false ∨ e.last = true)) :
    ∃ d1 upd p,
      write_entry { t with current_size := incr t.current_size } i k v =
        .ok ({ t with current_size := incr t.current_size, data := d1 }, upd) ∧
      Placed t.data d1 p k v ∧ Linked d1 ∧ OnChain d1 (hash k % t.hash_capacity) p ∧
      (upd = true ↔ p = t.collision_bucket_id) := by
  obtain ⟨buf, hbuf, hterm⟩ := hend
  have hilt : i < t.data.length := (List.getElem?_eq_some.mp hbuf).1
  obtain ⟨rank, hrb, hrl⟩ := h.link
  unfold write_entry
  simp only [hbuf]
  by_cases hu : buf.is_used = false
  · -- the slot was never written: the entry goes there
    rw [if_pos hu]
    have hpl : Placed t.data (t.data.set i
        { key := k, value := v, is_used := true, is_empty := false,
          last := buf.last, next := buf.next }) i k v := by
      refine { len := by simp, old := ⟨buf, hbuf, hu⟩, new := ?_, other := ?_, chain := ?_,
               links := ?_ }
      rotate_left 3
      · intro j e1 he1 hl1
        left
        by_cases hji : j = i
        · subst hji
          rw [List.getElem?_set_self hilt] at he1
          cases he1
          exact ⟨buf, hbuf, hl1, rfl⟩
        · rw [List.getElem?_set_ne (Ne.symm hji)] at he1
          exact ⟨e1, he1, hl1, rfl⟩
      · exact ⟨Element.mk k v true false buf.last buf.next,
          List.getElem?_set_self hilt, rfl, rfl, rfl, rfl⟩
      · intro j e hj he
        exact ⟨e, by rw [List.getElem?_set_ne (Ne.symm hj)]; exact he, rfl, rfl, rfl, rfl,
          fun _ => rfl⟩
      · intro j e he hl
        by_cases hji : j = i
        · subst hji
          rw [hbuf] at he
          cases he
          exact ⟨Element.mk k v true false buf.last buf.next,
            List.getElem?_set_self hilt, hl, rfl⟩
        · exact ⟨e, by rw [List.getElem?_set_ne (Ne.symm hji)]; exact he, hl, rfl⟩
    refine ⟨_, _, i, rfl, hpl, ?_, OnChain.transfer hpl.chain hi, by simp⟩
    refine ⟨rank, fun x => ?_, ?_⟩
    · rw [hpl.used_count]
      exact Nat.le_succ_of_le (hrb x)
    · intro j e he hl
      rw [List.length_set]
      by_cases hji : j = i
      · subst hji
        rw [List.getElem?_set] at he
        simp only [hilt, if_true, Option.some.injEq] at he
        subst he
        exact hrl j buf hbuf hl
      · rw [List.getElem?_set_ne (Ne.symm hji)] at he
        exact hrl j e he hl
  · -- the terminal slot is taken: the chain is extended with the cursor slot
    rw [if_neg hu]
    have hu1 : buf.is_used = true := by simpa using hu
    have hlast : buf.last = true := by
      rcases hterm with h1 | h1
      · exact absurd h1 hu
      · exact h1
    have hclt := hc.lt
    have hcd : t.data[t.collision_bucket_id]? = some t.data[t.collision_bucket_id] :=
      List.getElem?_eq_getElem hclt
    have hcfree := hc.free _ hcd
    have hne : i ≠ t.collision_bucket_id := by
      rintro rfl
      rw [hbuf] at hcd
      cases hcd
      exact hu hcfree
    have hclast := (h.unused _ _ hcd hcfree).2
    simp only [List.length_set]
    rw [if_pos hclt]
    have hpl : Placed t.data
        ((t.data.set i { buf with last := false, next := t.collision_bucket_id }).set
          t.collision_bucket_id
          { key := k, value := v, is_used := true, is_empty := false,
            last := true, next := SIZE_MAX }) t.collision_bucket_id k v := by
      refine { len := by simp, old := ⟨_, hcd, hcfree⟩, new := ?_, other := ?_, chain := ?_,
               links := ?_ }
      rotate_left 3
      · intro j e1 he1 hl1
        by_cases hjc : j = t.collision_bucket_id
        · subst hjc
          rw [List.getElem?_set_self (by simpa using hclt)] at he1
          cases he1
          cases hl1
        · rw [List.getElem?_set_ne (Ne.symm hjc)] at he1
          by_cases hji : j = i
          · subst hji
            rw [List.getElem?_set_self hilt] at he1
            cases he1
            exact Or.inr rfl
          · rw [List.getElem?_set_ne (Ne.symm hji)] at he1
            exact Or.inl ⟨e1, he1, hl1, rfl⟩
      · exact ⟨Element.mk k v true false true SIZE_MAX,
          List.getElem?_set_self (by simpa using hclt), rfl, rfl, rfl, rfl⟩
      · intro j e hj he
        rw [List.getElem?_set_ne (Ne.symm hj)]
        by_cases hji : j = i
        · subst hji
          rw [hbuf] at he
          cases he
          refine ⟨Element.mk buf.key buf.value buf.is_used buf.is_empty false
              t.collision_bucket_id,
            List.getElem?_set_self hilt, rfl, rfl, rfl, rfl, ?_⟩
          intro h1
          exact absurd h1 hu
        · exact ⟨e, by rw [List.getElem?_set_ne (Ne.symm hji)]; exact he, rfl, rfl, rfl, rfl,
            fun _ => rfl⟩
      · intro j e he hl
        have hjc : j ≠ t.collision_bucket_id := by
          rintro rfl
          rw [hcd] at he
          cases he
          rw [hclast] at hl
          cases hl
        have hji : j ≠ i := by
          rintro rfl
          rw [hbuf] at he
          cases he
          rw [hlast] at hl
          cases hl
        exact ⟨e, by
          rw [List.getElem?_set_ne (Ne.symm hjc), List.getElem?_set_ne (Ne.symm hji)]
          exact he, hl, rfl⟩
    refine ⟨_, true, t.collision_bucket_id, rfl, hpl, ?_, ?_, by simp⟩
    · refine ⟨fun x => if x = t.collision_bucket_id then 0 else rank x + 1, fun x => ?_, ?_⟩
      · rw [hpl.used_count]
        have := hrb x
        dsimp only
        split <;> omega
      · intro j e he hl
        simp only [List.length_set]
        by_cases hjc : j = t.collision_bucket_id
        · subst hjc
          rw [List.getElem?_set] at he
          simp only [List.length_set, hclt, if_true, Option.some.injEq] at he
          subst he
          cases hl
        · rw [List.getElem?_set_ne (Ne.symm hjc)] at he
          by_cases hji : j = i
          · subst hji
            rw [List.getElem?_set] at he
            simp only [hilt, if_true, Option.some.injEq] at he
            subst he
            refine ⟨hclt, ?_⟩
            simp [hne]
          · rw [List.getElem?_set_ne (Ne.symm hji)] at he
            have := hrl j e he hl
            refine ⟨this.1, ?_⟩
            dsimp only
            rw [if_neg hjc]
            split <;> omega
    · have h1 := OnChain.transfer hpl.chain hi
      have h2 : ((t.data.set i { buf with last := false, next := t.collision_bucket_id }).set
          t.collision_bucket_id
          { key := k, value := v, is_used := true, is_empty := false,
            last := true, next := SIZE_MAX })[i]? =
          some (Element.mk buf.key buf.value buf.is_used buf.is_empty false
            t.collision_bucket_id) := by
        rw [List.getElem?_set_ne hne.symm]
        exact List.getElem?_set_self hilt
      exact h1.trans (OnChain.step h2 rfl (OnChain.here _))

/-- The loop of `update_collision_bucket_id` stops at the first never-written slot
below the cursor, or at slot 0. -/
theorem lower_cursor_spec (d : List (Element K V)) :
    ∀ c : Nat, c < d.length →
      (∀ (j : Nat) (e : Element K V), c < j → d[j]? = some e → e.is_used = true) →
      ∃ c1, lower_cursor d c = .ok c1 ∧ c1 ≤ c ∧
        (∀ (j : Nat) (e : Element K V), c1 < j → d[j]? = some e → e.is_used = true) ∧
        (c1 ≠ 0 → ∀ e : Element K V, d[c1]? = some e → e.is_used = false) := by
  intro c
  induction c with
  | zero =>
    intro _ ha
    exact ⟨0, rfl, Nat.le_refl _, ha, fun h => absurd rfl h⟩
  | succ c ih =>
    intro hc ha
    unfold lower_cursor
    have hd : d[c + 1]? = some d[c + 1] := List.getElem?_eq_getElem hc
    simp only [hd]
    by_cases hu : d[c + 1].is_used = true
    · rw [if_pos hu]
      obtain ⟨c1, h1, h2, h3, h4⟩ := ih (by omega) (fun j e hj he => by
        by_cases hjc : j = c + 1
        · subst hjc
          rw [hd] at he
          cases he
          exact hu
        · exact ha j e (by omega) he)
      exact ⟨c1, h1, by omega, h3, h4⟩
    · rw [if_neg hu]
      refine ⟨c + 1, rfl, Nat.le_refl _, ha, fun _ e he => ?_⟩
      rw [hd] at he
      cases he
      simpa using hu

/-- When every slot but slot 0 was written, at most one slot was not. -/
theorem length_le_used_count (d : List (Element K V))
    (h : ∀ (j : Nat) (e : Element K V), 0 < j → d[j]? = some e → e.is_used = true) :
    d.length ≤ used_count d + 1 := by
  cases d with
  | nil => simp
  | cons a r =>
    have : r.countP (fun e => e.is_used) = r.length := by
      rw [List.countP_eq_length]
      intro e he
      obtain ⟨j, hj⟩ := List.mem_iff_getElem?.mp he
      exact h (j + 1) e (by omega) (by simpa using hj)
    unfold used_count
    rw [List.countP_cons, this]
    simp

end writing

end HashMap

namespace HashMap

section partial_correctness

variable {K V : Type}

theorem blank_getElem? [Inhabited K] [Inhabited V] (i h j : Nat) (e : Element K V)
    (he : (blank i h : Table K V).data[j]? = some e) : e = Element.fresh := by
  unfold blank init at he
  rw [List.getElem?_replicate] at he
  split at he
  · cases he; rfl
  · cases he

theorem blank_has [Inhabited K] [Inhabited V] (i h : Nat) (k : K) (v : V) :
    ¬ Has (blank i h : Table K V) k v := by
  rintro ⟨j, e, hj, hl, _⟩
  rw [blank_getElem? i h j e hj] at hl
  cases hl

theorem used_count_init [Inhabited K] [Inhabited V] (n : Nat) :
    used_count (init n : List (Element K V)) = 0 := by
  unfold used_count init
  rw [List.countP_replicate]
  simp [Element.fresh]

theorem live_count_init [Inhabited K] [Inhabited V] (n : Nat) :
    live_count (init n : List (Element K V)) = 0 := by
  unfold live_count init
  rw [List.countP_replicate]
  simp [Element.fresh]

theorem blank_inv [Inhabited K] [Inhabited V] (hash : K → Nat) {i h : Nat}
    (hs : sizes[i]? = some h) : Inv hash (blank i h : Table K V) := by
  refine { tier := hs, cap := rfl, len := by simp [blank, init], unused := ?_, link := ?_,
           target := ?_, home := ?_, uniq := ?_, count := ?_ }
  · intro j e he _
    rw [blank_getElem? i h j e he]
    exact ⟨rfl, rfl⟩
  · refine ⟨fun _ => 0, fun _ => Nat.zero_le _, ?_⟩
    intro j e he hl
    rw [blank_getElem? i h j e he] at hl
    cases hl
  · intro j e he hl
    rw [blank_getElem? i h j e he] at hl
    cases hl
  · intro j e he hl
    rw [blank_getElem? i h j e he] at hl
    cases hl
  · intro j1 j2 e1 e2 he1 _ hl
    rw [blank_getElem? i h j1 e1 he1] at hl
    cases hl
  · exact (live_count_init _).symm

theorem blank_cursor [Inhabited K] [Inhabited V] {i h : Nat} (hs : sizes[i]? = some h) :
    Cursor (blank i h : Table K V) := by
  have hb := sizes_bounds (sizes_mem hs)
  have hd : decr (cellar_capacity h) = cellar_capacity h - 1 := by
    apply decr_eq
    · rw [cellar_capacity_eq]
      unfold max_capacity
      omega
    · rw [cellar_capacity_eq]
      omega
  have hc := cellar_capacity_eq h
  refine { pos := ?_, lt := ?_, free := ?_, above := ?_ }
  · show 0 < decr (cellar_capacity h)
    rw [hd]
    omega
  · show decr (cellar_capacity h) < (init (cellar_capacity h) : List (Element K V)).length
    rw [hd]
    simp only [init, List.length_replicate]
    omega
  · intro e he
    rw [blank_getElem? i h _ e he]
    rfl
  · intro j e hj he
    have := (List.getElem?_eq_some.mp he).1
    have hj' : decr (cellar_capacity h) < j := hj
    simp only [blank, init, List.length_replicate] at this
    omega

theorem blank_loaded [Inhabited K] [Inhabited V] {i h : Nat} (hs : sizes[i]? = some h) :
    Loaded (blank i h : Table K V) := by
  have hb := sizes_bounds (sizes_mem hs)
  show reaches_load 0 (cellar_capacity h) = false
  rw [reaches_load_sizes hs, cellar_capacity_eq]
  simp
  omega

theorem live_keys_cons (e : Element K V) (r : List (Element K V)) :
    live_keys (e :: r) = if e.is_empty = false then e.key :: live_keys r else live_keys r := by
  unfold live_keys
  cases h : e.is_empty <;> simp [List.filter_cons, h]

theorem mem_live_keys {d : List (Element K V)} {k : K} :
    k ∈ live_keys d ↔ ∃ e ∈ d, e.is_empty = false ∧ e.key = k := by
  unfold live_keys
  simp only [List.mem_map, List.mem_filter, Bool.not_eq_true', and_assoc]

theorem Uniq.tail {a : Element K V} {r : List (Element K V)} (h : Uniq (a :: r)) : Uniq r := by
  intro i j ei ej hi hj hli hlj hk
  have := h (i + 1) (j + 1) ei ej (by simpa using hi) (by simpa using hj) hli hlj hk
  omega

theorem Uniq.nodup {d : List (Element K V)} (h : Uniq d) : (live_keys d).Nodup := by
  induction d with
  | nil => simp [live_keys]
  | cons a r ih =>
    rw [live_keys_cons]
    split
    · rename_i hl
      rw [List.nodup_cons]
      refine ⟨?_, ih h.tail⟩
      intro hm
      obtain ⟨e, he, hel, hek⟩ := mem_live_keys.mp hm
      obtain ⟨j, hj⟩ := List.mem_iff_getElem?.mp he
      have := h 0 (j + 1) a e (by simp) (by simpa using hj) hl hel hek.symm
      omega
    · exact ih h.tail

/-- The loop of `rehash` adds the live pairs of the old array. -/
theorem reinsert_spec {hash : K → Nat} {ins : Table K V → K → V → Outcome (Table K V)}
    (hins : InsertSpec hash ins) :
    ∀ (es : List (Element K V)) (t t1 : Table K V), Inv hash t → Cursor t →
      (live_keys es).Nodup →
      (∀ e ∈ es, e.is_empty = false → ∀ w, ¬ Has t e.key w) →
      reinsert ins es t = .ok t1 →
      Inv hash t1 ∧ Cursor t1 ∧ (Loaded t → Loaded t1) ∧
        ∀ k v, Has t1 k v ↔ Has t k v ∨ ∃ e ∈ es, e.is_empty = false ∧ e.key = k ∧ e.value = v := by
  intro es
  induction es with
  | nil =>
    intro t t1 hi hc _ _ hr
    simp only [reinsert, Outcome.ok.injEq] at hr
    subst hr
    exact ⟨hi, hc, id, fun k v => by simp⟩
  | cons e r ih =>
    intro t t1 hi hc hnd habs hr
    rw [live_keys_cons] at hnd
    unfold reinsert at hr
    by_cases hl : e.is_empty = false
    · rw [if_pos hl] at hr hnd
      rw [List.nodup_cons] at hnd
      cases hins1 : ins t e.key e.value with
      | fault f => simp [hins1] at hr
      | ok t2 =>
        simp only [hins1] at hr
        obtain ⟨hi2, hc2, hl2, hh2⟩ := hins t e.key e.value t2 hi hc hins1
        have habs0 := habs e (List.mem_cons_self _ _) hl
        have habs2 : ∀ e1 ∈ r, e1.is_empty = false → ∀ w, ¬ Has t2 e1.key w := by
          intro e1 he1 hl1 w hw
          rcases (hh2 _ _).mp hw with h1 | ⟨_, h2, _⟩
          · exact habs e1 (List.mem_cons_of_mem _ he1) hl1 w h1
          · exact hnd.1 (mem_live_keys.mpr ⟨e1, he1, hl1, h2⟩)
        obtain ⟨hi1, hc1, hl1, hh1⟩ := ih t2 t1 hi2 hc2 hnd.2 habs2 hr
        refine ⟨hi1, hc1, fun a => hl1 (hl2 a), fun k v => ?_⟩
        rw [hh1, hh2]
        constructor
        · rintro ((h1 | ⟨_, h2, h3⟩) | ⟨e1, he1, h1⟩)
          · exact Or.inl h1
          · exact Or.inr ⟨e, List.mem_cons_self _ _, hl, h2.symm, h3.symm⟩
          · exact Or.inr ⟨e1, List.mem_cons_of_mem _ he1, h1⟩
        · rintro (h1 | ⟨e1, he1, h1, h2, h3⟩)
          · exact Or.inl (Or.inl h1)
          · rcases List.mem_cons.mp he1 with rfl | he1
            · exact Or.inl (Or.inr ⟨habs0, h2.symm, h3.symm⟩)
            · exact Or.inr ⟨e1, he1, h1, h2, h3⟩
    · rw [if_neg hl] at hr hnd
      obtain ⟨hi1, hc1, hl1, hh1⟩ := ih t t1 hi hc hnd
        (fun e1 he1 => habs e1 (List.mem_cons_of_mem _ he1)) hr
      refine ⟨hi1, hc1, hl1, fun k v => ?_⟩
      rw [hh1]
      constructor
      · rintro (h1 | ⟨e1, he1, h1⟩)
        · exact Or.inl h1
        · exact Or.inr ⟨e1, List.mem_cons_of_mem _ he1, h1⟩
      · rintro (h1 | ⟨e1, he1, h1, h2, h3⟩)
        · exact Or.inl h1
        · rcases List.mem_cons.mp he1 with rfl | he1
          · exact absurd h1 hl
          · exact Or.inr ⟨e1, he1, h1, h2, h3⟩

/-- `rehash` meets its contract when the `insert` it calls meets its own. -/
theorem rehash_with_spec [Inhabited K] [Inhabited V] {hash : K → Nat}
    {ins : Table K V → K → V → Outcome (Table K V)}
    (hins : InsertSpec hash ins) : RehashSpec hash (rehash_with ins) := by
  intro t t1 hu hr
  unfold rehash_with at hr
  dsimp only at hr
  split at hr
  · cases hr
  · rename_i h hs
    obtain ⟨hi1, hc1, hl1, hh1⟩ := reinsert_spec hins t.data _ t1 (blank_inv hash hs)
      (blank_cursor hs) hu.nodup (fun e _ _ w => blank_has _ _ _ w) hr
    refine ⟨hi1, hc1, hl1 (blank_loaded hs), fun k v => ?_⟩
    rw [hh1]
    constructor
    · rintro (h1 | ⟨e, he, h1, h2, h3⟩)
      · exact absurd h1 (blank_has _ _ _ _)
      · obtain ⟨j, hj⟩ := List.mem_iff_getElem?.mp he
        exact ⟨j, e, hj, h1, h2, h3⟩
    · rintro ⟨j, e, hj, h1, h2, h3⟩
      exact Or.inr ⟨e, List.getElem?_mem hj, h1, h2, h3⟩

end partial_correctness

end HashMap

namespace HashMap

section insert_step

variable {K V : Type}

/-- The writing step of `insert` for an absent key: the invariant is kept, the
pair is added, one more slot is written, and the cursor is either untouched
and valid or is the slot just written. -/
theorem insert_place {hash : K → Nat} {t : Table K V} (h : Inv hash t) (hc : Cursor t)
    {k : K} (v : V) (habs : ∀ w, ¬ Has t k w) {fuel i : Nat}
    (hw : insert_walk t fuel (hash k % t.hash_capacity) = .ok i) :
    ∃ d1 upd,
      write_entry { t with current_size := incr t.current_size } i k v =
        .ok ({ t with current_size := incr t.current_size, data := d1 }, upd) ∧
      Inv hash { t with current_size := incr t.current_size, data := d1 } ∧
      (∀ k1 v1, Has { t with current_size := incr t.current_size, data := d1 } k1 v1 ↔
        Has t k1 v1 ∨ (k1 = k ∧ v1 = v)) ∧
      used_count d1 = used_count t.data + 1 ∧
      (upd = false → Cursor { t with current_size := incr t.current_size, data := d1 }) ∧
      (upd = true → t.collision_bucket_id < d1.length ∧
        ∀ (j : Nat) (e : Element K V), t.collision_bucket_id ≤ j → d1[j]? = some e →
          e.is_used = true) := by
  obtain ⟨hon, hend⟩ := insert_walk_sound t _ _ _ hw
  obtain ⟨d1, upd, p, h1, hpl, hlk, hch, hup⟩ := write_entry_spec h hc v hon hend
  refine ⟨d1, upd, h1, hpl.inv h habs hlk hch, ?_, hpl.used_count, ?_, ?_⟩
  · intro k1 v1
    exact Placed.has (t := t) hpl h.unused k1 v1
  · intro hf
    apply hpl.cursor_keep hc
    intro hp
    have := hup.mpr hp
    rw [hf] at this
    cases this
  · intro ht
    have hp := hup.mp ht
    subst hp
    exact ⟨by rw [hpl.len]; exact hc.lt, hpl.cursor_above hc⟩

/-- What `update_collision_bucket_id` does when every slot from the cursor upwards
was written. -/
theorem update_collision_bucket_id_eq {hash : K → Nat} {t : Table K V} (h : Inv hash t)
    (hlt : t.collision_bucket_id < t.data.length)
    (habove : ∀ (j : Nat) (e : Element K V), t.collision_bucket_id ≤ j → t.data[j]? = some e →
      e.is_used = true)
    (rh : Table K V → Outcome (Table K V)) :
    ∃ c1, update_collision_bucket_id rh t =
        (if c1 = 0 then rh { t with collision_bucket_id := c1 }
         else .ok { t with collision_bucket_id := c1 }) ∧
      (c1 ≠ 0 → Cursor { t with collision_bucket_id := c1 }) ∧
      (c1 = 0 → t.data.length ≤ used_count t.data + 1) := by
  obtain ⟨c1, h1, h2, h3, h4⟩ := lower_cursor_spec t.data t.collision_bucket_id hlt
    (fun j e hj he => habove j e (by omega) he)
  have hs := h.small
  have hne : c1 ≠ SIZE_MAX := by
    have : c1 < max_capacity := by omega
    unfold max_capacity at this
    unfold SIZE_MAX
    omega
  refine ⟨c1, ?_, ?_, ?_⟩
  · unfold update_collision_bucket_id
    simp only [h1]
    rw [if_neg hne]
  · intro hc1
    exact { pos := Nat.pos_of_ne_zero hc1, lt := by show c1 < t.data.length; omega,
            free := h4 hc1, above := h3 }
  · intro hc1
    subst hc1
    exact length_le_used_count t.data h3

/-- `insert` meets its contract when the `rehash` it calls meets its own. -/
theorem insert_with_spec [DecidableEq K] {hash : K → Nat}
    {rh : Table K V → Outcome (Table K V)} (hrh : RehashSpec hash rh) (fuel : Nat) :
    InsertSpec hash (insert_with hash rh fuel) := by
  intro t k v t1 hi hc hr
  unfold insert_with at hr
  cases hg : get_key_id hash fuel t k with
  | fault f => simp [hg] at hr
  | ok id =>
    simp only [hg] at hr
    by_cases hid : id = t.capacity
    · rw [if_neg (by simpa using hid)] at hr
      have habs : ∀ w, ¬ Has t k w := by
        rcases get_key_id_sound hi hg with ⟨h1, _⟩ | ⟨_, h2⟩
        · omega
        · exact h2
      cases hw : insert_walk t fuel (hash k % t.hash_capacity) with
      | fault f => simp [hw] at hr
      | ok i =>
        simp only [hw] at hr
        obtain ⟨d1, upd, h1, hi2, hh2, _, hcf, hct⟩ := insert_place hi hc v habs hw
        simp only [h1] at hr
        -- the table after the cursor update
        have key : ∀ t3, (if upd = true then update_collision_bucket_id rh
              { t with current_size := incr t.current_size, data := d1 }
            else .ok { t with current_size := incr t.current_size, data := d1 }) = .ok t3 →
            Inv hash t3 ∧ Cursor t3 ∧ ∀ k1 v1, Has t3 k1 v1 ↔ Has t k1 v1 ∨ (k1 = k ∧ v1 = v) := by
          intro t3 h3
          cases hupd : upd with
          | false =>
            rw [hupd] at h3
            simp only [Bool.false_eq_true, if_false, Outcome.ok.injEq] at h3
            subst h3
            exact ⟨hi2, hcf hupd, hh2⟩
          | true =>
            rw [hupd] at h3
            simp only [if_true] at h3
            obtain ⟨c1, e1, e2, _⟩ := update_collision_bucket_id_eq hi2 (hct hupd).1
              (hct hupd).2 rh
            rw [e1] at h3
            by_cases hc1 : c1 = 0
            · rw [if_pos hc1] at h3
              obtain ⟨a1, a2, _, a3⟩ := hrh _ t3 (hi2.with_cursor c1).uniq h3
              exact ⟨a1, a2, fun k1 v1 => (a3 k1 v1).trans (hh2 k1 v1)⟩
            · rw [if_neg hc1] at h3
              cases h3
              exact ⟨hi2.with_cursor c1, e2 hc1, hh2⟩
        cases h3 : (if upd = true then update_collision_bucket_id rh
              { t with current_size := incr t.current_size, data := d1 }
            else .ok { t with current_size := incr t.current_size, data := d1 }) with
        | fault f => simp [h3] at hr
        | ok t3 =>
          simp only [h3] at hr
          obtain ⟨b1, b2, b3⟩ := key t3 h3
          have fin : Inv hash t1 ∧ Cursor t1 ∧ Loaded t1 ∧
              ∀ k1 v1, Has t1 k1 v1 ↔ Has t3 k1 v1 := by
            by_cases hload : reaches_load t3.current_size t3.capacity = true
            · rw [if_pos hload] at hr
              exact hrh t3 t1 b1.uniq hr
            · rw [if_neg hload] at hr
              cases hr
              exact ⟨b1, b2, by simpa [Loaded] using hload, fun _ _ => Iff.rfl⟩
          refine ⟨fin.1, fin.2.1, fun _ => fin.2.2.1, fun k1 v1 => ?_⟩
          rw [fin.2.2.2, b3]
          constructor
          · rintro (a | ⟨a, b⟩)
            · exact Or.inl a
            · exact Or.inr ⟨habs, a, b⟩
          · rintro (a | ⟨_, a, b⟩)
            · exact Or.inl a
            · exact Or.inr ⟨a, b⟩
    · rw [if_pos (by simpa using hid)] at hr
      cases hr
      refine ⟨hi, hc, fun a => a, fun k1 v1 => ?_⟩
      constructor
      · exact Or.inl
      · rintro (a | ⟨a, _⟩)
        · exact a
        · exfalso
          rcases get_key_id_sound hi hg with ⟨_, e, h1, h2, h3⟩ | ⟨h1, _⟩
          · exact a e.value ⟨id, e, h1, h2, h3, rfl⟩
          · exact hid h1

/-- The member `insert` meets its contract. -/
theorem insert_spec [DecidableEq K] [Inhabited K] [Inhabited V] (hash : K → Nat) :
    ∀ fuel : Nat, InsertSpec hash (insert hash fuel : Table K V → K → V → Outcome (Table K V)) := by
  intro fuel
  induction fuel with
  | zero =>
    intro t k v t1 _ _ hr
    simp [insert] at hr
  | succ fuel ih =>
    intro t k v t1 hi hc hr
    rw [insert] at hr
    exact insert_with_spec (rehash_with_spec ih) (fuel + 1) t k v t1 hi hc hr

/-- The member `rehash` meets its contract. -/
theorem rehash_spec [DecidableEq K] [Inhabited K] [Inhabited V] (hash : K → Nat) (fuel : Nat) :
    RehashSpec hash (rehash hash fuel : Table K V → Outcome (Table K V)) :=
  rehash_with_spec (insert_spec hash fuel)

end insert_step

end HashMap

namespace HashMap

section termination

variable {K V : Type}

theorem Inv.count_le {hash : K → Nat} {t : Table K V} (h : Inv hash t) :
    t.current_size ≤ t.capacity ∧ t.current_size ≤ max_capacity := by
  have h1 := live_count_le t.data
  have h2 := h.small
  rw [← h.count, h.len] at h1
  have h3 := h.len
  omega

/-- The comparison of `insert` on a table that satisfies the invariant. -/
theorem Inv.reaches_load {hash : K → Nat} {t : Table K V} (h : Inv hash t) (n : Nat) :
    reaches_load n t.capacity = decide (3 * t.capacity ≤ 10 * n) := by
  rw [h.cap]
  exact reaches_load_sizes h.tier n

/-- An `insert` of an absent key that neither exhausts the cellar nor reaches the
load threshold returns without rehashing. -/
theorem insert_quiet [DecidableEq K] [Inhabited K] [Inhabited V] {hash : K → Nat}
    {t : Table K V} (h : Inv hash t) (hc : Cursor t) {k : K} (v : V)
    (habs : ∀ w, ¬ Has t k w) {fuel : Nat} (hf : t.capacity < fuel)
    (hroom : used_count t.data + 2 < t.data.length)
    (hload : 10 * (t.current_size + 1) < 3 * t.capacity) :
    ∃ t1, insert hash fuel t k v = .ok t1 ∧ t1.size_id = t.size_id ∧
      t1.hash_capacity = t.hash_capacity ∧ t1.capacity = t.capacity ∧
      t1.current_size = t.current_size + 1 ∧
      used_count t1.data = used_count t.data + 1 := by
  cases fuel with
  | zero => omega
  | succ f =>
    rw [insert]
    unfold insert_with
    obtain ⟨r, hg⟩ := get_key_id_total h hf k
    have hr : r = t.capacity := by
      rcases get_key_id_sound h hg with ⟨_, e, h1, h2, h3⟩ | ⟨h1, _⟩
      · exact absurd ⟨r, e, h1, h2, h3, rfl⟩ (habs e.value)
      · exact h1
    subst hr
    simp only [hg, ne_eq, not_true_eq_false, if_false]
    obtain ⟨rank, hrb, hrl⟩ := h.link
    have hs := h.small
    obtain ⟨i, hw⟩ := insert_walk_total t rank hs.2.1 hrl (f + 1) _ (h.home_lt k) (by
      have := hrb (hash k % t.hash_capacity)
      have := used_count_le t.data
      have := h.len
      omega)
    simp only [hw]
    obtain ⟨d1, upd, h1, hi2, _, hu2, hcf, hct⟩ := insert_place h hc v habs hw
    simp only [h1]
    have hincr : incr t.current_size = t.current_size + 1 := incr_eq h.count_le.2
    have hnl : reaches_load (incr t.current_size) t.capacity = false := by
      rw [h.reaches_load, hincr]
      simpa using hload
    cases hupd : upd with
    | false =>
      simp only [Bool.false_eq_true, if_false, hnl]
      exact ⟨_, rfl, rfl, rfl, rfl, hincr, hu2⟩
    | true =>
      simp only [if_true]
      obtain ⟨c1, e1, _, e3⟩ := update_collision_bucket_id_eq hi2 (hct hupd).1 (hct hupd).2
        (rehash_with (insert hash f))
      rw [e1]
      have hc1 : c1 ≠ 0 := by
        intro h0
        have := e3 h0
        have hl : d1.length = t.data.length := hi2.len.trans h.len.symm
        have this' : d1.length ≤ used_count d1 + 1 := this
        omega
      rw [if_neg hc1]
      simp only [hnl, Bool.false_eq_true, if_false]
      exact ⟨_, rfl, rfl, rfl, rfl, hincr, hu2⟩

theorem live_count_cons (e : Element K V) (r : List (Element K V)) :
    live_count (e :: r) = live_count r + if e.is_empty = false then 1 else 0 := by
  unfold live_count
  rw [List.countP_cons]
  cases e.is_empty <;> simp

/-- The loop of `rehash` returns without a nested rehash when the live entries
stay below the load threshold of the new array. -/
theorem reinsert_quiet [DecidableEq K] [Inhabited K] [Inhabited V] (hash : K → Nat)
    (fuel : Nat) :
    ∀ (es : List (Element K V)) (t : Table K V), Inv hash t → Cursor t → Tight t →
      (live_keys es).Nodup →
      (∀ e ∈ es, e.is_empty = false → ∀ w, ¬ Has t e.key w) →
      t.capacity < fuel →
      10 * (t.current_size + live_count es) < 3 * t.capacity →
      ∃ t1, reinsert (insert hash fuel) es t = .ok t1 ∧ t1.size_id = t.size_id ∧
        t1.hash_capacity = t.hash_capacity ∧ t1.capacity = t.capacity ∧
        t1.current_size = t.current_size + live_count es ∧ Tight t1 := by
  intro es
  induction es with
  | nil =>
    intro t _ _ ht _ _ _ _
    exact ⟨t, rfl, rfl, rfl, rfl, by simp [live_count], ht⟩
  | cons e r ih =>
    intro t hi hc ht hnd habs hf hload
    rw [live_keys_cons] at hnd
    rw [live_count_cons] at hload ⊢
    unfold reinsert
    by_cases hl : e.is_empty = false
    · rw [if_pos hl] at hnd hload ⊢
      rw [if_pos hl]
      rw [List.nodup_cons] at hnd
      have habs0 := habs e (List.mem_cons_self _ _) hl
      have hs := hi.small
      have hroom : used_count t.data + 2 < t.data.length := by
        have : used_count t.data = t.current_size := ht
        have := hi.len
        omega
      obtain ⟨t2, e1, e2, e3, e4, e5, e6⟩ := insert_quiet hi hc e.value habs0 hf hroom
        (by omega)
      obtain ⟨hi2, hc2, _, hh2⟩ := insert_spec hash fuel t e.key e.value t2 hi hc e1
      have ht2 : Tight t2 := by
        have : used_count t.data = t.current_size := ht
        show used_count t2.data = t2.current_size
        omega
      have habs2 : ∀ e1 ∈ r, e1.is_empty = false → ∀ w, ¬ Has t2 e1.key w := by
        intro e1 he1 hl1 w hw
        rcases (hh2 _ _).mp hw with h1 | ⟨_, h2, _⟩
        · exact habs e1 (List.mem_cons_of_mem _ he1) hl1 w h1
        · exact hnd.1 (mem_live_keys.mpr ⟨e1, he1, hl1, h2⟩)
      obtain ⟨t1, a1, a2, a3, a4, a5, a6⟩ := ih t2 hi2 hc2 ht2 hnd.2 habs2 (by omega)
        (by omega)
      simp only [e1]
      exact ⟨t1, a1, by omega, by rw [a3, e3], by omega, by omega, a6⟩
    · rw [if_neg hl] at hnd hload ⊢
      rw [if_neg hl]
      obtain ⟨t1, a1, a2, a3, a4, a5, a6⟩ := ih t hi hc ht hnd
        (fun e1 he1 => habs e1 (List.mem_cons_of_mem _ he1)) hf (by omega)
      exact ⟨t1, a1, a2, a3, a4, by omega, a6⟩

theorem blank_tight [Inhabited K] [Inhabited V] (i h : Nat) : Tight (blank i h : Table K V) := by
  show used_count (init (cellar_capacity h) : List (Element K V)) = 0
  exact used_count_init _

/-- The tier that `rehash` selects. -/
theorem rehash_with_fault [Inhabited K] [Inhabited V]
    (ins : Table K V → K → V → Outcome (Table K V)) (t : Table K V)
    (hs : sizes[if exceeds_load t.current_size t.hash_capacity = true then t.size_id + 1
      else t.size_id]? = none) :
    rehash_with ins t = .fault .schedule := by
  unfold rehash_with
  simp only [hs]

/-- `rehash` returns when the live entries stay below the load threshold of the
tier it selects. -/
theorem rehash_with_total [DecidableEq K] [Inhabited K] [Inhabited V] (hash : K → Nat)
    {fuel : Nat} (hf : max_capacity < fuel) {t : Table K V} (hu : Uniq t.data) {h1 : Nat}
    (hs : sizes[if exceeds_load t.current_size t.hash_capacity = true then t.size_id + 1
      else t.size_id]? = some h1)
    (hload : 10 * live_count t.data < 3 * cellar_capacity h1) :
    ∃ t1, rehash_with (insert hash fuel) t = .ok t1 ∧
      t1.size_id = (if exceeds_load t.current_size t.hash_capacity = true then t.size_id + 1
        else t.size_id) ∧
      t1.hash_capacity = h1 ∧ t1.capacity = cellar_capacity h1 ∧
      t1.current_size = live_count t.data ∧ Tight t1 := by
  unfold rehash_with
  simp only [hs]
  have hb := sizes_bounds (sizes_mem hs)
  obtain ⟨t1, a1, a2, a3, a4, a5, a6⟩ := reinsert_quiet hash fuel t.data
    (blank _ h1) (blank_inv hash hs) (blank_cursor hs) (blank_tight _ _) hu.nodup
    (fun e _ _ w => blank_has _ _ _ w)
    (by show cellar_capacity h1 < fuel
        rw [cellar_capacity_eq]
        unfold max_capacity at hf
        omega)
    (by show 10 * (0 + live_count t.data) < 3 * cellar_capacity h1
        omega)
  refine ⟨t1, a1, a2, a3, a4, ?_, a6⟩
  rw [a5]
  show 0 + live_count t.data = live_count t.data
  omega

theorem Loaded.lt {hash : K → Nat} {t : Table K V} (h : Inv hash t) (hl : Loaded t) :
    10 * t.current_size < 3 * t.capacity := by
  unfold Loaded at hl
  rw [h.reaches_load] at hl
  simpa using hl

theorem Loaded.of_lt {hash : K → Nat} {t : Table K V} (h : Inv hash t)
    (hl : 10 * t.current_size < 3 * t.capacity) : Loaded t := by
  unfold Loaded
  rw [h.reaches_load]
  simpa using hl

/-- A `rehash` called by `insert` on a table whose count was below the load
threshold before the insertion: it returns a table below the threshold of its
tier, or the growth schedule is exhausted. -/
theorem rehash_after_insert [DecidableEq K] [Inhabited K] [Inhabited V] {hash : K → Nat}
    {fuel : Nat} (hf : max_capacity < fuel) {t : Table K V} (h : Inv hash t)
    (hload : 10 * t.current_size < 3 * t.capacity + 10) :
    (∃ t1, rehash_with (insert hash fuel) t = .ok t1 ∧ Inv hash t1 ∧ Cursor t1 ∧
      (∀ k v, Has t1 k v ↔ Has t k v) ∧ Tight t1 ∧ Loaded t1 ∧
      t1.size_id ≤ t.size_id + 1 ∧ t1.current_size = t.current_size) ∨
    (rehash_with (insert hash fuel) t = .fault .schedule ∧ t.size_id = 22 ∧
      3 * t.hash_capacity < 10 * t.current_size) := by
  have hs := h.small
  have hex := exceeds_load_sizes h.tier t.current_size
  have hidx := sizes_index h.tier
  have hcount := h.count
  have done : ∀ h1, sizes[if exceeds_load t.current_size t.hash_capacity = true
        then t.size_id + 1 else t.size_id]? = some h1 →
      10 * t.current_size < 3 * cellar_capacity h1 →
      (if exceeds_load t.current_size t.hash_capacity = true
        then t.size_id + 1 else t.size_id) ≤ t.size_id + 1 →
      ∃ t1, rehash_with (insert hash fuel) t = .ok t1 ∧ Inv hash t1 ∧ Cursor t1 ∧
        (∀ k v, Has t1 k v ↔ Has t k v) ∧ Tight t1 ∧ Loaded t1 ∧
        t1.size_id ≤ t.size_id + 1 ∧ t1.current_size = t.current_size := by
    intro h1 hs1 hl1 hle
    obtain ⟨t1, a1, a2, a3, a4, a5, a6⟩ := rehash_with_total hash hf h.uniq hs1
      (by rw [← hcount]; exact hl1)
    obtain ⟨b1, b2, _, b3⟩ := rehash_with_spec (insert_spec hash fuel) t t1 h.uniq a1
    refine ⟨t1, a1, b1, b2, b3, a6, ?_, by rw [a2]; exact hle, by rw [a5, hcount]⟩
    apply Loaded.of_lt b1
    rw [a4, a5, ← hcount]
    exact hl1
  by_cases hx : 3 * t.hash_capacity < 10 * t.current_size
  · have hx1 : exceeds_load t.current_size t.hash_capacity = true := by
      rw [hex]
      simpa using hx
    by_cases h22 : t.size_id < 22
    · obtain ⟨h1, hs1, hh1⟩ := sizes_next h.tier h22
      left
      apply done h1
      · rw [if_pos hx1]
        exact hs1
      · rw [cellar_capacity_eq]
        omega
      · rw [if_pos hx1]
    · right
      refine ⟨rehash_with_fault _ _ ?_, by omega, hx⟩
      rw [if_pos hx1]
      have : t.size_id + 1 = 23 := by omega
      rw [this]
      rfl
  · have hx1 : ¬ exceeds_load t.current_size t.hash_capacity = true := by
      rw [hex]
      simpa using hx
    left
    apply done t.hash_capacity
    · rw [if_neg hx1]
      exact h.tier
    · rw [cellar_capacity_eq]
      omega
    · rw [if_neg hx1]
      omega

/-- The shape of `insert` for an absent key, once the two walks have returned. -/
theorem insert_with_absent [DecidableEq K] {hash : K → Nat} {t : Table K V} (h : Inv hash t)
    (hc : Cursor t) {k : K} (v : V) (habs : ∀ w, ¬ Has t k w) {fuel : Nat}
    (hf : t.capacity < fuel) (rh : Table K V → Outcome (Table K V)) :
    ∃ d1 upd,
      insert_with hash rh fuel t k v =
        (match (if upd = true then update_collision_bucket_id rh
            { t with current_size := t.current_size + 1, data := d1 }
          else .ok { t with current_size := t.current_size + 1, data := d1 }) with
        | .fault f => .fault f
        | .ok t3 => if reaches_load t3.current_size t3.capacity = true then rh t3 else .ok t3) ∧
      Inv hash { t with current_size := t.current_size + 1, data := d1 } ∧
      used_count d1 = used_count t.data + 1 ∧
      (upd = false → Cursor { t with current_size := t.current_size + 1, data := d1 }) ∧
      (upd = true → t.collision_bucket_id < d1.length ∧
        ∀ (j : Nat) (e : Element K V), t.collision_bucket_id ≤ j → d1[j]? = some e →
          e.is_used = true) := by
  unfold insert_with
  obtain ⟨r, hg⟩ := get_key_id_total h hf k
  have hr : r = t.capacity := by
    rcases get_key_id_sound h hg with ⟨_, e, h1, h2, h3⟩ | ⟨h1, _⟩
    · exact absurd ⟨r, e, h1, h2, h3, rfl⟩ (habs e.value)
    · exact h1
  subst hr
  simp only [hg, ne_eq, not_true_eq_false, if_false]
  obtain ⟨rank, hrb, hrl⟩ := h.link
  have hs := h.small
  obtain ⟨i, hw⟩ := insert_walk_total t rank hs.2.1 hrl fuel _ (h.home_lt k) (by
    have := hrb (hash k % t.hash_capacity)
    have := used_count_le t.data
    have := h.len
    omega)
  simp only [hw]
  obtain ⟨d1, upd, h1, hi2, _, hu2, hcf, hct⟩ := insert_place h hc v habs hw
  simp only [h1]
  have hincr : incr t.current_size = t.current_size + 1 := incr_eq h.count_le.2
  rw [hincr] at hi2 hcf
  rw [hincr]
  exact ⟨d1, upd, rfl, hi2, hu2, hcf, hct⟩

/-- `insert` on a table that satisfies the invariant between calls: with enough
fuel it returns a table that satisfies it again, unless the table is in the last
tier of the growth schedule and has to grow. -/
theorem insert_total [DecidableEq K] [Inhabited K] [Inhabited V] {hash : K → Nat}
    {t : Table K V} (hg : Good hash t) {fuel : Nat} (hf : max_capacity + 2 ≤ fuel)
    (k : K) (v : V) :
    (∃ t1, insert hash fuel t k v = .ok t1 ∧ Good hash t1 ∧ (Tight t → Tight t1) ∧
      t1.size_id ≤ t.size_id + 1) ∨
    (insert hash fuel t k v = .fault .schedule ∧ t.size_id = 22 ∧ (∀ w, ¬ Has t k w) ∧
      (Tight t → 3 * t.capacity ≤ 10 * (t.current_size + 1))) := by
  obtain ⟨h, hc, hl⟩ := hg
  have hs := h.small
  have hlt := Loaded.lt h hl
  have hcap : t.capacity < fuel := by
    have := h.len
    omega
  by_cases habs : ∀ w, ¬ Has t k w
  · cases fuel with
    | zero => omega
    | succ f =>
      have hf1 : max_capacity < f := by omega
      rw [insert]
      obtain ⟨d1, upd, e0, hi2, hu2, hcf, hct⟩ := insert_with_absent h hc v habs hcap
        (rehash_with (insert hash f))
      rw [e0]
      -- the last step of `insert`, for the table with the cursor at `c`
      have fin : ∀ c, Cursor (Table.mk (t.current_size + 1) t.size_id t.hash_capacity
            t.capacity c d1) →
          (∃ t1, (if reaches_load (t.current_size + 1) t.capacity = true then
                rehash_with (insert hash f) (Table.mk (t.current_size + 1) t.size_id
                  t.hash_capacity t.capacity c d1)
              else .ok (Table.mk (t.current_size + 1) t.size_id t.hash_capacity
                  t.capacity c d1)) = .ok t1 ∧
            Good hash t1 ∧ (Tight t → Tight t1) ∧ t1.size_id ≤ t.size_id + 1) ∨
          ((if reaches_load (t.current_size + 1) t.capacity = true then
                rehash_with (insert hash f) (Table.mk (t.current_size + 1) t.size_id
                  t.hash_capacity t.capacity c d1)
              else .ok (Table.mk (t.current_size + 1) t.size_id t.hash_capacity
                  t.capacity c d1)) = .fault .schedule ∧
            t.size_id = 22 ∧ (∀ w, ¬ Has t k w) ∧
            (Tight t → 3 * t.capacity ≤ 10 * (t.current_size + 1))) := by
        intro c hc3
        have hi3 := hi2.with_cursor c
        by_cases hrl : reaches_load (t.current_size + 1) t.capacity = true
        · rw [if_pos hrl]
          have hge : 3 * t.capacity ≤ 10 * (t.current_size + 1) := by
            rw [h.reaches_load] at hrl
            simpa using hrl
          have hl3 : 10 * (t.current_size + 1) < 3 * t.capacity + 10 := by omega
          rcases rehash_after_insert hf1 hi3 hl3 with
            ⟨t1, a1, a2, a3, _, a5, a6, a7, _⟩ | ⟨a1, a2, _⟩
          · exact Or.inl ⟨t1, a1, ⟨a2, a3, a6⟩, fun _ => a5, a7⟩
          · exact Or.inr ⟨a1, a2, habs, fun _ => hge⟩
        · rw [if_neg hrl]
          refine Or.inl ⟨_, rfl, ⟨hi3, hc3, ?_⟩, ?_, Nat.le_succ _⟩
          · simpa [Loaded] using hrl
          · intro ht
            have : used_count t.data = t.current_size := ht
            show used_count d1 = t.current_size + 1
            omega
      cases hupd : upd with
      | false =>
        simp only [Bool.false_eq_true, if_false]
        exact fin t.collision_bucket_id (hcf hupd)
      | true =>
        simp only [if_true]
        obtain ⟨c1, e1, e2, e3⟩ := update_collision_bucket_id_eq hi2 (hct hupd).1 (hct hupd).2
          (rehash_with (insert hash f))
        rw [e1]
        by_cases hc1 : c1 = 0
        · rw [if_pos hc1]
          have hlen : d1.length ≤ used_count d1 + 1 := e3 hc1
          have hl3 : 10 * (t.current_size + 1) < 3 * t.capacity + 10 := by omega
          rcases rehash_after_insert hf1 (hi2.with_cursor c1) hl3 with
            ⟨t1, a1, a2, a3, _, a5, a6, a7, _⟩ | ⟨a1, a2, _⟩
          · left
            have a6' : reaches_load t1.current_size t1.capacity = false := a6
            refine ⟨t1, ?_, ⟨a2, a3, a6⟩, fun _ => a5, a7⟩
            simp only [a1, a6', Bool.false_eq_true, if_false]
          · right
            refine ⟨by simp only [a1], a2, habs, ?_⟩
            intro ht
            have : used_count t.data = t.current_size := ht
            have hl1 : d1.length = t.capacity := hi2.len
            omega
        · rw [if_neg hc1]
          exact fin c1 (e2 hc1)
  · left
    refine ⟨t, ?_, ⟨h, hc, hl⟩, id, Nat.le_succ _⟩
    cases fuel with
    | zero => omega
    | succ f =>
      rw [insert]
      unfold insert_with
      obtain ⟨r, hg⟩ := get_key_id_total h hcap k
      have hr : r ≠ t.capacity := by
        rcases get_key_id_sound h hg with ⟨h1, _⟩ | ⟨_, h2⟩
        · omega
        · exact absurd h2 habs
      simp only [hg, ne_eq, hr, not_false_eq_true, if_true]

end termination

end HashMap

namespace HashMap

section erasing

variable {K V : Type}

/-- On a table that satisfies the invariant, `find` reports what `lookup` computes. -/
theorem find_result_eq [DecidableEq K] {hash : K → Nat} {t : Table K V} (h : Inv hash t)
    {fuel : Nat} (hf : t.capacity < fuel) (k : K) :
    find_result hash fuel t k = .ok (lookup t k) := by
  unfold find_result find end_ deref
  obtain ⟨r, hg⟩ := get_key_id_total h hf k
  simp only [hg]
  rcases get_key_id_sound h hg with ⟨h1, e, h2, h3, h4⟩ | ⟨h1, h2⟩
  · rw [if_neg (by omega)]
    simp only [h2]
    have : lookup t k = some e.value := (lookup_eq_some h k e.value).mpr ⟨r, e, h2, h3, h4, rfl⟩
    rw [this]
  · rw [if_pos h1]
    have : lookup t k = none := (lookup_eq_none t k).mpr h2
    rw [this]

/-- If `find` returns at all, it reports what `lookup` computes. -/
theorem find_result_sound [DecidableEq K] {hash : K → Nat} {t : Table K V} (h : Inv hash t)
    {fuel : Nat} {k : K} {r : Option V} (hr : find_result hash fuel t k = .ok r) :
    r = lookup t k := by
  unfold find_result find end_ deref at hr
  cases hg : get_key_id hash fuel t k with
  | fault f => simp [hg] at hr
  | ok id =>
    simp only [hg] at hr
    rcases get_key_id_sound h hg with ⟨h1, e, h2, h3, h4⟩ | ⟨h1, h2⟩
    · rw [if_neg (by omega)] at hr
      simp only [h2, Outcome.ok.injEq] at hr
      rw [← hr]
      exact ((lookup_eq_some h k e.value).mpr ⟨id, e, h2, h3, h4, rfl⟩).symm
    · rw [if_pos h1] at hr
      cases hr
      exact ((lookup_eq_none t k).mpr h2).symm

/-- The two outcomes of `erase`: nothing changes, or one live slot that holds the
key is tombstoned and the count is decremented. -/
theorem erase_shape [DecidableEq K] {hash : K → Nat} {t t1 : Table K V} (h : Inv hash t)
    {fuel : Nat} {k : K} (he : erase hash fuel t k = .ok t1) :
    ((∀ w, ¬ Has t k w) ∧ t1 = t) ∨
    ∃ id e, t.data[id]? = some e ∧ e.is_empty = false ∧ e.key = k ∧
      t1 = { t with data := t.data.set id { e with is_empty := true },
                    current_size := decr t.current_size } := by
  unfold erase at he
  cases hg : get_key_id hash fuel t k with
  | fault f => simp [hg] at he
  | ok id =>
    simp only [hg] at he
    rcases get_key_id_sound h hg with ⟨h1, e, h2, h3, h4⟩ | ⟨h1, h2⟩
    · rw [if_neg (by omega)] at he
      simp only [h2, Outcome.ok.injEq] at he
      exact Or.inr ⟨id, e, h2, h3, h4, he.symm⟩
    · rw [if_pos h1] at he
      cases he
      exact Or.inl ⟨h2, rfl⟩

theorem erase_total [DecidableEq K] {hash : K → Nat} {t : Table K V} (h : Inv hash t)
    {fuel : Nat} (hf : t.capacity < fuel) (k : K) : ∃ t1, erase hash fuel t k = .ok t1 := by
  unfold erase
  obtain ⟨r, hg⟩ := get_key_id_total h hf k
  simp only [hg]
  rcases get_key_id_sound h hg with ⟨h1, e, h2, _⟩ | ⟨h1, _⟩
  · rw [if_neg (by omega)]
    simp only [h2]
    exact ⟨_, rfl⟩
  · rw [if_pos h1]
    exact ⟨_, rfl⟩

/-- Tombstoning a live slot keeps the invariant and removes exactly its pair. -/
theorem tombstone_good {hash : K → Nat} {t : Table K V} (hg : Good hash t) {id : Nat}
    {e : Element K V} (hd : t.data[id]? = some e) (hl : e.is_empty = false) :
    Good hash { t with data := t.data.set id { e with is_empty := true },
                       current_size := decr t.current_size } ∧
    decr t.current_size + 1 = t.current_size ∧
    ∀ k1 v1, Has { t with data := t.data.set id { e with is_empty := true },
                          current_size := decr t.current_size } k1 v1 ↔
      Has t k1 v1 ∧ k1 ≠ e.key := by
  obtain ⟨h, hc, hld⟩ := hg
  have hilt : id < t.data.length := (List.getElem?_eq_some.mp hd).1
  have hget : ∀ j, (t.data.set id { e with is_empty := true })[j]? =
      if id = j then some { e with is_empty := true } else t.data[j]? := by
    intro j
    rw [List.getElem?_set]
    simp [hilt]
  have hused : used_count (t.data.set id { e with is_empty := true }) = used_count t.data := by
    apply countP_eq_of_pointwise _ _ _ (by simp)
    intro j a a1 ha ha1
    rw [hget] at ha1
    split at ha1
    · rename_i hj
      subst hj
      rw [hd] at ha
      cases ha
      cases ha1
      rfl
    · rw [ha] at ha1
      cases ha1
      rfl
  have hlive : live_count t.data =
      live_count (t.data.set id { e with is_empty := true }) + 1 := by
    apply countP_succ_of_pointwise _ _ _ id (by simp)
    · intro j a a1 hj ha ha1
      rw [hget, if_neg (Ne.symm hj)] at ha
      rw [ha] at ha1
      cases ha1
      rfl
    · exact ⟨Element.mk e.key e.value e.is_used true e.last e.next,
        by rw [hget, if_pos rfl], rfl⟩
    · exact ⟨e, hd, by simp [hl]⟩
  have hpos : 0 < t.current_size := by
    rw [h.count]
    omega
  have hdecr : decr t.current_size = t.current_size - 1 := decr_eq h.count_le.2 hpos
  have hchain : ∀ (j : Nat) (a : Element K V), t.data[j]? = some a → a.last = false →
      ∃ a1 : Element K V, (t.data.set id { e with is_empty := true })[j]? = some a1 ∧
        a1.last = false ∧ a1.next = a.next := by
    intro j a ha hla
    rw [hget]
    split
    · rename_i hj
      subst hj
      rw [hd] at ha
      cases ha
      exact ⟨_, rfl, hla, rfl⟩
    · exact ⟨a, ha, hla, rfl⟩
  have hinv : Inv hash (Table.mk (decr t.current_size) t.size_id t.hash_capacity t.capacity
      t.collision_bucket_id (t.data.set id { e with is_empty := true })) := by
    have htarget : ∀ (j : Nat) (a : Element K V),
        (t.data.set id { e with is_empty := true })[j]? = some a → a.last = false →
        ∃ a1 : Element K V, (t.data.set id { e with is_empty := true })[a.next]? = some a1 ∧
          a1.is_used = true := by
      intro j a ha hla
      have hold : ∃ b : Element K V, t.data[j]? = some b ∧ b.last = false ∧ b.next = a.next := by
        rw [hget] at ha
        split at ha
        · rename_i hj
          subst hj
          cases ha
          exact ⟨e, hd, hla, rfl⟩
        · exact ⟨a, ha, hla, rfl⟩
      obtain ⟨b, hb, hbl, hbn⟩ := hold
      obtain ⟨b1, hb1, hb1u⟩ := h.target j b hb hbl
      rw [← hbn, hget]
      split
      · rename_i hj
        rw [← hj, hd] at hb1
        cases hb1
        exact ⟨_, rfl, hb1u⟩
      · exact ⟨b1, hb1, hb1u⟩
    refine { tier := h.tier, cap := h.cap, len := by simpa using h.len, unused := ?_,
             link := ?_, target := htarget, home := ?_, uniq := ?_, count := ?_ }
    · intro j a ha hu
      have ha' : (t.data.set id { e with is_empty := true })[j]? = some a := ha
      rw [hget] at ha'
      split at ha'
      · cases ha'
        exact ⟨rfl, (h.unused id e hd hu).2⟩
      · exact h.unused j a ha' hu
    · obtain ⟨rank, hrb, hrl⟩ := h.link
      refine ⟨rank, fun x => ?_, ?_⟩
      · show rank x ≤ used_count (t.data.set id { e with is_empty := true })
        rw [hused]
        exact hrb x
      · intro j a ha hla
        have ha' : (t.data.set id { e with is_empty := true })[j]? = some a := ha
        show a.next < (t.data.set id { e with is_empty := true }).length ∧ _
        rw [List.length_set]
        rw [hget] at ha'
        split at ha'
        · rename_i hj
          subst hj
          cases ha'
          exact hrl id e hd hla
        · exact hrl j a ha' hla
    · intro j a ha hla
      have ha' : (t.data.set id { e with is_empty := true })[j]? = some a := ha
      rw [hget] at ha'
      split at ha'
      · cases ha'
        cases hla
      · exact OnChain.transfer hchain (h.home j a ha' hla)
    · intro i j a b ha hb hla hlb hk
      have ha' : (t.data.set id { e with is_empty := true })[i]? = some a := ha
      have hb' : (t.data.set id { e with is_empty := true })[j]? = some b := hb
      rw [hget] at ha' hb'
      split at ha'
      · cases ha'
        cases hla
      · split at hb'
        · cases hb'
          cases hlb
        · exact h.uniq i j a b ha' hb' hla hlb hk
    · show decr t.current_size = live_count (t.data.set id { e with is_empty := true })
      rw [hdecr, h.count]
      omega
  refine ⟨⟨hinv, ?_, ?_⟩, by omega, ?_⟩
  · refine { pos := hc.pos, lt := by simpa using hc.lt, free := ?_, above := ?_ }
    · intro a ha
      have ha' : (t.data.set id { e with is_empty := true })[t.collision_bucket_id]? =
          some a := ha
      rw [hget] at ha'
      split at ha'
      · rename_i hj
        cases ha'
        exact hc.free e (hj ▸ hd)
      · exact hc.free a ha'
    · intro j a hj ha
      have ha' : (t.data.set id { e with is_empty := true })[j]? = some a := ha
      rw [hget] at ha'
      split at ha'
      · rename_i hj'
        cases ha'
        exact hc.above id e (hj' ▸ hj) hd
      · exact hc.above j a hj ha'
  · apply Loaded.of_lt hinv
    have := Loaded.lt h hld
    show 10 * decr t.current_size < 3 * t.capacity
    omega
  · intro k1 v1
    constructor
    · rintro ⟨j, a, ha, hla, hk, hv⟩
      have ha' : (t.data.set id { e with is_empty := true })[j]? = some a := ha
      rw [hget] at ha'
      split at ha'
      · cases ha'
        cases hla
      · rename_i hj
        refine ⟨⟨j, a, ha', hla, hk, hv⟩, ?_⟩
        intro hk1
        exact hj (h.uniq id j e a hd ha' hl hla (by rw [hk, hk1]))
    · rintro ⟨⟨j, a, ha, hla, hk, hv⟩, hne⟩
      have hj : id ≠ j := by
        rintro rfl
        rw [hd] at ha
        cases ha
        exact hne hk.symm
      exact ⟨j, a, by
        show (t.data.set id { e with is_empty := true })[j]? = some a
        rw [hget, if_neg hj]
        exact ha, hla, hk, hv⟩

/-- `erase` keeps the invariant and removes the pairs of the key. -/
theorem erase_spec [DecidableEq K] {hash : K → Nat} {t t1 : Table K V} (hg : Good hash t)
    {fuel : Nat} {k : K} (he : erase hash fuel t k = .ok t1) :
    Good hash t1 ∧ (∀ k1 v1, Has t1 k1 v1 ↔ Has t k1 v1 ∧ k1 ≠ k) := by
  rcases erase_shape hg.inv he with ⟨h1, rfl⟩ | ⟨id, e, h1, h2, h3, rfl⟩
  · refine ⟨hg, fun k1 v1 => ⟨fun a => ⟨a, ?_⟩, fun a => a.1⟩⟩
    rintro rfl
    exact h1 v1 a
  · obtain ⟨a1, _, a3⟩ := tombstone_good hg h1 h2
    exact ⟨a1, fun k1 v1 => h3 ▸ a3 k1 v1⟩

end erasing

end HashMap

namespace HashMap

section sizes_and_clear

variable {K V : Type}

theorem mem_keys [DecidableEq K] {t : Table K V} {k : K} : k ∈ keys t ↔ ∃ v, Has t k v := by
  unfold keys
  rw [List.mem_toFinset, mem_live_keys]
  constructor
  · rintro ⟨e, he, h1, h2⟩
    obtain ⟨j, hj⟩ := List.mem_iff_getElem?.mp he
    exact ⟨e.value, j, e, hj, h1, h2, rfl⟩
  · rintro ⟨v, j, e, hj, h1, h2, _⟩
    exact ⟨e, List.getElem?_mem hj, h1, h2⟩

/-- The count is the number of keys that have a live slot. -/
theorem size_eq_card [DecidableEq K] {hash : K → Nat} {t : Table K V} (h : Inv hash t) :
    t.current_size = (keys t).card := by
  unfold keys
  rw [List.toFinset_card_of_nodup (Uniq.nodup h.uniq), h.count]
  unfold live_count live_keys
  rw [List.length_map, List.countP_eq_length_filter]

theorem size_insert [DecidableEq K] {hash : K → Nat} {t t1 : Table K V} (h : Inv hash t)
    (h1 : Inv hash t1) {k : K} {v : V} (habs : ∀ w, ¬ Has t k w)
    (hh : ∀ k1 v1, Has t1 k1 v1 ↔ Has t k1 v1 ∨ ((∀ w, ¬ Has t k w) ∧ k1 = k ∧ v1 = v)) :
    t1.current_size = t.current_size + 1 := by
  rw [size_eq_card h, size_eq_card h1]
  have hk : keys t1 = Insert.insert k (keys t) := by
    ext x
    rw [Finset.mem_insert, mem_keys, mem_keys]
    constructor
    · rintro ⟨w, hw⟩
      rcases (hh x w).mp hw with a | ⟨_, a, _⟩
      · exact Or.inr ⟨w, a⟩
      · exact Or.inl a
    · rintro (rfl | ⟨w, hw⟩)
      · exact ⟨v, (hh x v).mpr (Or.inr ⟨habs, rfl, rfl⟩)⟩
      · exact ⟨w, (hh x w).mpr (Or.inl hw)⟩
  rw [hk, Finset.card_insert_of_not_mem]
  rw [mem_keys]
  rintro ⟨w, hw⟩
  exact habs w hw

theorem size_congr [DecidableEq K] {hash : K → Nat} {t t1 : Table K V} (h : Inv hash t)
    (h1 : Inv hash t1) (hh : ∀ k v, Has t1 k v ↔ Has t k v) :
    t1.current_size = t.current_size := by
  rw [size_eq_card h, size_eq_card h1]
  congr 1
  ext x
  rw [mem_keys, mem_keys]
  exact ⟨fun ⟨w, hw⟩ => ⟨w, (hh x w).mp hw⟩, fun ⟨w, hw⟩ => ⟨w, (hh x w).mpr hw⟩⟩

theorem reinsert_all_empty (ins : Table K V → K → V → Outcome (Table K V)) :
    ∀ (es : List (Element K V)) (t : Table K V), (∀ e ∈ es, e.is_empty = true) →
      reinsert ins es t = .ok t := by
  intro es
  induction es with
  | nil => intro t _; rfl
  | cons e r ih =>
    intro t he
    unfold reinsert
    have h1 := he e (List.mem_cons_self _ _)
    rw [if_neg (by simp [h1])]
    exact ih t (fun a ha => he a (List.mem_cons_of_mem _ ha))

/-- The tier that `clear` ends in: `size_id` is set to 0, and `rehash` advances it
when the count that was not reset exceeds the load bound of the old primary size. -/
theorem clear_eq [DecidableEq K] [Inhabited K] [Inhabited V] {hash : K → Nat}
    {t : Table K V} (h : Inv hash t) (fuel : Nat) :
    clear hash fuel t =
      .ok (if exceeds_load t.current_size t.hash_capacity = true then blank 1 11
           else blank 0 5) := by
  unfold clear rehash rehash_with
  rw [if_pos (by rw [h.len])]
  have hall : ∀ e ∈ (init t.capacity ++ t.data.drop t.capacity : List (Element K V)),
      e.is_empty = true := by
    intro e he
    rw [List.mem_append] at he
    rcases he with he | he
    · unfold init at he
      rw [List.eq_of_mem_replicate he]
      rfl
    · rw [List.drop_eq_nil_of_le (by rw [h.len])] at he
      cases he
  by_cases hx : exceeds_load t.current_size t.hash_capacity = true
  · simp only [hx, if_true]
    exact reinsert_all_empty _ _ (blank 1 11) hall
  · simp only [hx, if_false]
    exact reinsert_all_empty _ _ (blank 0 5) hall

theorem blank_good [Inhabited K] [Inhabited V] (hash : K → Nat) {i h : Nat}
    (hs : sizes[i]? = some h) : Good hash (blank i h : Table K V) :=
  ⟨blank_inv hash hs, blank_cursor hs, blank_loaded hs⟩

theorem empty_good [Inhabited K] [Inhabited V] (hash : K → Nat) :
    Good hash (empty : Table K V) :=
  blank_good hash (i := 1) rfl

/-- `clear` returns an empty table that satisfies the invariant. -/
theorem clear_spec [DecidableEq K] [Inhabited K] [Inhabited V] {hash : K → Nat}
    {t t1 : Table K V} (h : Inv hash t) {fuel : Nat} (hc : clear hash fuel t = .ok t1) :
    Good hash t1 ∧ Tight t1 ∧ (∀ k v, ¬ Has t1 k v) ∧ t1.current_size = 0 ∧
      (t1 = blank 0 5 ∨ t1 = blank 1 11) := by
  rw [clear_eq h] at hc
  cases hc
  split
  · exact ⟨blank_good hash (i := 1) rfl, blank_tight _ _, blank_has _ _, rfl, Or.inr rfl⟩
  · exact ⟨blank_good hash (i := 0) rfl, blank_tight _ _, blank_has _ _, rfl, Or.inl rfl⟩

end sizes_and_clear

end HashMap

namespace HashMap

section copying

variable {K V : Type}

/-- The loop shared by `begin` and `operator++` stops at the next live slot, or at
`capacity`; the slots it passes are tombstoned. -/
theorem skip_empty_spec {hash : K → Nat} {t : Table K V} (h : Inv hash t) :
    ∀ (n j : Nat), j + n = t.capacity →
      ∃ j1, skip_empty t n j = .ok j1 ∧ j ≤ j1 ∧ j1 ≤ t.capacity ∧
        (j1 < t.capacity → ∃ e, t.data[j1]? = some e ∧ e.is_empty = false) ∧
        (∀ (i : Nat) (e : Element K V), j ≤ i → i < j1 → t.data[i]? = some e →
          e.is_empty = true) ∧
        (∀ (ins : Table K V → K → V → Outcome (Table K V)) (t0 : Table K V),
          reinsert ins (t.data.drop j) t0 = reinsert ins (t.data.drop j1) t0) := by
  intro n
  induction n with
  | zero =>
    intro j hj
    refine ⟨j, rfl, Nat.le_refl _, by omega, fun hlt => by omega, fun i e h1 h2 => by omega,
      fun _ _ => rfl⟩
  | succ n ih =>
    intro j hj
    have hlt : j < t.data.length := by rw [h.len]; omega
    have hd : t.data[j]? = some t.data[j] := List.getElem?_eq_getElem hlt
    unfold skip_empty
    simp only [hd]
    by_cases he : t.data[j].is_empty = true
    · rw [if_pos he]
      obtain ⟨j1, a1, a2, a3, a4, a5, a6⟩ := ih (j + 1) (by omega)
      refine ⟨j1, a1, by omega, a3, a4, ?_, ?_⟩
      · intro i e h1 h2 h3
        by_cases hij : i = j
        · subst hij
          rw [hd] at h3
          cases h3
          exact he
        · exact a5 i e (by omega) h2 h3
      · intro ins t0
        rw [← a6 ins t0, List.drop_eq_getElem_cons hlt]
        conv_lhs => unfold reinsert
        rw [if_neg (by simp [he])]
    · rw [if_neg he]
      refine ⟨j, rfl, Nat.le_refl _, by omega, fun _ => ⟨_, hd, by simpa using he⟩,
        fun i e h1 h2 => by omega, fun _ _ => rfl⟩

/-- The loop of the copy constructor inserts the live pairs of `other` in slot
order, as the loop of `rehash` does. -/
theorem insert_from_eq [DecidableEq K] [Inhabited K] [Inhabited V] {hash : K → Nat}
    {other : Table K V} (h : Inv hash other) (fuel : Nat) :
    ∀ (steps id : Nat) (t : Table K V), id ≤ other.capacity →
      (id < other.capacity → ∃ e, other.data[id]? = some e ∧ e.is_empty = false) →
      other.capacity - id < steps →
      insert_from hash fuel other steps id t =
        reinsert (insert hash fuel) (other.data.drop id) t := by
  intro steps
  induction steps with
  | zero => intro id t _ _ hs; omega
  | succ steps ih =>
    intro id t hle hlive hs
    unfold insert_from end_
    by_cases hid : id = other.capacity
    · rw [if_pos hid, List.drop_eq_nil_of_le (by rw [h.len, hid])]
      rfl
    · rw [if_neg hid]
      have hlt : id < other.capacity := by omega
      obtain ⟨e, he, hel⟩ := hlive hlt
      have hlt' : id < other.data.length := by rw [h.len]; exact hlt
      have hee : other.data[id] = e := by
        have := List.getElem?_eq_getElem hlt'
        rw [he] at this
        exact (Option.some.inj this).symm
      rw [List.drop_eq_getElem_cons hlt', hee]
      conv_rhs => unfold reinsert
      rw [if_pos hel]
      unfold deref
      simp only [he]
      cases hins : insert hash fuel t e.key e.value with
      | fault f => rfl
      | ok t1 =>
        simp only
        unfold iter_next
        obtain ⟨j1, a1, a2, a3, a4, _, a6⟩ := skip_empty_spec h (other.capacity - (id + 1))
          (id + 1) (by omega)
        simp only [a1]
        rw [ih j1 t1 a3 a4 (by omega), a6]

theorem begin_spec {hash : K → Nat} {t : Table K V} (h : Inv hash t) :
    ∃ j1, begin t = .ok j1 ∧ j1 ≤ t.capacity ∧
      (j1 < t.capacity → ∃ e, t.data[j1]? = some e ∧ e.is_empty = false) ∧
      (∀ (i : Nat) (e : Element K V), i < j1 → t.data[i]? = some e → e.is_empty = true) ∧
      (∀ (ins : Table K V → K → V → Outcome (Table K V)) (t0 : Table K V),
        reinsert ins t.data t0 = reinsert ins (t.data.drop j1) t0) := by
  obtain ⟨j1, a1, _, a3, a4, a5, a6⟩ := skip_empty_spec h t.capacity 0 (by omega)
  exact ⟨j1, a1, a3, a4, fun i e hi he => a5 i e (Nat.zero_le _) hi he,
    fun ins t0 => by simpa using a6 ins t0⟩

/-- The copy loop started at `begin()` is the loop of `rehash` over the array of
`other`. -/
theorem insert_from_begin [DecidableEq K] [Inhabited K] [Inhabited V] {hash : K → Nat}
    {other : Table K V} (h : Inv hash other) {fuel : Nat} (hf : other.capacity < fuel)
    (t : Table K V) :
    (match begin other with
      | .fault f => .fault f
      | .ok id => insert_from hash fuel other fuel id t) =
      reinsert (insert hash fuel) other.data t := by
  obtain ⟨j1, a1, a2, a3, _, a5⟩ := begin_spec h
  simp only [a1]
  rw [insert_from_eq h fuel fuel j1 t a2 a3 (by omega), a5]

theorem copy_eq [DecidableEq K] [Inhabited K] [Inhabited V] {hash : K → Nat}
    {other : Table K V} (h : Inv hash other) {fuel : Nat} (hf : other.capacity < fuel) :
    copy hash fuel other = reinsert (insert hash fuel) other.data empty := by
  unfold copy
  exact insert_from_begin h hf empty

theorem init_length [Inhabited K] [Inhabited V] (n : Nat) :
    (init n : List (Element K V)).length = n := by
  simp [init]

theorem assign_eq [DecidableEq K] [Inhabited K] [Inhabited V] {hash : K → Nat}
    {t other : Table K V} (ht : Inv hash t) (h : Inv hash other) {fuel : Nat}
    (hf : other.capacity < fuel) :
    assign hash fuel t other =
      reinsert (insert hash fuel) other.data
        (if exceeds_load t.current_size t.hash_capacity = true then blank 1 11
         else blank 0 5) := by
  unfold assign
  rw [clear_eq ht]
  have e : ∀ (b : Table K V), b.data = init b.data.length →
      Table.mk b.current_size b.size_id b.hash_capacity b.capacity b.collision_bucket_id
        (init b.data.length) = b := by
    intro b hb
    rw [← hb]
  have e1 : ∀ (i n : Nat), (blank i n : Table K V).data =
      init (blank i n : Table K V).data.length := by
    intro i n
    show init (cellar_capacity n) = init (init (cellar_capacity n) : List (Element K V)).length
    rw [init_length]
  by_cases hx : exceeds_load t.current_size t.hash_capacity = true
  · rw [if_pos hx]
    simp only
    rw [e _ (e1 1 11)]
    exact insert_from_begin h hf _
  · rw [if_neg hx]
    simp only
    rw [e _ (e1 0 5)]
    exact insert_from_begin h hf _

end copying

end HashMap

namespace HashMap

section reachability

variable {K V : Type}

/-- If the copy loop returns, it returns what the loop of `rehash` over the rest of
the array returns. -/
theorem insert_from_sound [DecidableEq K] [Inhabited K] [Inhabited V] {hash : K → Nat}
    {other : Table K V} (h : Inv hash other) (fuel : Nat) :
    ∀ (steps id : Nat) (t t1 : Table K V), id ≤ other.capacity →
      (id < other.capacity → ∃ e, other.data[id]? = some e ∧ e.is_empty = false) →
      insert_from hash fuel other steps id t = .ok t1 →
      reinsert (insert hash fuel) (other.data.drop id) t = .ok t1 := by
  intro steps
  induction steps with
  | zero =>
    intro id t t1 _ _ hr
    simp [insert_from] at hr
  | succ steps ih =>
    intro id t t1 hle hlive hr
    unfold insert_from end_ at hr
    by_cases hid : id = other.capacity
    · rw [if_pos hid] at hr
      rw [List.drop_eq_nil_of_le (by rw [h.len, hid])]
      exact hr
    · rw [if_neg hid] at hr
      have hlt : id < other.capacity := by omega
      obtain ⟨e, he, hel⟩ := hlive hlt
      have hlt' : id < other.data.length := by rw [h.len]; exact hlt
      have hee : other.data[id] = e := by
        have := List.getElem?_eq_getElem hlt'
        rw [he] at this
        exact (Option.some.inj this).symm
      rw [List.drop_eq_getElem_cons hlt', hee]
      unfold reinsert
      rw [if_pos hel]
      unfold deref at hr
      simp only [he] at hr
      cases hins : insert hash fuel t e.key e.value with
      | fault f => simp [hins] at hr
      | ok t2 =>
        simp only [hins] at hr ⊢
        unfold iter_next at hr
        obtain ⟨j1, a1, a2, a3, a4, _, a6⟩ := skip_empty_spec h (other.capacity - (id + 1))
          (id + 1) (by omega)
        simp only [a1] at hr
        rw [a6]
        exact ih j1 t2 t1 a3 a4 hr

theorem insert_from_begin_sound [DecidableEq K] [Inhabited K] [Inhabited V] {hash : K → Nat}
    {other : Table K V} (h : Inv hash other) {fuel : Nat} {t t1 : Table K V}
    (hr : (match begin other with
      | .fault f => (.fault f : Outcome (Table K V))
      | .ok id => insert_from hash fuel other fuel id t) = .ok t1) :
    reinsert (insert hash fuel) other.data t = .ok t1 := by
  obtain ⟨j1, a1, a2, a3, _, a5⟩ := begin_spec h
  simp only [a1] at hr
  rw [a5]
  exact insert_from_sound h fuel fuel j1 t t1 a2 a3 hr

theorem has_of_mem {t : Table K V} {k : K} {v : V} :
    (∃ e ∈ t.data, e.is_empty = false ∧ e.key = k ∧ e.value = v) ↔ Has t k v := by
  constructor
  · rintro ⟨e, he, h1, h2, h3⟩
    obtain ⟨j, hj⟩ := List.mem_iff_getElem?.mp he
    exact ⟨j, e, hj, h1, h2, h3⟩
  · rintro ⟨j, e, hj, h1, h2, h3⟩
    exact ⟨e, List.getElem?_mem hj, h1, h2, h3⟩

/-- Inserting the live pairs of `other` into an empty table that satisfies the
invariant gives a table with the pairs of `other`. -/
theorem refill_spec [DecidableEq K] [Inhabited K] [Inhabited V] {hash : K → Nat}
    {other t t1 : Table K V} (h : Inv hash other) (ht : Good hash t)
    (he : ∀ k v, ¬ Has t k v) {fuel : Nat}
    (hr : reinsert (insert hash fuel) other.data t = .ok t1) :
    Good hash t1 ∧ (∀ k v, Has t1 k v ↔ Has other k v) ∧
      t1.current_size = other.current_size := by
  obtain ⟨a1, a2, a3, a4⟩ := reinsert_spec (insert_spec hash fuel) other.data t t1 ht.inv
    ht.cursor (Uniq.nodup h.uniq) (fun e _ _ w => he _ w) hr
  have hh : ∀ k v, Has t1 k v ↔ Has other k v := by
    intro k v
    rw [a4, has_of_mem]
    exact ⟨fun x => x.elim (fun y => absurd y (he k v)) (fun y => y), Or.inr⟩
  exact ⟨⟨a1, a2, a3 ht.loaded⟩, hh, size_congr h a1 hh⟩

theorem sizes_last {t : Table K V} {hash : K → Nat} (h : Inv hash t) (h22 : t.size_id = 22) :
    t.capacity = 2 * 28973957 := by
  have := h.tier
  rw [h22] at this
  have e : sizes[22]? = some 28973957 := rfl
  rw [e] at this
  rw [h.small.2.2.2, ← Option.some.inj this]

/-- The loop of `rehash`, run with the member `insert` on a table without
tombstones, returns as long as the pairs fit into the last tier. -/
theorem reinsert_grow [DecidableEq K] [Inhabited K] [Inhabited V] (hash : K → Nat)
    {fuel : Nat} (hf : enough_fuel ≤ fuel) :
    ∀ (es : List (Element K V)) (t : Table K V), Good hash t → Tight t →
      (live_keys es).Nodup →
      (∀ e ∈ es, e.is_empty = false → ∀ w, ¬ Has t e.key w) →
      10 * (t.current_size + live_count es) < 6 * 28973957 →
      ∃ t1, reinsert (insert hash fuel) es t = .ok t1 ∧ Tight t1 := by
  intro es
  induction es with
  | nil =>
    intro t _ ht _ _ _
    exact ⟨t, rfl, ht⟩
  | cons e r ih =>
    intro t hg ht hnd habs hload
    rw [live_keys_cons] at hnd
    rw [live_count_cons] at hload
    unfold reinsert
    by_cases hl : e.is_empty = false
    · rw [if_pos hl] at hnd hload ⊢
      rw [List.nodup_cons] at hnd
      have habs0 := habs e (List.mem_cons_self _ _) hl
      rcases insert_total hg hf e.key e.value with ⟨t2, e1, e2, e3, _⟩ | ⟨_, e2, _, e4⟩
      · obtain ⟨_, _, _, hh2⟩ := insert_spec hash fuel t e.key e.value t2 hg.inv hg.cursor e1
        have hsz := size_insert hg.inv e2.inv habs0 hh2
        have habs2 : ∀ e1 ∈ r, e1.is_empty = false → ∀ w, ¬ Has t2 e1.key w := by
          intro e1 he1 hl1 w hw
          rcases (hh2 _ _).mp hw with h1 | ⟨_, h2, _⟩
          · exact habs e1 (List.mem_cons_of_mem _ he1) hl1 w h1
          · exact hnd.1 (mem_live_keys.mpr ⟨e1, he1, hl1, h2⟩)
        obtain ⟨t1, a1, a2⟩ := ih t2 e2 (e3 ht) hnd.2 habs2 (by omega)
        simp only [e1]
        exact ⟨t1, a1, a2⟩
      · exfalso
        have := e4 ht
        have := sizes_last hg.inv e2
        omega
    · rw [if_neg hl] at hnd hload ⊢
      exact ih t hg ht hnd (fun e1 he1 => habs e1 (List.mem_cons_of_mem _ he1)) (by omega)

/-- Refilling an empty table from a table that satisfies the invariant returns. -/
theorem refill_total [DecidableEq K] [Inhabited K] [Inhabited V] {hash : K → Nat}
    {other t : Table K V} (h : Good hash other) (ht : Good hash t) (htt : Tight t)
    (he : ∀ k v, ¬ Has t k v) (hz : t.current_size = 0) {fuel : Nat}
    (hf : enough_fuel ≤ fuel) :
    ∃ t1, reinsert (insert hash fuel) other.data t = .ok t1 ∧ Tight t1 := by
  apply reinsert_grow hash hf other.data t ht htt (Uniq.nodup h.inv.uniq)
    (fun e _ _ w => he _ w)
  have h1 := Loaded.lt h.inv h.loaded
  have h2 := h.inv.small
  have h3 := sizes_bounds (sizes_mem h.inv.tier)
  rw [← h.inv.count, hz]
  omega

theorem empty_has [Inhabited K] [Inhabited V] (k : K) (v : V) :
    ¬ Has (empty : Table K V) k v := blank_has _ _ _ _

/-- The copy constructor gives a table with the pairs of `other`. -/
theorem copy_spec [DecidableEq K] [Inhabited K] [Inhabited V] {hash : K → Nat}
    {other t1 : Table K V} (h : Inv hash other) {fuel : Nat}
    (hr : copy hash fuel other = .ok t1) :
    Good hash t1 ∧ (∀ k v, Has t1 k v ↔ Has other k v) ∧
      t1.current_size = other.current_size :=
  refill_spec h (empty_good hash) empty_has (insert_from_begin_sound h hr)

theorem copy_total [DecidableEq K] [Inhabited K] [Inhabited V] {hash : K → Nat}
    {other : Table K V} (h : Good hash other) {fuel : Nat} (hf : enough_fuel ≤ fuel) :
    ∃ t1, copy hash fuel other = .ok t1 := by
  have hcap : other.capacity < fuel := by
    have := h.inv.small
    have := h.inv.len
    unfold enough_fuel at hf
    omega
  rw [copy_eq h.inv hcap]
  obtain ⟨t1, a1, _⟩ := refill_total h (empty_good hash) (blank_tight _ _) empty_has rfl hf
  exact ⟨t1, a1⟩

/-- `operator=` gives a table with the pairs of `other`, whatever the target held. -/
theorem assign_spec [DecidableEq K] [Inhabited K] [Inhabited V] {hash : K → Nat}
    {t other t1 : Table K V} (ht : Inv hash t) (h : Inv hash other) {fuel : Nat}
    (hr : assign hash fuel t other = .ok t1) :
    Good hash t1 ∧ (∀ k v, Has t1 k v ↔ Has other k v) ∧
      t1.current_size = other.current_size := by
  unfold assign at hr
  rw [clear_eq ht] at hr
  have e : ∀ (b : Table K V), b.data = init b.data.length →
      Table.mk b.current_size b.size_id b.hash_capacity b.capacity b.collision_bucket_id
        (init b.data.length) = b := by
    intro b hb
    rw [← hb]
  have e1 : ∀ (i n : Nat), (blank i n : Table K V).data =
      init (blank i n : Table K V).data.length := by
    intro i n
    show init (cellar_capacity n) = init (init (cellar_capacity n) : List (Element K V)).length
    rw [init_length]
  by_cases hx : exceeds_load t.current_size t.hash_capacity = true
  · rw [if_pos hx] at hr
    simp only at hr
    rw [e _ (e1 1 11)] at hr
    exact refill_spec h (blank_good hash (i := 1) rfl) (blank_has _ _)
      (insert_from_begin_sound h hr)
  · rw [if_neg hx] at hr
    simp only at hr
    rw [e _ (e1 0 5)] at hr
    exact refill_spec h (blank_good hash (i := 0) rfl) (blank_has _ _)
      (insert_from_begin_sound h hr)

theorem assign_total [DecidableEq K] [Inhabited K] [Inhabited V] {hash : K → Nat}
    {t other : Table K V} (ht : Inv hash t) (h : Good hash other) {fuel : Nat}
    (hf : enough_fuel ≤ fuel) :
    ∃ t1, assign hash fuel t other = .ok t1 := by
  have hcap : other.capacity < fuel := by
    have := h.inv.small
    have := h.inv.len
    unfold enough_fuel at hf
    omega
  rw [assign_eq ht h.inv hcap]
  split
  · obtain ⟨t1, a1, _⟩ := refill_total h (blank_good hash (i := 1) rfl) (blank_tight _ _)
      (blank_has _ _) rfl hf
    exact ⟨t1, a1⟩
  · obtain ⟨t1, a1, _⟩ := refill_total h (blank_good hash (i := 0) rfl) (blank_tight _ _)
      (blank_has _ _) rfl hf
    exact ⟨t1, a1⟩

/-- The two outcomes of `operator[]`: the key was present and nothing changes, or
it was absent and `insert` adds it with the default value; the reference
designates a live slot that holds the key. -/
theorem index_shape [DecidableEq K] [Inhabited K] [Inhabited V] {hash : K → Nat}
    {t t1 : Table K V} (h : Inv hash t) {fuel : Nat} {k : K} {id : Nat}
    (hr : index hash fuel t k = .ok (t1, id)) :
    (((∃ w, Has t k w) ∧ t1 = t) ∨
      ((∀ w, ¬ Has t k w) ∧ insert hash fuel t k default = .ok t1)) ∧
    get_key_id hash fuel t1 k = .ok id ∧ id ≠ t1.capacity ∧ id < t1.data.length := by
  unfold index at hr
  cases hg : get_key_id hash fuel t k with
  | fault f => simp [hg] at hr
  | ok r =>
    simp only [hg] at hr
    rcases get_key_id_sound h hg with ⟨h1, e, h2, h3, h4⟩ | ⟨h1, h2⟩
    · rw [if_neg (by omega)] at hr
      split at hr
      · simp only [Outcome.ok.injEq, Prod.mk.injEq] at hr
        obtain ⟨rfl, rfl⟩ := hr
        exact ⟨Or.inl ⟨⟨e.value, r, e, h2, h3, h4, rfl⟩, rfl⟩, hg, by omega, by
          rw [h.len]; exact h1⟩
      · cases hr
    · rw [if_pos h1] at hr
      cases hins : insert hash fuel t k default with
      | fault f => simp [hins] at hr
      | ok t2 =>
        simp only [hins] at hr
        cases hg2 : get_key_id hash fuel t2 k with
        | fault f => simp [hg2] at hr
        | ok r2 =>
          simp only [hg2] at hr
          split at hr
          · cases hr
          · split at hr
            · simp only [Outcome.ok.injEq, Prod.mk.injEq] at hr
              obtain ⟨rfl, rfl⟩ := hr
              rename_i hne hlt
              exact ⟨Or.inr ⟨h2, rfl⟩, hg2, hne, hlt⟩
            · cases hr

end reachability

end HashMap

namespace HashMap

section reachable_good

variable {K V : Type} [DecidableEq K] [Inhabited K] [Inhabited V]

theorem insert_good {hash : K → Nat} {t t1 : Table K V} (hg : Good hash t) {fuel : Nat}
    {k : K} {v : V} (hr : insert hash fuel t k v = .ok t1) :
    Good hash t1 ∧
      ∀ k1 v1, Has t1 k1 v1 ↔ Has t k1 v1 ∨ ((∀ w, ¬ Has t k w) ∧ k1 = k ∧ v1 = v) := by
  obtain ⟨a1, a2, a3, a4⟩ := insert_spec hash fuel t k v t1 hg.inv hg.cursor hr
  exact ⟨⟨a1, a2, a3 hg.loaded⟩, a4⟩

theorem index_good {hash : K → Nat} {t t1 : Table K V} (hg : Good hash t) {fuel : Nat}
    {k : K} {id : Nat} (hr : index hash fuel t k = .ok (t1, id)) : Good hash t1 := by
  rcases (index_shape hg.inv hr).1 with ⟨_, rfl⟩ | ⟨_, h2⟩
  · exact hg
  · exact (insert_good hg h2).1

/-- Every reachable table satisfies the invariant. -/
theorem Reachable.good {hash : K → Nat} {t : Table K V} (hr : Reachable hash t) :
    Good hash t := by
  induction hr with
  | empty => exact empty_good hash
  | insert _ h ih => exact (insert_good ih h).1
  | erase _ h ih => exact (erase_spec ih h).1
  | index _ h ih => exact index_good ih h
  | clear _ h ih => exact (clear_spec ih.inv h).1
  | copy _ h ih => exact (copy_spec ih.inv h).1
  | assign _ _ h ih _ => exact (assign_spec ih.inv (by assumption : Good hash _).inv h).1

omit [DecidableEq K] [Inhabited K] [Inhabited V] in
theorem Good.fuel {hash : K → Nat} {t : Table K V} (hg : Good hash t) {fuel : Nat}
    (hf : enough_fuel ≤ fuel) : t.capacity < fuel := by
  have := hg.inv.small
  have := hg.inv.len
  unfold enough_fuel at hf
  omega

/-- A sequence of `insert` calls keeps a table reachable. -/
theorem Reachable.insert_list {hash : K → Nat} {fuel : Nat} :
    ∀ (ps : List (K × V)) {t t1 : Table K V}, Reachable hash t →
      HashMap.insert_list hash fuel ps t = .ok t1 → Reachable hash t1 := by
  intro ps
  induction ps with
  | nil =>
    intro t t1 hr h
    cases h
    exact hr
  | cons p ps ih =>
    intro t t1 hr h
    unfold HashMap.insert_list at h
    cases hi : HashMap.insert hash fuel t p.1 p.2 with
    | fault f => simp [hi] at h
    | ok t2 =>
      simp only [hi] at h
      exact ih (Reachable.insert hr hi) h

/-- A sequence of `insert` and `erase` calls keeps a table reachable. -/
theorem Reachable.run {hash : K → Nat} {fuel : Nat} :
    ∀ (ops : List (Op K V)) {t t1 : Table K V}, Reachable hash t →
      HashMap.run hash fuel ops t = .ok t1 → Reachable hash t1 := by
  intro ops
  induction ops with
  | nil =>
    intro t t1 hr h
    cases h
    exact hr
  | cons o ops ih =>
    intro t t1 hr h
    cases o with
    | ins k v =>
      unfold HashMap.run at h
      cases hi : HashMap.insert hash fuel t k v with
      | fault f => simp [hi] at h
      | ok t2 =>
        simp only [hi] at h
        exact ih (Reachable.insert hr hi) h
    | del k =>
      unfold HashMap.run at h
      cases hi : HashMap.erase hash fuel t k with
      | fault f => simp [hi] at h
      | ok t2 =>
        simp only [hi] at h
        exact ih (Reachable.erase hr hi) h

end reachable_good

end HashMap

namespace HashMap

section claims

variable {K V : Type} [DecidableEq K] [Inhabited K] [Inhabited V]

theorem sample_reachable : Reachable id sample :=
  Reachable.insert_list sample_pairs Reachable.empty
    (by decide : insert_list id 64 sample_pairs empty = .ok sample)

/-- C1. On a reachable table, inserting a key that `find` reports absent returns a
table in which `find` reports the key present with the inserted value, whether or
not the call rehashes; the only other outcome is that the table is in the last
tier of the growth schedule and the schedule is exhausted. -/
theorem insert_then_find {hash : K → Nat} {t : Table K V} (hr : Reachable hash t) {k : K}
    (v : V) {fuel0 : Nat} (habs : find_result hash fuel0 t k = .ok none) {fuel : Nat}
    (hf : enough_fuel ≤ fuel) :
    (∃ t1, insert hash fuel t k v = .ok t1 ∧ find_result hash fuel t1 k = .ok (some v)) ∨
    (t.size_id = 22 ∧ insert hash fuel t k v = .fault .schedule) := by
  have hg := hr.good
  have hnone : ∀ w, ¬ Has t k w :=
    (lookup_eq_none t k).mp (find_result_sound hg.inv habs).symm
  rcases insert_total hg hf k v with ⟨t1, h1, h2, _⟩ | ⟨h1, h2, _⟩
  · left
    refine ⟨t1, h1, ?_⟩
    rw [find_result_eq h2.inv (h2.fuel hf)]
    congr 1
    rw [lookup_eq_some h2.inv]
    exact ((insert_good hg h1).2 k v).mpr (Or.inr ⟨hnone, rfl, rfl⟩)
  · exact Or.inr ⟨h2, h1⟩

set_option maxRecDepth 100000 in
/-- Witness of C1: inserting key 34 into `sample` rehashes into the next tier. -/
theorem insert_then_find_witness :
    find_result id 64 sample 34 = .ok none ∧
    ((∃ t1, insert id enough_fuel sample 34 340 = .ok t1 ∧
        find_result id enough_fuel t1 34 = .ok (some 340)) ∨
      (sample.size_id = 22 ∧ insert id enough_fuel sample 34 340 = .fault .schedule)) :=
  ⟨by decide, insert_then_find sample_reachable 340
    (by decide : find_result id 64 sample 34 = .ok none) (Nat.le_refl _)⟩

end claims

end HashMap

namespace HashMap

section claims2

variable {K V : Type} [DecidableEq K] [Inhabited K] [Inhabited V]

/-- On a table that satisfies the invariant, `insert` of a present key returns the
table itself. -/
theorem insert_present {hash : K → Nat} {t : Table K V} (h : Inv hash t) {k : K} {w : V}
    (hw : Has t k w) {fuel : Nat} (hf : t.capacity < fuel) (v : V) :
    insert hash fuel t k v = .ok t := by
  cases fuel with
  | zero => omega
  | succ f =>
    rw [insert]
    unfold insert_with
    obtain ⟨r, hg⟩ := get_key_id_total h hf k
    have hr : r ≠ t.capacity := by
      rcases get_key_id_sound h hg with ⟨h1, _⟩ | ⟨_, h2⟩
      · omega
      · exact absurd hw (h2 w)
    simp only [hg, ne_eq, hr, not_false_eq_true, if_true]

/-- C2. On a reachable table in which `find` reports key `k` present with value
`v1`, `insert(k, v2)` returns the very same table state for every `v2`: `find(k)`
still yields `v1` and `size()` is unchanged. -/
theorem insert_if_absent {hash : K → Nat} {t : Table K V} (hr : Reachable hash t) {k : K}
    {v1 : V} {fuel0 : Nat} (hp : find_result hash fuel0 t k = .ok (some v1)) (v2 : V)
    {fuel : Nat} (hf : enough_fuel ≤ fuel) :
    ∃ t1, insert hash fuel t k v2 = .ok t1 ∧ t1 = t ∧
      find_result hash fuel t1 k = .ok (some v1) ∧ size t1 = size t := by
  have hg := hr.good
  have hw : Has t k v1 := (lookup_eq_some hg.inv k v1).mp (find_result_sound hg.inv hp).symm
  refine ⟨t, insert_present hg.inv hw (hg.fuel hf) v2, rfl, ?_, rfl⟩
  rw [find_result_eq hg.inv (hg.fuel hf)]
  congr 1
  exact (lookup_eq_some hg.inv k v1).mpr hw

set_option maxRecDepth 100000 in
/-- Witness of C2: key 12 of `sample` (stored in a cellar slot) keeps its value. -/
theorem insert_if_absent_witness :
    find_result id 64 sample 12 = .ok (some 120) ∧
    ∃ t1, insert id enough_fuel sample 12 7 = .ok t1 ∧ t1 = sample ∧
      find_result id enough_fuel t1 12 = .ok (some 120) ∧ size t1 = size sample :=
  ⟨by decide, insert_if_absent sample_reachable
    (by decide : find_result id 64 sample 12 = .ok (some 120)) 7 (Nat.le_refl _)⟩

/-- C3. On a reachable table `erase(k)` returns; if `find(k)` reported the key
present, afterwards `find(k)` reports it absent and `size()` is smaller by exactly
one; if `find(k)` reported it absent, the table state is unchanged. -/
theorem erase_removes {hash : K → Nat} {t : Table K V} (hr : Reachable hash t) (k : K)
    {fuel : Nat} (hf : enough_fuel ≤ fuel) :
    ∃ t1, erase hash fuel t k = .ok t1 ∧
      (∀ v fuel0, find_result hash fuel0 t k = .ok (some v) →
        find_result hash fuel t1 k = .ok none ∧ size t1 + 1 = size t) ∧
      (∀ fuel0, find_result hash fuel0 t k = .ok none → t1 = t) := by
  have hg := hr.good
  obtain ⟨t1, h1⟩ := erase_total hg.inv (hg.fuel hf) k
  refine ⟨t1, h1, ?_, ?_⟩
  · intro v fuel0 hp
    have hw : Has t k v := (lookup_eq_some hg.inv k v).mp (find_result_sound hg.inv hp).symm
    obtain ⟨g1, hh⟩ := erase_spec hg h1
    constructor
    · rw [find_result_eq g1.inv (g1.fuel hf)]
      congr 1
      rw [lookup_eq_none]
      intro w hw1
      exact ((hh k w).mp hw1).2 rfl
    · rcases erase_shape hg.inv h1 with ⟨a, _⟩ | ⟨id, e, a1, a2, _, h3⟩
      · exact absurd hw (a v)
      · have h5 := (tombstone_good hg a1 a2).2.1
        have h4 : t1.current_size = decr t.current_size := by rw [h3]
        unfold size
        omega
  · intro fuel0 hp
    have hnone : ∀ w, ¬ Has t k w :=
      (lookup_eq_none t k).mp (find_result_sound hg.inv hp).symm
    rcases erase_shape hg.inv h1 with ⟨_, a⟩ | ⟨id, e, a1, a2, a3, _⟩
    · exact a
    · exact absurd ⟨id, e, a1, a2, a3, rfl⟩ (hnone e.value)

set_option maxRecDepth 100000 in
/-- Witness of C3: erasing the present key 12 of `sample`, and the absent key 34. -/
theorem erase_removes_witness :
    (∃ t1, erase id enough_fuel sample 12 = .ok t1 ∧
      find_result id enough_fuel t1 12 = .ok none ∧ size t1 + 1 = size sample) ∧
    (∃ t1, erase id enough_fuel sample 34 = .ok t1 ∧ t1 = sample) := by
  obtain ⟨t1, h1, h2, _⟩ := erase_removes sample_reachable 12 (Nat.le_refl enough_fuel)
  obtain ⟨t2, g1, _, g3⟩ := erase_removes sample_reachable 34 (Nat.le_refl enough_fuel)
  exact ⟨⟨t1, h1, h2 120 64 (by decide)⟩, ⟨t2, g1, g3 64 (by decide)⟩⟩

end claims2

end HashMap

namespace HashMap

section claims3

variable {K V : Type} [DecidableEq K] [Inhabited K] [Inhabited V]

theorem insert_list_eq (hash : K → Nat) (fuel : Nat) :
    ∀ (ps : List (K × V)) (t : Table K V),
      insert_list hash fuel ps t = reinsert (insert hash fuel) (ps.map Element.of_pair) t := by
  intro ps
  induction ps with
  | nil => intro t; rfl
  | cons p ps ih =>
    intro t
    unfold insert_list
    rw [List.map_cons]
    unfold reinsert
    rw [if_pos (show (Element.of_pair p).is_empty = false from rfl)]
    show _ = match insert hash fuel t p.1 p.2 with
      | .fault f => .fault f
      | .ok t1 => reinsert (insert hash fuel) (ps.map Element.of_pair) t1
    cases insert hash fuel t p.1 p.2 with
    | fault f => rfl
    | ok t1 => exact ih t1

omit [DecidableEq K] [Inhabited K] [Inhabited V] in
theorem live_keys_of_pairs (ps : List (K × V)) :
    live_keys (ps.map Element.of_pair) = ps.map Prod.fst := by
  induction ps with
  | nil => rfl
  | cons p ps ih =>
    rw [List.map_cons, live_keys_cons,
      if_pos (show (Element.of_pair p).is_empty = false from rfl), ih]
    rfl

omit [DecidableEq K] [Inhabited K] [Inhabited V] in
theorem live_count_of_pairs (ps : List (K × V)) :
    live_count (ps.map Element.of_pair) = ps.length := by
  induction ps with
  | nil => rfl
  | cons p ps ih =>
    rw [List.map_cons, live_count_cons,
      if_pos (show (Element.of_pair p).is_empty = false from rfl), ih]
    rfl

/-- Inserting pairs with distinct keys into the default-constructed table: the
call returns and every pair is found. -/
theorem insert_list_found {hash : K → Nat} (ps : List (K × V))
    (hnd : (ps.map Prod.fst).Nodup) (hn : 10 * ps.length < 6 * 28973957) {fuel : Nat}
    (hf : enough_fuel ≤ fuel) :
    ∃ t1 : Table K V, insert_list hash fuel ps empty = .ok t1 ∧
      ∀ p ∈ ps, find_result hash fuel t1 p.1 = .ok (some p.2) := by
  have hnd1 : (live_keys (ps.map Element.of_pair : List (Element K V))).Nodup := by
    rw [live_keys_of_pairs]
    exact hnd
  obtain ⟨t1, h1, _⟩ := reinsert_grow hash hf (ps.map Element.of_pair) (empty : Table K V)
    (empty_good hash) (blank_tight _ _) hnd1 (fun e _ _ w => empty_has _ w)
    (by rw [live_count_of_pairs]
        show 10 * (0 + ps.length) < 6 * 28973957
        omega)
  obtain ⟨a1, a2, a3, a4⟩ := reinsert_spec (insert_spec hash fuel) _ _ t1
    (empty_good hash).inv (empty_good hash).cursor hnd1 (fun e _ _ w => empty_has _ w) h1
  have hg1 : Good hash t1 := ⟨a1, a2, a3 (empty_good hash).loaded⟩
  refine ⟨t1, by rw [insert_list_eq]; exact h1, ?_⟩
  intro p hp
  rw [find_result_eq a1 (hg1.fuel hf)]
  congr 1
  rw [lookup_eq_some a1, a4]
  exact Or.inr ⟨Element.of_pair p, List.mem_map_of_mem _ hp, rfl, rfl, rfl⟩

/-- C4. On a reachable table, for keys `k ≠ k'`, `find(k')` reports the same before
and after `insert(k, v)` (also when the call rehashes) and before and after
`erase(k)`; and inserting any list of pairs with distinct keys into the
default-constructed table leaves every one of them findable with its own value
(as long as the pairs fit into the last tier of the growth schedule). -/
theorem other_keys_untouched {hash : K → Nat} {t : Table K V} (hr : Reachable hash t)
    {k k' : K} (hne : k ≠ k') (v : V) {fuel : Nat} (hf : enough_fuel ≤ fuel) :
    ((∃ t1, insert hash fuel t k v = .ok t1 ∧
        find_result hash fuel t1 k' = find_result hash fuel t k') ∨
      (t.size_id = 22 ∧ insert hash fuel t k v = .fault .schedule)) ∧
    (∃ t1, erase hash fuel t k = .ok t1 ∧
        find_result hash fuel t1 k' = find_result hash fuel t k') ∧
    (∀ ps : List (K × V), (ps.map Prod.fst).Nodup → 10 * ps.length < 6 * 28973957 →
      ∃ t1 : Table K V, insert_list hash fuel ps empty = .ok t1 ∧
        ∀ p ∈ ps, find_result hash fuel t1 p.1 = .ok (some p.2)) := by
  have hg := hr.good
  refine ⟨?_, ?_, fun ps hnd hn => insert_list_found ps hnd hn hf⟩
  · rcases insert_total hg hf k v with ⟨t1, h1, h2, _⟩ | ⟨h1, h2, _⟩
    · left
      refine ⟨t1, h1, ?_⟩
      rw [find_result_eq h2.inv (h2.fuel hf), find_result_eq hg.inv (hg.fuel hf)]
      congr 1
      have hh := (insert_good hg h1).2
      cases hl : lookup t k' with
      | none =>
        rw [lookup_eq_none] at hl ⊢
        intro w hw
        rcases (hh k' w).mp hw with a | ⟨_, a, _⟩
        · exact hl w a
        · exact hne a.symm
      | some w =>
        rw [lookup_eq_some hg.inv] at hl
        rw [lookup_eq_some h2.inv]
        exact (hh k' w).mpr (Or.inl hl)
    · exact Or.inr ⟨h2, h1⟩
  · obtain ⟨t1, h1⟩ := erase_total hg.inv (hg.fuel hf) k
    obtain ⟨g1, hh⟩ := erase_spec hg h1
    refine ⟨t1, h1, ?_⟩
    rw [find_result_eq g1.inv (g1.fuel hf), find_result_eq hg.inv (hg.fuel hf)]
    congr 1
    cases hl : lookup t k' with
    | none =>
      rw [lookup_eq_none] at hl ⊢
      intro w hw
      exact hl w ((hh k' w).mp hw).1
    | some w =>
      rw [lookup_eq_some hg.inv] at hl
      rw [lookup_eq_some g1.inv]
      exact (hh k' w).mpr ⟨hl, fun a => hne a.symm⟩

set_option maxRecDepth 100000 in
/-- Witness of C4: in `sample`, key 12 is found with value 120 and shares its home
bucket with key 34, whose insertion rehashes, and with key 1. -/
theorem other_keys_untouched_witness :
    find_result id enough_fuel sample 12 = .ok (some 120) ∧
    (((∃ t1, insert id enough_fuel sample 34 340 = .ok t1 ∧
          find_result id enough_fuel t1 12 = find_result id enough_fuel sample 12) ∨
        (sample.size_id = 22 ∧ insert id enough_fuel sample 34 340 = .fault .schedule)) ∧
      (∃ t1, erase id enough_fuel sample 34 = .ok t1 ∧
          find_result id enough_fuel t1 12 = find_result id enough_fuel sample 12) ∧
      (∀ ps : List (Nat × Nat), (ps.map Prod.fst).Nodup → 10 * ps.length < 6 * 28973957 →
        ∃ t1 : Table Nat Nat, insert_list id enough_fuel ps empty = .ok t1 ∧
          ∀ p ∈ ps, find_result id enough_fuel t1 p.1 = .ok (some p.2))) :=
  ⟨by decide, other_keys_untouched sample_reachable (by decide : 34 ≠ 12) 340
    (Nat.le_refl enough_fuel)⟩

end claims3

end HashMap

namespace HashMap

section claims4

variable {K V : Type} [DecidableEq K] [Inhabited K] [Inhabited V]

omit [Inhabited K] [Inhabited V] in
theorem keys_insert {t t1 : Table K V} {k : K} {v : V}
    (hh : ∀ k1 v1, Has t1 k1 v1 ↔ Has t k1 v1 ∨ ((∀ w, ¬ Has t k w) ∧ k1 = k ∧ v1 = v)) :
    keys t1 = Insert.insert k (keys t) := by
  ext x
  rw [Finset.mem_insert, mem_keys, mem_keys]
  constructor
  · rintro ⟨w, hw⟩
    rcases (hh x w).mp hw with a | ⟨_, a, _⟩
    · exact Or.inr ⟨w, a⟩
    · exact Or.inl a
  · rintro (rfl | ⟨w, hw⟩)
    · by_cases hp : ∀ w, ¬ Has t x w
      · exact ⟨v, (hh x v).mpr (Or.inr ⟨hp, rfl, rfl⟩)⟩
      · push_neg at hp
        obtain ⟨w, hw⟩ := hp
        exact ⟨w, (hh x w).mpr (Or.inl hw)⟩
    · exact ⟨w, (hh x w).mpr (Or.inl hw)⟩

omit [Inhabited K] [Inhabited V] in
theorem keys_erase {t t1 : Table K V} {k : K}
    (hh : ∀ k1 v1, Has t1 k1 v1 ↔ Has t k1 v1 ∧ k1 ≠ k) :
    keys t1 = (keys t).erase k := by
  ext x
  rw [Finset.mem_erase, mem_keys, mem_keys]
  constructor
  · rintro ⟨w, hw⟩
    exact ⟨((hh x w).mp hw).2, w, ((hh x w).mp hw).1⟩
  · rintro ⟨hne, w, hw⟩
    exact ⟨w, (hh x w).mpr ⟨hw, hne⟩⟩

/-- A sequence of `insert` and `erase` calls tracks the reference key set. -/
theorem run_keys {hash : K → Nat} {fuel : Nat} (hf : enough_fuel ≤ fuel) :
    ∀ (ops : List (Op K V)) (t : Table K V), Good hash t →
      (∃ t1, run hash fuel ops t = .ok t1 ∧ Good hash t1 ∧
        keys t1 = ref_keys ops (keys t)) ∨
      run hash fuel ops t = .fault .schedule := by
  intro ops
  induction ops with
  | nil =>
    intro t hg
    exact Or.inl ⟨t, rfl, hg, rfl⟩
  | cons o ops ih =>
    intro t hg
    cases o with
    | ins k v =>
      unfold run ref_keys
      rcases insert_total hg hf k v with ⟨t1, h1, h2, _⟩ | ⟨h1, _⟩
      · simp only [h1]
        rw [← keys_insert (insert_good hg h1).2]
        exact ih t1 h2
      · rw [h1]
        exact Or.inr rfl
    | del k =>
      unfold run ref_keys
      obtain ⟨t1, h1⟩ := erase_total hg.inv (hg.fuel hf) k
      obtain ⟨g1, hh⟩ := erase_spec hg h1
      simp only [h1]
      rw [← keys_erase hh]
      exact ih t1 g1

omit [DecidableEq K] in
theorem keys_empty [DecidableEq K] : keys (empty : Table K V) = ∅ := by
  ext x
  rw [mem_keys]
  simp only [Finset.not_mem_empty, iff_false]
  rintro ⟨w, hw⟩
  exact empty_has _ _ hw

end claims4

end HashMap

namespace HashMap

section claims5

variable {K V : Type}

/-- A traversal visits exactly the live slots from `j` on, in increasing order. -/
theorem traverse_from_spec {hash : K → Nat} {t : Table K V} (h : Inv hash t) :
    ∀ (steps j : Nat), j ≤ t.capacity →
      (j < t.capacity → ∃ e, t.data[j]? = some e ∧ e.is_empty = false) →
      t.capacity - j < steps →
      ∃ ids, traverse_from t steps j = .ok ids ∧
        (∀ i, i ∈ ids ↔ (j ≤ i ∧ ∃ e, t.data[i]? = some e ∧ e.is_empty = false)) ∧
        ids.Pairwise (fun a b => a < b) := by
  intro steps
  induction steps with
  | zero => intro j _ _ hs; omega
  | succ steps ih =>
    intro j hle hlive hs
    unfold traverse_from end_
    by_cases hj : j = t.capacity
    · rw [if_pos hj]
      refine ⟨[], rfl, fun i => ?_, List.Pairwise.nil⟩
      constructor
      · intro hi
        cases hi
      · rintro ⟨h1, e, h2, _⟩
        have := (List.getElem?_eq_some.mp h2).1
        rw [h.len] at this
        omega
    · rw [if_neg hj]
      unfold iter_next
      obtain ⟨j1, a1, a2, a3, a4, a5, _⟩ := skip_empty_spec h (t.capacity - (j + 1)) (j + 1)
        (by omega)
      simp only [a1]
      obtain ⟨ids, b1, b2, b3⟩ := ih j1 a3 a4 (by omega)
      simp only [b1]
      refine ⟨j :: ids, rfl, fun i => ?_, ?_⟩
      · rw [List.mem_cons, b2]
        constructor
        · rintro (rfl | ⟨c1, c2⟩)
          · exact ⟨Nat.le_refl _, hlive (by omega)⟩
          · exact ⟨by omega, c2⟩
        · rintro ⟨c1, e, c2, c3⟩
          by_cases hij : i = j
          · exact Or.inl hij
          · right
            refine ⟨?_, e, c2, c3⟩
            by_contra hlt
            have := a5 i e (by omega) (by omega) c2
            rw [c3] at this
            cases this
      · rw [List.pairwise_cons]
        refine ⟨fun i hi => ?_, b3⟩
        have := ((b2 i).mp hi).1
        omega

/-- Reading the pairs at increasing live slots gives pairs with distinct keys. -/
theorem deref_all_spec {hash : K → Nat} {t : Table K V} (h : Inv hash t) :
    ∀ ids : List Nat, ids.Pairwise (fun a b => a < b) →
      (∀ i ∈ ids, ∃ e, t.data[i]? = some e ∧ e.is_empty = false) →
      ∃ ps, deref_all t ids = .ok ps ∧
        (∀ p, p ∈ ps ↔ ∃ i ∈ ids, ∃ e, t.data[i]? = some e ∧ p = (e.key, e.value)) ∧
        (ps.map Prod.fst).Nodup := by
  intro ids
  induction ids with
  | nil =>
    intro _ _
    exact ⟨[], rfl, fun p => by simp, List.nodup_nil⟩
  | cons i ids ih =>
    intro hp hl
    rw [List.pairwise_cons] at hp
    obtain ⟨e, he, hel⟩ := hl i (List.mem_cons_self _ _)
    obtain ⟨ps, a1, a2, a3⟩ := ih hp.2 (fun x hx => hl x (List.mem_cons_of_mem _ hx))
    unfold deref_all deref
    simp only [he, a1]
    refine ⟨(e.key, e.value) :: ps, rfl, fun p => ?_, ?_⟩
    · rw [List.mem_cons, a2]
      constructor
      · rintro (rfl | ⟨x, hx, c⟩)
        · exact ⟨i, List.mem_cons_self _ _, e, he, rfl⟩
        · exact ⟨x, List.mem_cons_of_mem _ hx, c⟩
      · rintro ⟨x, hx, e1, c1, c2⟩
        rcases List.mem_cons.mp hx with rfl | hx
        · rw [he] at c1
          cases c1
          exact Or.inl c2
        · exact Or.inr ⟨x, hx, e1, c1, c2⟩
    · rw [List.map_cons, List.nodup_cons]
      refine ⟨?_, a3⟩
      intro hm
      obtain ⟨q, hq, hqk⟩ := List.mem_map.mp hm
      obtain ⟨x, hx, e1, c1, c2⟩ := (a2 q).mp hq
      obtain ⟨e2, d1, d2⟩ := hl x (List.mem_cons_of_mem _ hx)
      rw [c1] at d1
      cases d1
      have hk : e1.key = e.key := by
        rw [c2] at hqk
        exact hqk
      have := h.uniq x i e1 e c1 he d2 hel hk
      have := hp.1 x hx
      omega

/-- C6. A full traversal of a reachable table from `begin()` with `++` until
`end()` returns; it visits slots in strictly increasing index order, the keys of
the visited pairs are pairwise distinct, and a pair `(k, v)` is visited exactly
when `find(k)` reports the key present with value `v`. -/
theorem traversal_complete [DecidableEq K] [Inhabited K] [Inhabited V] {hash : K → Nat}
    {t : Table K V} (hr : Reachable hash t) {fuel : Nat} (hf : enough_fuel ≤ fuel) :
    ∃ ids ps, traverse fuel t = .ok ids ∧ deref_all t ids = .ok ps ∧
      ids.Pairwise (fun a b => a < b) ∧ (ps.map Prod.fst).Nodup ∧
      ∀ k v, (k, v) ∈ ps ↔ find_result hash fuel t k = .ok (some v) := by
  have hg := hr.good
  have h := hg.inv
  obtain ⟨j1, a1, a2, a3, _⟩ := begin_spec h
  obtain ⟨ids, b1, b2, b3⟩ := traverse_from_spec h fuel j1 a2 a3 (by
    have := hg.fuel hf
    omega)
  obtain ⟨ps, c1, c2, c3⟩ := deref_all_spec h ids b3 (fun i hi => ((b2 i).mp hi).2)
  refine ⟨ids, ps, ?_, c1, b3, c3, fun k v => ?_⟩
  · unfold traverse
    simp only [a1]
    exact b1
  · rw [find_result_eq h (hg.fuel hf), c2]
    constructor
    · rintro ⟨i, hi, e, d1, d2⟩
      obtain ⟨e1, d3, d4⟩ := ((b2 i).mp hi).2
      rw [d1] at d3
      cases d3
      cases d2
      congr 1
      exact (lookup_eq_some h _ _).mpr ⟨i, e, d1, d4, rfl, rfl⟩
    · intro hl
      have hl1 : lookup t k = some v := (Outcome.ok.inj hl).symm ▸ rfl
      obtain ⟨i, e, d1, d2, d3, d4⟩ := (lookup_eq_some h k v).mp hl1
      refine ⟨i, (b2 i).mpr ⟨?_, e, d1, d2⟩, e, d1, by rw [d3, d4]⟩
      by_contra hlt
      obtain ⟨j2, a4, _, _, a5, _⟩ := begin_spec h
      rw [a1] at a4
      cases a4
      have := a5 i e (by omega) d1
      rw [d2] at this
      cases this

set_option maxRecDepth 100000 in
/-- Witness of C6: the traversal of `sample` visits the slots 1, 2, 3, 4, 20, 21. -/
theorem traversal_complete_witness :
    traverse enough_fuel sample = .ok [1, 2, 3, 4, 20, 21] ∧
    ∃ ids ps, traverse enough_fuel sample = .ok ids ∧ deref_all sample ids = .ok ps ∧
      ids.Pairwise (fun a b => a < b) ∧ (ps.map Prod.fst).Nodup ∧
      ∀ k v, (k, v) ∈ ps ↔ find_result id enough_fuel sample k = .ok (some v) :=
  ⟨by decide, traversal_complete sample_reachable (Nat.le_refl enough_fuel)⟩

end claims5

end HashMap

namespace HashMap

section claims6

variable {K V : Type} [DecidableEq K] [Inhabited K] [Inhabited V]

omit [Inhabited K] [Inhabited V] in
/-- On a table that satisfies the invariant, `get_key_id` returns the live slot that
holds the key when there is one. -/
theorem get_key_id_present {hash : K → Nat} {t : Table K V} (h : Inv hash t) {k : K} {w : V}
    (hw : Has t k w) {fuel : Nat} (hf : t.capacity < fuel) :
    ∃ id, get_key_id hash fuel t k = .ok id ∧ id ≠ t.capacity ∧ id < t.data.length ∧
      deref t id = .ok (k, w) := by
  obtain ⟨r, hg⟩ := get_key_id_total h hf k
  rcases get_key_id_sound h hg with ⟨h1, e, h2, h3, h4⟩ | ⟨_, h2⟩
  · refine ⟨r, hg, by omega, by rw [h.len]; exact h1, ?_⟩
    obtain ⟨j, e1, a1, a2, a3, a4⟩ := hw
    have := h.uniq r j e e1 h2 a1 h3 a2 (h4.trans a3.symm)
    subst this
    rw [h2] at a1
    cases a1
    unfold deref
    simp only [h2, h4, a4]
  · exact absurd hw (h2 w)

/-- C7. On a reachable table `at(k)` throws `std::out_of_range` if and only if
`find(k)` reports the key absent, and returns the value `find(k)` refers to
otherwise; `at` is a `const` member, it returns no new table state. -/
theorem at_iff_find {hash : K → Nat} {t : Table K V} (hr : Reachable hash t) (k : K)
    {fuel : Nat} (hf : enough_fuel ≤ fuel) :
    (∃ r, find_result hash fuel t k = .ok r) ∧
    (at_ hash fuel t k = .fault .out_of_range ↔ find_result hash fuel t k = .ok none) ∧
    (∀ v, at_ hash fuel t k = .ok v ↔ find_result hash fuel t k = .ok (some v)) := by
  have hg := hr.good
  have h := hg.inv
  have hcap := hg.fuel hf
  rw [find_result_eq h hcap]
  refine ⟨⟨_, rfl⟩, ?_⟩
  unfold at_
  obtain ⟨r, hgk⟩ := get_key_id_total h hcap k
  simp only [hgk]
  rcases get_key_id_sound h hgk with ⟨h1, e, h2, h3, h4⟩ | ⟨h1, h2⟩
  · rw [if_neg (by omega)]
    simp only [h2]
    have hl : lookup t k = some e.value :=
      (lookup_eq_some h k e.value).mpr ⟨r, e, h2, h3, h4, rfl⟩
    rw [hl]
    simp
  · rw [if_pos h1]
    have hl : lookup t k = none := (lookup_eq_none t k).mpr h2
    rw [hl]
    simp

set_option maxRecDepth 100000 in
/-- Witness of C7: in `sample`, `at(12)` returns 120 and `at(34)` throws. -/
theorem at_iff_find_witness :
    at_ id enough_fuel sample 12 = .ok 120 ∧
    at_ id enough_fuel sample 34 = .fault .out_of_range ∧
    ((∃ r, find_result id enough_fuel sample 34 = .ok r) ∧
      (at_ id enough_fuel sample 34 = .fault .out_of_range ↔
        find_result id enough_fuel sample 34 = .ok none) ∧
      (∀ v, at_ id enough_fuel sample 34 = .ok v ↔
        find_result id enough_fuel sample 34 = .ok (some v))) :=
  ⟨by decide, by decide, at_iff_find sample_reachable 34 (Nat.le_refl enough_fuel)⟩

/-- C8. On a reachable table, `operator[]` on a key that `find` reports absent
returns (unless the growth schedule is exhausted) a table in which `find` reports
the key present with the default value and whose `size()` is larger by one, and
the reference designates the slot that `find` returns, which holds the key and
the default value; on a key that `find` reports present with value `v` it returns
the unchanged table and a reference to the slot that `find` returns, which holds
the key and `v`. The assertion of `operator[]` never fails. -/
theorem index_access {hash : K → Nat} {t : Table K V} (hr : Reachable hash t) (k : K)
    {fuel : Nat} (hf : enough_fuel ≤ fuel) :
    (∀ fuel0, find_result hash fuel0 t k = .ok none →
      (∃ t1 id, index hash fuel t k = .ok (t1, id) ∧
        find_result hash fuel t1 k = .ok (some default) ∧ size t1 = size t + 1 ∧
        find hash fuel t1 k = .ok id ∧ deref t1 id = .ok (k, default)) ∨
      (t.size_id = 22 ∧ index hash fuel t k = .fault .schedule)) ∧
    (∀ v fuel0, find_result hash fuel0 t k = .ok (some v) →
      ∃ id, index hash fuel t k = .ok (t, id) ∧ find hash fuel t k = .ok id ∧
        deref t id = .ok (k, v)) := by
  have hg := hr.good
  have h := hg.inv
  have hcap := hg.fuel hf
  constructor
  · intro fuel0 habs
    have hnone : ∀ w, ¬ Has t k w :=
      (lookup_eq_none t k).mp (find_result_sound h habs).symm
    obtain ⟨r, hgk⟩ := get_key_id_total h hcap k
    have hr1 : r = t.capacity := by
      rcases get_key_id_sound h hgk with ⟨_, e, h2, h3, h4⟩ | ⟨h1, _⟩
      · exact absurd ⟨r, e, h2, h3, h4, rfl⟩ (hnone e.value)
      · exact h1
    unfold index
    simp only [hgk]
    rw [if_pos hr1]
    rcases insert_total hg hf k default with ⟨t1, h1, h2, _⟩ | ⟨h1, h2, _⟩
    · left
      simp only [h1]
      have hh := (insert_good hg h1).2
      have hw : Has t1 k default := (hh k default).mpr (Or.inr ⟨hnone, rfl, rfl⟩)
      obtain ⟨id, a1, a2, a3, a4⟩ := get_key_id_present h2.inv hw (h2.fuel hf)
      simp only [a1]
      rw [if_neg a2, if_pos a3]
      refine ⟨t1, id, rfl, ?_, size_insert h h2.inv hnone hh, a1, a4⟩
      rw [find_result_eq h2.inv (h2.fuel hf)]
      congr 1
      exact (lookup_eq_some h2.inv k default).mpr hw
    · right
      rw [h1]
      exact ⟨h2, rfl⟩
  · intro v fuel0 hp
    have hw : Has t k v := (lookup_eq_some h k v).mp (find_result_sound h hp).symm
    obtain ⟨id, a1, a2, a3, a4⟩ := get_key_id_present h hw hcap
    refine ⟨id, ?_, a1, a4⟩
    unfold index
    simp only [a1]
    rw [if_neg a2, if_pos a3]

set_option maxRecDepth 100000 in
/-- Witness of C8: `operator[]` on the absent key 34 of `sample` (the insertion
rehashes) and on the present key 12. -/
theorem index_access_witness :
    ((∃ t1 slot, index id enough_fuel sample 34 = .ok (t1, slot) ∧
        find_result id enough_fuel t1 34 = .ok (some default) ∧
        size t1 = size sample + 1 ∧
        find id enough_fuel t1 34 = .ok slot ∧ deref t1 slot = .ok (34, default)) ∨
      (sample.size_id = 22 ∧ index id enough_fuel sample 34 = .fault .schedule)) ∧
    (∃ slot, index id enough_fuel sample 12 = .ok (sample, slot) ∧
      find id enough_fuel sample 12 = .ok slot ∧ deref sample slot = .ok (12, 120)) :=
  ⟨(index_access sample_reachable 34 (Nat.le_refl enough_fuel)).1 64 (by decide),
    (index_access sample_reachable 12 (Nat.le_refl enough_fuel)).2 120 64 (by decide)⟩

end claims6

end HashMap

namespace HashMap

section claims7

variable {K V : Type} [DecidableEq K] [Inhabited K] [Inhabited V]

/-- What `clear` guarantees on a reachable table: it returns an empty table in
which no key is found and `begin() == end()`; its tier is 0, or 1 when the count
before the call exceeded the load bound of the old primary size. -/
theorem clear_empties {hash : K → Nat} {t : Table K V} (hr : Reachable hash t) (fuel : Nat) :
    ∃ t1, clear hash fuel t = .ok t1 ∧ size t1 = 0 ∧
      (∀ k fuel1, t1.capacity < fuel1 → find_result hash fuel1 t1 k = .ok none) ∧
      begin t1 = .ok (end_ t1) ∧
      t1.size_id = (if exceeds_load t.current_size t.hash_capacity = true then 1 else 0) := by
  have h := hr.good.inv
  have e := clear_eq h fuel
  obtain ⟨g1, _, g3, g4, _⟩ := clear_spec h e
  refine ⟨_, e, g4, ?_, ?_, ?_⟩
  · intro k fuel1 hf
    rw [find_result_eq g1.inv hf]
    congr 1
    exact (lookup_eq_none _ k).mpr (g3 k)
  · obtain ⟨j1, a1, a2, a3, _⟩ := begin_spec g1.inv
    rw [a1]
    congr 1
    by_contra hne
    obtain ⟨e1, b1, b2⟩ := a3 (by unfold end_ at hne; omega)
    exact g3 e1.key e1.value ⟨j1, e1, b1, b2, rfl, rfl⟩
  · split <;> rfl

set_option maxRecDepth 100000 in
/-- C9, the code at the failing input: `clear()` on `sample` (six pairs) ends in
tier 1 with primary size 11 and capacity 22, whereas `clear()` on the
default-constructed table ends in tier 0 with primary size 5 and capacity 10. -/
theorem clear_tier_depends_on_content :
    (∃ t1, clear id enough_fuel sample = .ok t1 ∧ t1.size_id = 1 ∧
      t1.hash_capacity = 11 ∧ t1.capacity = 22) ∧
    (∃ t0, clear id enough_fuel (empty : Table Nat Nat) = .ok t0 ∧ t0.size_id = 0 ∧
      t0.hash_capacity = 5 ∧ t0.capacity = 10) :=
  ⟨⟨(clear id enough_fuel sample).table, by decide, by decide, by decide, by decide⟩,
    ⟨(clear id enough_fuel (empty : Table Nat Nat)).table, by decide, by decide, by decide,
      by decide⟩⟩

end claims7

end HashMap

namespace HashMap

section claims11

variable {K V : Type} [DecidableEq K] [Inhabited K] [Inhabited V]

omit [DecidableEq K] in
/-- `rehash` selects the tier `next_tier` and reinserts into the blank table of
that tier. -/
theorem rehash_with_eq (ins : Table K V → K → V → Outcome (Table K V)) (t : Table K V) :
    rehash_with ins t =
      match sizes[next_tier t.size_id t.hash_capacity t.current_size]? with
      | none => .fault .schedule
      | some h => reinsert ins t.data (blank (next_tier t.size_id t.hash_capacity
          t.current_size) h) := rfl

/-- C11. `rehash()` on a reachable table returns (unless the growth schedule is
exhausted) a table with the same `size()`, the same `find` result for every key,
and exactly the live pairs of the old array; the new array holds no tombstone. -/
theorem rehash_preserves {hash : K → Nat} {t : Table K V} (hr : Reachable hash t)
    {fuel : Nat} (hf : enough_fuel ≤ fuel) :
    (∃ t1, rehash hash fuel t = .ok t1 ∧ size t1 = size t ∧
      (∀ k, find_result hash fuel t1 k = find_result hash fuel t k) ∧
      (∀ k v, Has t1 k v ↔ Has t k v) ∧ used_count t1.data = size t1) ∨
    (t.size_id = 22 ∧ rehash hash fuel t = .fault .schedule) := by
  have hg := hr.good
  have hlt := Loaded.lt hg.inv hg.loaded
  have hf1 : max_capacity < fuel := by unfold enough_fuel at hf; omega
  rcases rehash_after_insert hf1 hg.inv (by omega) with
    ⟨t1, a1, a2, a3, a4, a5, a6, _, a8⟩ | ⟨a1, a2, _⟩
  · left
    have g1 : Good hash t1 := ⟨a2, a3, a6⟩
    refine ⟨t1, a1, a8, fun k => ?_, a4, a5⟩
    rw [find_result_eq a2 (g1.fuel hf), find_result_eq hg.inv (hg.fuel hf)]
    congr 1
    exact lookup_congr hg.inv a2 a4 k
  · exact Or.inr ⟨a2, a1⟩

set_option maxRecDepth 100000 in
/-- Witness of C11: `rehash()` on `sample` keeps the six pairs. -/
theorem rehash_preserves_witness :
    size sample = 6 ∧
    ((∃ t1, rehash id enough_fuel sample = .ok t1 ∧ size t1 = size sample ∧
        (∀ k, find_result id enough_fuel t1 k = find_result id enough_fuel sample k) ∧
        (∀ k v, Has t1 k v ↔ Has sample k v) ∧ used_count t1.data = size t1) ∨
      (sample.size_id = 22 ∧ rehash id enough_fuel sample = .fault .schedule)) :=
  ⟨by decide, rehash_preserves sample_reachable (Nat.le_refl enough_fuel)⟩

end claims11

end HashMap

namespace HashMap

section claims15

variable {K V : Type} [DecidableEq K] [Inhabited K] [Inhabited V]

/-- C15. `erase(k)` on a reachable table returns; the tier, the primary size, the
capacity, the cursor and the length of the array are unchanged, every slot keeps
its key, value, `is_used`, `last` and `next`; either the table is unchanged
altogether, or exactly one slot, a live slot that holds `k`, gets `is_empty`
set, and the count is decremented by one. -/
theorem erase_frame {hash : K → Nat} {t : Table K V} (hr : Reachable hash t) (k : K)
    {fuel : Nat} (hf : enough_fuel ≤ fuel) :
    ∃ t1, erase hash fuel t k = .ok t1 ∧
      t1.size_id = t.size_id ∧ t1.hash_capacity = t.hash_capacity ∧
      t1.capacity = t.capacity ∧ t1.collision_bucket_id = t.collision_bucket_id ∧
      t1.data.length = t.data.length ∧
      (∀ (j : Nat) (e : Element K V), t.data[j]? = some e →
        ∃ e1 : Element K V, t1.data[j]? = some e1 ∧ e1.key = e.key ∧ e1.value = e.value ∧
          e1.is_used = e.is_used ∧ e1.last = e.last ∧ e1.next = e.next) ∧
      (t1 = t ∨
        ∃ (id : Nat) (e : Element K V), t.data[id]? = some e ∧ e.key = k ∧
          e.is_empty = false ∧
          t1.data = t.data.set id (Element.mk e.key e.value e.is_used true e.last e.next) ∧
          t1.current_size + 1 = t.current_size) := by
  have hg := hr.good
  obtain ⟨t1, h1⟩ := erase_total hg.inv (hg.fuel hf) k
  refine ⟨t1, h1, ?_⟩
  rcases erase_shape hg.inv h1 with ⟨_, rfl⟩ | ⟨id, e, a1, a2, a3, rfl⟩
  · exact ⟨rfl, rfl, rfl, rfl, rfl, fun j e he => ⟨e, he, rfl, rfl, rfl, rfl, rfl⟩,
      Or.inl rfl⟩
  · refine ⟨rfl, rfl, rfl, rfl, by simp, ?_, Or.inr ⟨id, e, a1, a3, a2, rfl,
      (tombstone_good hg a1 a2).2.1⟩⟩
    intro j b hb
    have hilt : id < t.data.length := (List.getElem?_eq_some.mp a1).1
    by_cases hj : id = j
    · subst hj
      rw [a1] at hb
      cases hb
      exact ⟨_, List.getElem?_set_self hilt, rfl, rfl, rfl, rfl, rfl⟩
    · exact ⟨b, by
        show (t.data.set id _)[j]? = some b
        rw [List.getElem?_set_ne hj]
        exact hb, rfl, rfl, rfl, rfl, rfl⟩

set_option maxRecDepth 100000 in
/-- Witness of C15: erasing key 12 of `sample` tombstones slot 21. -/
theorem erase_frame_witness :
    (∃ t1, erase id enough_fuel sample 12 = .ok t1 ∧
      t1.data = sample.data.set 21 (Element.mk 12 120 true true false 20)) ∧
    ∃ t1, erase id enough_fuel sample 12 = .ok t1 ∧
      t1.size_id = sample.size_id ∧ t1.hash_capacity = sample.hash_capacity ∧
      t1.capacity = sample.capacity ∧
      t1.collision_bucket_id = sample.collision_bucket_id ∧
      t1.data.length = sample.data.length ∧
      (∀ (j : Nat) (e : Element Nat Nat), sample.data[j]? = some e →
        ∃ e1 : Element Nat Nat, t1.data[j]? = some e1 ∧ e1.key = e.key ∧
          e1.value = e.value ∧ e1.is_used = e.is_used ∧ e1.last = e.last ∧
          e1.next = e.next) ∧
      (t1 = sample ∨
        ∃ (slot : Nat) (e : Element Nat Nat), sample.data[slot]? = some e ∧ e.key = 12 ∧
          e.is_empty = false ∧
          t1.data = sample.data.set slot
            (Element.mk e.key e.value e.is_used true e.last e.next) ∧
          t1.current_size + 1 = sample.current_size) :=
  ⟨⟨(erase id enough_fuel sample 12).table, by decide, by decide⟩,
    erase_frame sample_reachable 12 (Nat.le_refl enough_fuel)⟩

omit [DecidableEq K] [Inhabited K] [Inhabited V] in
/-- A table that satisfies the invariant has the key placement property. -/
theorem Inv.placement {hash : K → Nat} {t : Table K V} (h : Inv hash t) :
    KeyPlacement hash t := ⟨h.uniq, h.home⟩

/-- C16. In every reachable table a key has at most one non-tombstoned slot, and
that slot is reached from the home slot `hash(k) mod primary_size` by following
`next` through non-terminal slots; the tables that `insert`, `erase`,
`operator[]`, `clear` and `rehash` return have the property again. -/
theorem key_placement {hash : K → Nat} {t : Table K V} (hr : Reachable hash t) :
    KeyPlacement hash t ∧
    (∀ fuel k v t1, insert hash fuel t k v = .ok t1 → KeyPlacement hash t1) ∧
    (∀ fuel k t1, erase hash fuel t k = .ok t1 → KeyPlacement hash t1) ∧
    (∀ fuel k t1 slot, index hash fuel t k = .ok (t1, slot) → KeyPlacement hash t1) ∧
    (∀ fuel t1, clear hash fuel t = .ok t1 → KeyPlacement hash t1) ∧
    (∀ fuel t1, rehash hash fuel t = .ok t1 → KeyPlacement hash t1) := by
  refine ⟨hr.good.inv.placement, ?_, ?_, ?_, ?_, ?_⟩
  · intro fuel k v t1 h
    exact (Reachable.insert hr h).good.inv.placement
  · intro fuel k t1 h
    exact (Reachable.erase hr h).good.inv.placement
  · intro fuel k t1 slot h
    exact (Reachable.index hr h).good.inv.placement
  · intro fuel t1 h
    exact (Reachable.clear hr h).good.inv.placement
  · intro fuel t1 h
    exact (rehash_spec hash fuel t t1 hr.good.inv.uniq h).1.placement

set_option maxRecDepth 100000 in
/-- Witness of C16: in `sample`, key 23 lives in slot 20, which is reached from its
home slot 1 through slot 21. -/
theorem key_placement_witness :
    find id enough_fuel sample 23 = .ok 20 ∧
    (KeyPlacement id sample ∧
      (∀ fuel k v t1, insert id fuel sample k v = .ok t1 → KeyPlacement id t1) ∧
      (∀ fuel k t1, erase id fuel sample k = .ok t1 → KeyPlacement id t1) ∧
      (∀ fuel k t1 slot, index id fuel sample k = .ok (t1, slot) → KeyPlacement id t1) ∧
      (∀ fuel t1, clear id fuel sample = .ok t1 → KeyPlacement id t1) ∧
      (∀ fuel t1, rehash id fuel sample = .ok t1 → KeyPlacement id t1)) :=
  ⟨by decide, key_placement sample_reachable⟩

/-- C17. In every reachable table the count is at most the capacity and is strictly
below the load threshold `capacity * 0.3` of `insert`; and for every adjacent
pair of the growth schedule, a count that was below the threshold of a tier is,
after one more insertion, below the threshold of the next tier, so a single
tier advance suffices. -/
theorem load_bound {hash : K → Nat} {t : Table K V} (hr : Reachable hash t) :
    t.current_size ≤ t.capacity ∧
    reaches_load t.current_size t.capacity = false ∧
    10 * t.current_size < 3 * t.capacity ∧
    ∀ i h h1 n, sizes[i]? = some h → sizes[i + 1]? = some h1 →
      reaches_load n (cellar_capacity h) = false →
      reaches_load (n + 1) (cellar_capacity h1) = false := by
  have hg := hr.good
  refine ⟨hg.inv.count_le.1, hg.loaded, Loaded.lt hg.inv hg.loaded, ?_⟩
  intro i h h1 n hs hs1 hl
  have hi : i < 22 := by
    have := sizes_index hs1
    omega
  obtain ⟨h2, e1, e2⟩ := sizes_next hs hi
  rw [hs1] at e1
  cases e1
  rw [reaches_load_sizes hs, cellar_capacity_eq] at hl
  rw [reaches_load_sizes hs1, cellar_capacity_eq]
  have hb := sizes_bounds (sizes_mem hs)
  simp only [decide_eq_false_iff_not, not_le] at hl ⊢
  omega

set_option maxRecDepth 100000 in
/-- Witness of C17: `sample` holds 6 pairs at capacity 22. -/
theorem load_bound_witness :
    (sample.current_size = 6 ∧ sample.capacity = 22) ∧
    (sample.current_size ≤ sample.capacity ∧
      reaches_load sample.current_size sample.capacity = false ∧
      10 * sample.current_size < 3 * sample.capacity ∧
      ∀ i h h1 n, sizes[i]? = some h → sizes[i + 1]? = some h1 →
        reaches_load n (cellar_capacity h) = false →
        reaches_load (n + 1) (cellar_capacity h1) = false) :=
  ⟨by decide, load_bound sample_reachable⟩

end claims15

end HashMap

namespace HashMap

section claims19

variable {K V : Type}

theorem OnChain.rank_le {d : List (Element K V)} {rank : Nat → Nat}
    (hl : ∀ (i : Nat) (e : Element K V), d[i]? = some e → e.last = false →
      e.next < d.length ∧ rank e.next < rank i)
    {i j : Nat} (h : OnChain d i j) : rank j ≤ rank i := by
  induction h with
  | here => exact Nat.le_refl _
  | step h1 h2 _ ih =>
    have := (hl _ _ h1 h2).2
    omega

/-- C19. In every reachable table a non-terminal slot has `next < capacity` and
`next` designates a slot that was written, a slot that was never written is
terminal, and no slot is reached from its own successor (chains are acyclic);
hence the loops of `get_key_id` and of `insert`, started at any home index
below the primary size and given `capacity + 1` evaluations of the loop
condition (at most `capacity` steps), return: no index leaves the array, no
assertion fails, and the walk of `insert` stops at a terminal slot. -/
theorem chains_well_formed [DecidableEq K] [Inhabited K] [Inhabited V] {hash : K → Nat}
    {t : Table K V} (hr : Reachable hash t) :
    (∀ (i : Nat) (e : Element K V), t.data[i]? = some e → e.last = false →
      e.next < t.capacity ∧ ∃ e1 : Element K V, t.data[e.next]? = some e1 ∧
        e1.is_used = true) ∧
    (∀ (i : Nat) (e : Element K V), t.data[i]? = some e → e.is_used = false →
      e.last = true) ∧
    (∀ (i : Nat) (e : Element K V), t.data[i]? = some e → e.last = false →
      ¬ OnChain t.data e.next i) ∧
    (∀ (key : K) (i fuel : Nat), i < t.hash_capacity → t.capacity < fuel →
      (∃ r, get_key_id_loop t key fuel i = .ok r ∧ r ≤ t.capacity) ∧
      ∃ (j : Nat) (e : Element K V), insert_walk t fuel i = .ok j ∧
        t.data[j]? = some e ∧ e.last = true) := by
  have h := hr.good.inv
  have hs := h.small
  obtain ⟨rank, hrb, hrl⟩ := h.link
  refine ⟨?_, fun i e he hu => (h.unused i e he hu).2, ?_, ?_⟩
  · intro i e he hl
    have := (hrl i e he hl).1
    rw [h.len] at this
    exact ⟨this, h.target i e he hl⟩
  · intro i e he hl hc
    have h1 := (hrl i e he hl).2
    have h2 := hc.rank_le hrl
    omega
  · intro key i fuel hi hf
    have hilt : i < t.data.length := by
      rw [h.len]
      omega
    have hrk : rank i < fuel := by
      have := hrb i
      have := used_count_le t.data
      have := h.len
      omega
    constructor
    · obtain ⟨r, hr1⟩ := get_key_id_loop_total t key rank h.len hrl fuel i hilt hrk
      refine ⟨r, hr1, ?_⟩
      rcases get_key_id_loop_sound t key _ _ _ hr1 with ⟨e, h1, _⟩ | ⟨h1, _⟩
      · have := (List.getElem?_eq_some.mp h1).1
        rw [h.len] at this
        omega
      · omega
    · obtain ⟨j, hj⟩ := insert_walk_total t rank hs.2.1 hrl fuel i hilt hrk
      obtain ⟨_, e, he, hterm⟩ := insert_walk_sound t _ _ _ hj
      refine ⟨j, e, hj, he, ?_⟩
      rcases hterm with hu | hl
      · exact (h.unused j e he hu).2
      · exact hl

set_option maxRecDepth 100000 in
/-- Witness of C19: in `sample` the chain of home slot 1 is 1, 21, 20; the walk of
`insert` stops at slot 20. -/
theorem chains_well_formed_witness :
    insert_walk sample 23 1 = .ok 20 ∧
    ((∀ (i : Nat) (e : Element Nat Nat), sample.data[i]? = some e → e.last = false →
        e.next < sample.capacity ∧ ∃ e1 : Element Nat Nat, sample.data[e.next]? = some e1 ∧
          e1.is_used = true) ∧
      (∀ (i : Nat) (e : Element Nat Nat), sample.data[i]? = some e → e.is_used = false →
        e.last = true) ∧
      (∀ (i : Nat) (e : Element Nat Nat), sample.data[i]? = some e → e.last = false →
        ¬ OnChain sample.data e.next i) ∧
      (∀ (key : Nat) (i fuel : Nat), i < sample.hash_capacity → sample.capacity < fuel →
        (∃ r, get_key_id_loop sample key fuel i = .ok r ∧ r ≤ sample.capacity) ∧
        ∃ (j : Nat) (e : Element Nat Nat), insert_walk sample fuel i = .ok j ∧
          sample.data[j]? = some e ∧ e.last = true)) :=
  ⟨by decide, chains_well_formed sample_reachable⟩

/-- The chain-extension branch of `write_entry` keeps every live pair when the
cursor slot holds none. -/
theorem write_entry_keeps {t t2 : Table K V} {i : Nat} {k : K} {v : V} {upd : Bool}
    {buf : Element K V} (hb : t.data[i]? = some buf) (hu : buf.is_used = true)
    (hfree : ∀ e : Element K V, t.data[t.collision_bucket_id]? = some e → e.is_empty = true)
    (hw : write_entry t i k v = .ok (t2, upd)) :
    t2.data = (t.data.set i (Element.mk buf.key buf.value buf.is_used buf.is_empty false
        t.collision_bucket_id)).set t.collision_bucket_id
        (Element.mk k v true false true SIZE_MAX) ∧
    ∀ k1 v1, Has t k1 v1 → Has t2 k1 v1 := by
  unfold write_entry at hw
  simp only [hb] at hw
  rw [if_neg (by simp [hu])] at hw
  split at hw
  · simp only [Outcome.ok.injEq, Prod.mk.injEq] at hw
    obtain ⟨rfl, _⟩ := hw
    refine ⟨rfl, ?_⟩
    rintro k1 v1 ⟨j, e, hj, hl, hk, hv⟩
    have hilt : i < t.data.length := (List.getElem?_eq_some.mp hb).1
    have hjc : t.collision_bucket_id ≠ j := by
      rintro rfl
      have := hfree e hj
      rw [hl] at this
      cases this
    by_cases hji : i = j
    · subst hji
      rw [hb] at hj
      cases hj
      exact ⟨i, Element.mk buf.key buf.value buf.is_used buf.is_empty false
        t.collision_bucket_id, by
          show ((t.data.set i _).set _ _)[i]? = _
          rw [List.getElem?_set_ne hjc]
          exact List.getElem?_set_self hilt, hl, hk, hv⟩
    · exact ⟨j, e, by
        show ((t.data.set i _).set _ _)[j]? = _
        rw [List.getElem?_set_ne hjc, List.getElem?_set_ne hji]
        exact hj, hl, hk, hv⟩
  · cases hw

/-- C20. In every reachable table (the default-constructed one included) the
cellar cursor is an index below the capacity, other than slot 0 and other than
`SIZE_MAX`, of a slot that was never written: the slot holds no live entry, is
terminal and is the `next` of no slot. Hence the chain-extension branch of
`insert` writes the new entry into the cursor slot and keeps every live pair,
and `insert` returns or reports the exhausted schedule: no assertion fails. -/
theorem cursor_valid [DecidableEq K] [Inhabited K] [Inhabited V] {hash : K → Nat}
    {t : Table K V} (hr : Reachable hash t) :
    (0 < t.collision_bucket_id ∧ t.collision_bucket_id < t.capacity ∧
      t.collision_bucket_id ≠ SIZE_MAX) ∧
    (∃ e : Element K V, t.data[t.collision_bucket_id]? = some e ∧ e.is_used = false ∧
      e.is_empty = true ∧ e.last = true) ∧
    (∀ (i : Nat) (e : Element K V), t.data[i]? = some e → e.last = false →
      e.next ≠ t.collision_bucket_id) ∧
    (∀ (i : Nat) (k : K) (v : V) (t2 : Table K V) (upd : Bool) (buf : Element K V),
      t.data[i]? = some buf → buf.is_used = true →
      write_entry t i k v = .ok (t2, upd) →
      t2.data = (t.data.set i (Element.mk buf.key buf.value buf.is_used buf.is_empty false
          t.collision_bucket_id)).set t.collision_bucket_id
          (Element.mk k v true false true SIZE_MAX) ∧
      ∀ k1 v1, Has t k1 v1 → Has t2 k1 v1) ∧
    (∀ (k : K) (v : V) (fuel : Nat), enough_fuel ≤ fuel →
      (∃ t1, insert hash fuel t k v = .ok t1) ∨
      insert hash fuel t k v = .fault .schedule) := by
  have hg := hr.good
  have h := hg.inv
  have hc := hg.cursor
  have hs := h.small
  have hclt := hc.lt
  obtain ⟨e0, hd⟩ : ∃ e0 : Element K V, t.data[t.collision_bucket_id]? = some e0 :=
    ⟨_, List.getElem?_eq_getElem hclt⟩
  have hfree := hc.free _ hd
  have hun := h.unused _ _ hd hfree
  refine ⟨⟨hc.pos, by rw [← h.len]; exact hc.lt, ?_⟩, ⟨_, hd, hfree, hun.1, hun.2⟩, ?_, ?_, ?_⟩
  · have := hc.lt
    unfold max_capacity at hs
    unfold SIZE_MAX
    omega
  · intro i e he hl hn
    obtain ⟨e1, h1, h2⟩ := h.target i e he hl
    rw [hn, hd] at h1
    cases h1
    rw [hfree] at h2
    cases h2
  · intro i k v t2 upd buf hb hu hw
    refine write_entry_keeps hb hu ?_ hw
    intro e he
    rw [hd] at he
    cases he
    exact hun.1
  · intro k v fuel hf
    rcases insert_total hg hf k v with ⟨t1, h1, _⟩ | ⟨h1, _⟩
    · exact Or.inl ⟨t1, h1⟩
    · exact Or.inr h1

set_option maxRecDepth 100000 in
/-- Witness of C20: the cursor of `sample` is slot 19. -/
theorem cursor_valid_witness :
    sample.collision_bucket_id = 19 ∧
    ((0 < sample.collision_bucket_id ∧ sample.collision_bucket_id < sample.capacity ∧
        sample.collision_bucket_id ≠ SIZE_MAX) ∧
      (∃ e : Element Nat Nat, sample.data[sample.collision_bucket_id]? = some e ∧
        e.is_used = false ∧ e.is_empty = true ∧ e.last = true) ∧
      (∀ (i : Nat) (e : Element Nat Nat), sample.data[i]? = some e → e.last = false →
        e.next ≠ sample.collision_bucket_id) ∧
      (∀ (i : Nat) (k : Nat) (v : Nat) (t2 : Table Nat Nat) (upd : Bool)
        (buf : Element Nat Nat),
        sample.data[i]? = some buf → buf.is_used = true →
        write_entry sample i k v = .ok (t2, upd) →
        t2.data = (sample.data.set i (Element.mk buf.key buf.value buf.is_used
            buf.is_empty false sample.collision_bucket_id)).set sample.collision_bucket_id
            (Element.mk k v true false true SIZE_MAX) ∧
        ∀ k1 v1, Has sample k1 v1 → Has t2 k1 v1) ∧
      (∀ (k : Nat) (v : Nat) (fuel : Nat), enough_fuel ≤ fuel →
        (∃ t1, insert id fuel sample k v = .ok t1) ∨
        insert id fuel sample k v = .fault .schedule)) :=
  ⟨by decide, cursor_valid sample_reachable⟩

end claims19

end HashMap

namespace HashMap

section claims14

variable {K V : Type}

/-- The two branches of lines 334-347 of `insert`, read off the code. -/
theorem write_entry_eq {t t2 : Table K V} {i : Nat} {k : K} {v : V} {upd : Bool}
    {buf : Element K V} (hb : t.data[i]? = some buf)
    (hw : write_entry t i k v = .ok (t2, upd)) :
    (buf.is_used = false → upd = decide (i = t.collision_bucket_id) ∧
      t2.data = t.data.set i (Element.mk k v true false buf.last buf.next)) ∧
    (buf.is_used = true → upd = true ∧
      t2.data = (t.data.set i (Element.mk buf.key buf.value buf.is_used buf.is_empty false
        t.collision_bucket_id)).set t.collision_bucket_id
        (Element.mk k v true false true SIZE_MAX)) := by
  unfold write_entry at hw
  simp only [hb] at hw
  constructor
  · intro hu
    rw [if_pos hu] at hw
    simp only [Outcome.ok.injEq, Prod.mk.injEq] at hw
    obtain ⟨rfl, rfl⟩ := hw
    exact ⟨rfl, rfl⟩
  · intro hu
    rw [if_neg (by simp [hu])] at hw
    split at hw
    · simp only [Outcome.ok.injEq, Prod.mk.injEq] at hw
      obtain ⟨rfl, rfl⟩ := hw
      exact ⟨rfl, rfl⟩
    · cases hw

/-- The shape of `insert` for an absent key: the walk stops at the terminal slot `i`
of the chain of the home bucket, the pair is written into the never-written slot
`p` (slot `i` itself, or the cursor slot when slot `i` was written before), the
cursor is lowered to `c1`, and then `rehash` is called when `c1 = 0` and when the
count reaches the load threshold. -/
theorem insert_with_shape [DecidableEq K] {hash : K → Nat} {t : Table K V} (h : Inv hash t)
    (hc : Cursor t) {k : K} (v : V) (habs : ∀ w, ¬ Has t k w) {fuel : Nat}
    (hf : t.capacity < fuel) :
    ∃ (i p c1 : Nat) (d1 : List (Element K V)) (buf : Element K V),
      insert_walk t fuel (hash k % t.hash_capacity) = .ok i ∧
      OnChain t.data (hash k % t.hash_capacity) i ∧
      t.data[i]? = some buf ∧ (buf.is_used = false ∨ buf.last = true) ∧
      (buf.is_used = false → p = i ∧
        d1 = t.data.set i (Element.mk k v true false buf.last buf.next)) ∧
      (buf.is_used = true → p = t.collision_bucket_id ∧
        d1 = (t.data.set i (Element.mk buf.key buf.value buf.is_used buf.is_empty false
          t.collision_bucket_id)).set t.collision_bucket_id
          (Element.mk k v true false true SIZE_MAX)) ∧
      Placed t.data d1 p k v ∧
      Inv hash (Table.mk (t.current_size + 1) t.size_id t.hash_capacity t.capacity c1 d1) ∧
      c1 ≤ t.collision_bucket_id ∧
      (p ≠ t.collision_bucket_id → c1 = t.collision_bucket_id) ∧
      (c1 ≠ 0 → Cursor (Table.mk (t.current_size + 1) t.size_id t.hash_capacity
        t.capacity c1 d1)) ∧
      (c1 = 0 → d1.length ≤ used_count d1 + 1) ∧
      ∀ rh : Table K V → Outcome (Table K V), insert_with hash rh fuel t k v =
        if c1 = 0 then
          (match rh (Table.mk (t.current_size + 1) t.size_id t.hash_capacity
              t.capacity c1 d1) with
            | .fault f => .fault f
            | .ok t3 =>
              if reaches_load t3.current_size t3.capacity = true then rh t3 else .ok t3)
        else if reaches_load (t.current_size + 1) t.capacity = true then
          rh (Table.mk (t.current_size + 1) t.size_id t.hash_capacity t.capacity c1 d1)
        else .ok (Table.mk (t.current_size + 1) t.size_id t.hash_capacity t.capacity c1 d1) := by
  obtain ⟨r, hg⟩ := get_key_id_total h hf k
  have hr : r = t.capacity := by
    rcases get_key_id_sound h hg with ⟨_, e, h1, h2, h3⟩ | ⟨h1, _⟩
    · exact absurd ⟨r, e, h1, h2, h3, rfl⟩ (habs e.value)
    · exact h1
  subst hr
  obtain ⟨rank, hrb, hrl⟩ := h.link
  have hs := h.small
  obtain ⟨i, hw⟩ := insert_walk_total t rank hs.2.1 hrl fuel _ (h.home_lt k) (by
    have := hrb (hash k % t.hash_capacity)
    have := used_count_le t.data
    have := h.len
    omega)
  obtain ⟨hon, buf, hbuf, hterm⟩ := insert_walk_sound t _ _ _ hw
  obtain ⟨d1, upd, p, h1, hpl, hlk, hch, hup⟩ := write_entry_spec h hc v hon
    ⟨buf, hbuf, hterm⟩
  have hi2 := hpl.inv h habs hlk hch
  have hincr : incr t.current_size = t.current_size + 1 := incr_eq h.count_le.2
  rw [hincr] at h1 hi2
  have hsh := write_entry_eq (t := { t with current_size := t.current_size + 1 }) hbuf h1
  have hilt : i < t.data.length := (List.getElem?_eq_some.mp hbuf).1
  have hp1 : buf.is_used = false → p = i := by
    intro hu
    by_contra hne
    obtain ⟨b, hb1, hb2⟩ := hpl.old
    obtain ⟨e, he1, _, _, he2, _⟩ := hpl.new
    have hd : d1 = t.data.set i (Element.mk k v true false buf.last buf.next) := (hsh.1 hu).2
    rw [hd, List.getElem?_set_ne (fun a => hne a.symm), hb1] at he1
    cases he1
    rw [hb2] at he2
    cases he2
  have hp2 : buf.is_used = true → p = t.collision_bucket_id := fun hu =>
    hup.mp (hsh.2 hu).1
  have hbody : ∀ rh : Table K V → Outcome (Table K V), insert_with hash rh fuel t k v =
      (match (if upd = true then update_collision_bucket_id rh
            (Table.mk (t.current_size + 1) t.size_id t.hash_capacity t.capacity
              t.collision_bucket_id d1)
          else .ok (Table.mk (t.current_size + 1) t.size_id t.hash_capacity t.capacity
              t.collision_bucket_id d1)) with
        | .fault f => .fault f
        | .ok t3 => if reaches_load t3.current_size t3.capacity = true then rh t3 else .ok t3) := by
    intro rh
    unfold insert_with
    simp only [hg, ne_eq, not_true_eq_false, if_false, hw]
    rw [hincr]
    simp only [h1]
  cases hupd : upd with
  | false =>
    have hpc : p ≠ t.collision_bucket_id := by
      intro hp
      have := hup.mpr hp
      rw [hupd] at this
      cases this
    have hcur : Cursor (Table.mk (t.current_size + 1) t.size_id t.hash_capacity t.capacity
        t.collision_bucket_id d1) := by
      have h0 := hpl.cursor_keep hc hpc
      exact ⟨h0.pos, h0.lt, h0.free, h0.above⟩
    have hpos := hc.pos
    have hpos1 : ¬ t.collision_bucket_id = 0 := by omega
    refine ⟨i, p, t.collision_bucket_id, d1, buf, hw, hon, hbuf, hterm,
      fun hu => ⟨hp1 hu, (hsh.1 hu).2⟩, fun hu => ⟨hp2 hu, (hsh.2 hu).2⟩, hpl, hi2,
      Nat.le_refl _, fun _ => rfl, fun _ => hcur, fun h0 => by omega, ?_⟩
    intro rh
    rw [hbody rh, hupd]
    simp only [Bool.false_eq_true, if_false]
    rw [if_neg hpos1]
  | true =>
    have hp := hup.mp hupd
    subst hp
    have hlt : t.collision_bucket_id < d1.length := by
      rw [hpl.len]
      exact hc.lt
    have habove := hpl.cursor_above hc
    obtain ⟨c1, l1, l2, l3, l4⟩ := lower_cursor_spec d1 t.collision_bucket_id hlt
      (fun j e hj he => habove j e (by omega) he)
    have hlen1 : d1.length = t.capacity := hi2.len
    have hne : c1 ≠ SIZE_MAX := by
      unfold max_capacity at hs
      have := h.len
      unfold SIZE_MAX
      omega
    refine ⟨i, t.collision_bucket_id, c1, d1, buf, hw, hon, hbuf, hterm,
      fun hu => ⟨hp1 hu, (hsh.1 hu).2⟩, fun hu => ⟨rfl, (hsh.2 hu).2⟩, hpl,
      hi2.with_cursor c1, l2, fun a => absurd rfl a, ?_, ?_, ?_⟩
    · intro hc1
      exact { pos := Nat.pos_of_ne_zero hc1, lt := by show c1 < d1.length; omega,
              free := l4 hc1, above := l3 }
    · intro hc1
      subst hc1
      exact length_le_used_count d1 l3
    · intro rh
      rw [hbody rh, hupd]
      simp only [if_true]
      unfold update_collision_bucket_id
      simp only [l1]
      rw [if_neg hne]
      by_cases hc1 : c1 = 0
      · rw [if_pos hc1, if_pos hc1]
      · rw [if_neg hc1, if_neg hc1]

set_option maxRecDepth 100000 in
theorem small_sample_reachable : Reachable id small_sample :=
  Reachable.insert_list [(0, 0), (1, 10)]
    (Reachable.clear Reachable.empty
      (by decide : clear id 64 empty = .ok (clear id 64 (empty : Table Nat Nat)).table))
    (by decide : insert_list id 64 [(0, 0), (1, 10)] (clear id 64 empty).table =
      .ok small_sample)

set_option maxRecDepth 100000 in
/-- Counterexample to C14 as stated. The table `small_sample` is reachable, has
capacity 10, count 2 and cursor 9. The call `insert(2, 20)` writes the pair into
the never-written home slot 2, which leaves count 3 = 10 × 0.3 (the count does
not exceed the threshold) and the cursor at the never-written slot 9, and then
calls `rehash`: the table that `insert` returns is in tier 1 with capacity 22. -/
theorem load_trigger_at_equality :
    Reachable id small_sample ∧
    small_sample.capacity = 10 ∧ small_sample.current_size = 2 ∧
    small_sample.collision_bucket_id = 9 ∧
    small_sample.data[9]? = some (Element.mk 0 0 false true true SIZE_MAX) ∧
    ¬ (3 * 10 < 10 * (small_sample.current_size + 1)) ∧
    (∀ rh : Table Nat Nat → Outcome (Table Nat Nat),
      insert_with id rh 64 small_sample 2 20 =
        rh (Table.mk 3 0 5 10 9
          (small_sample.data.set 2 (Element.mk 2 20 true false true SIZE_MAX)))) ∧
    insert_no_rehash id 64 small_sample 2 20 = .fault .assertion ∧
    ∃ t1, insert id 64 small_sample 2 20 = .ok t1 ∧ t1.size_id = 1 ∧ t1.capacity = 22 ∧
      t1.current_size = 3 :=
  ⟨small_sample_reachable, by decide, by decide, by decide, by decide, by decide,
    fun _ => rfl, by decide, (insert id 64 small_sample 2 20).table, by decide, by decide,
    by decide, by decide⟩

/-- C14 (amended). On a reachable table, an `insert` of an absent key writes the
pair, increments the count and lowers the cursor, which gives a table `t2` of the
same tier; then `rehash` is called if and only if the cursor of `t2` was driven
down to index 0 or the count of `t2` is greater than or equal to
capacity × 0.3 (`3 * capacity ≤ 10 * count`). In terms of the code: when the
cursor is 0, `update_collision_bucket_id` calls `rehash` on `t2` and the load
check is made on the rehashed table (`load_step`); otherwise the load check calls `rehash` on
`t2` when the count reaches the threshold, and `t2` is returned when it does not. -/
theorem insert_rehash_trigger [DecidableEq K] [Inhabited K] [Inhabited V] {hash : K → Nat}
    {t : Table K V} (hr : Reachable hash t) {k : K} (v : V) {fuel0 : Nat}
    (habs : find_result hash fuel0 t k = .ok none) {fuel : Nat} (hf : enough_fuel ≤ fuel) :
    ∃ t2 : Table K V, t2.current_size = t.current_size + 1 ∧ t2.size_id = t.size_id ∧
      t2.hash_capacity = t.hash_capacity ∧ t2.capacity = t.capacity ∧
      t2.collision_bucket_id ≤ t.collision_bucket_id ∧ Has t2 k v ∧
      (∀ rh : Table K V → Outcome (Table K V), insert_with hash rh fuel t k v =
        if t2.collision_bucket_id = 0 then
          (rh t2).and_then (load_step rh)
        else if 3 * t2.capacity ≤ 10 * t2.current_size then rh t2 else .ok t2) ∧
      insert hash fuel t k v =
        (if t2.collision_bucket_id = 0 ∨ 3 * t2.capacity ≤ 10 * t2.current_size then
          rehash hash (fuel - 1) t2
        else .ok t2) := by
  have hg := hr.good
  have h := hg.inv
  have hnone : ∀ w, ¬ Has t k w :=
    (lookup_eq_none t k).mp (find_result_sound h habs).symm
  obtain ⟨i, p, c1, d1, buf, _, _, _, _, _, _, hpl, hi2, hle, _, _, _, hsh⟩ :=
    insert_with_shape h hg.cursor v hnone (hg.fuel hf)
  have hload : (reaches_load (t.current_size + 1) t.capacity = true) ↔
      3 * t.capacity ≤ 10 * (t.current_size + 1) := by
    rw [h.reaches_load]
    simp
  have hhas : Has (Table.mk (t.current_size + 1) t.size_id t.hash_capacity t.capacity c1 d1)
      k v := by
    obtain ⟨e, he, a1, a2, _, a3⟩ := hpl.new
    exact ⟨p, e, he, a3, a1, a2⟩
  refine ⟨Table.mk (t.current_size + 1) t.size_id t.hash_capacity t.capacity c1 d1,
    rfl, rfl, rfl, rfl, hle, hhas, ?_, ?_⟩
  · intro rh
    rw [hsh rh]
    by_cases hc1 : c1 = 0
    · rw [if_pos hc1, if_pos hc1]
      cases rh (Table.mk (t.current_size + 1) t.size_id t.hash_capacity t.capacity c1 d1) <;>
        rfl
    · rw [if_neg hc1, if_neg hc1]
      by_cases hl : 3 * t.capacity ≤ 10 * (t.current_size + 1)
      · rw [if_pos (hload.mpr hl), if_pos hl]
      · rw [if_neg (fun a => hl (hload.mp a)), if_neg hl]
  · cases fuel with
    | zero =>
      unfold enough_fuel at hf
      omega
    | succ f =>
      rw [insert, hsh (rehash_with (insert hash f))]
      have hfe : f + 1 - 1 = f := by omega
      rw [hfe]
      unfold rehash
      by_cases hc1 : c1 = 0
      · rw [if_pos hc1, if_pos (Or.inl hc1)]
        cases hrh : rehash_with (insert hash f)
            (Table.mk (t.current_size + 1) t.size_id t.hash_capacity t.capacity c1 d1) with
        | fault e => rfl
        | ok t3 =>
          have hl3 : reaches_load t3.current_size t3.capacity = false :=
            (rehash_with_spec (insert_spec hash f) _ t3 hi2.uniq hrh).2.2.1
          simp only [hl3, Bool.false_eq_true, if_false]
      · rw [if_neg hc1]
        by_cases hl : 3 * t.capacity ≤ 10 * (t.current_size + 1)
        · rw [if_pos (hload.mpr hl), if_pos (Or.inr hl)]
        · rw [if_neg (fun a => hl (hload.mp a)), if_neg (fun a => a.elim hc1 hl)]

set_option maxRecDepth 100000 in
/-- Witness of C14 (amended): key 34 is absent from `sample`. -/
theorem insert_rehash_trigger_witness :
    find_result id 64 sample 34 = .ok none ∧
    ∃ t2 : Table Nat Nat, t2.current_size = sample.current_size + 1 ∧
      t2.size_id = sample.size_id ∧
      t2.hash_capacity = sample.hash_capacity ∧ t2.capacity = sample.capacity ∧
      t2.collision_bucket_id ≤ sample.collision_bucket_id ∧ Has t2 34 340 ∧
      (∀ rh : Table Nat Nat → Outcome (Table Nat Nat),
        insert_with id rh enough_fuel sample 34 340 =
        if t2.collision_bucket_id = 0 then
          (rh t2).and_then (load_step rh)
        else if 3 * t2.capacity ≤ 10 * t2.current_size then rh t2 else .ok t2) ∧
      insert id enough_fuel sample 34 340 =
        (if t2.collision_bucket_id = 0 ∨ 3 * t2.capacity ≤ 10 * t2.current_size then
          rehash id (enough_fuel - 1) t2
        else .ok t2) :=
  ⟨by decide, insert_rehash_trigger sample_reachable 340
    (by decide : find_result id 64 sample 34 = .ok none) (Nat.le_refl enough_fuel)⟩

end claims14

end HashMap

namespace HashMap

section claims13

variable {K V : Type}

set_option maxRecDepth 100000 in
theorem churned_reachable : Reachable id churned :=
  Reachable.run (churn_ops 12) Reachable.empty
    (by decide : run id 64 (churn_ops 12) empty = .ok churned)

set_option maxRecDepth 100000 in
/-- Counterexample to C13 as stated. The table `churned` is reachable: it is the
default-constructed table (primary size 11, capacity 22) after twelve rounds of
`insert(0, 0); erase(0)`, which leave tombstones in slot 0 and in the cellar
slots 21 to 11, and the cursor at slot 10, inside the primary region. The next
`insert(0, 0)` walks the chain of home bucket 0 to its terminal slot 11, which
was written before, extends the chain and allocates slot 10 without a rehash:
the home bucket slot 10 becomes a chain-link target. -/
theorem cursor_enters_primary_region :
    Reachable id churned ∧
    churned.size_id = 1 ∧ churned.hash_capacity = 11 ∧ churned.capacity = 22 ∧
    churned.collision_bucket_id = 10 ∧
    insert_walk churned 64 (id 0 % churned.hash_capacity) = .ok 11 ∧
    churned.data[11]? = some (Element.mk 0 0 true true true SIZE_MAX) ∧
    ∃ t1, insert id 64 churned 0 0 = .ok t1 ∧ insert_no_rehash id 64 churned 0 0 = .ok t1 ∧
      t1.size_id = 1 ∧ t1.hash_capacity = 11 ∧
      t1.data[11]? = some (Element.mk 0 0 true true false 10) ∧
      t1.data[10]? = some (Element.mk 0 0 true false true SIZE_MAX) ∧
      10 < t1.hash_capacity :=
  ⟨churned_reachable, by decide, by decide, by decide, by decide, by decide, by decide,
    (insert id 64 churned 0 0).table, by decide, by decide, by decide, by decide, by decide,
    by decide, by decide⟩

/-- C13 (amended). On a reachable table, an `insert` of an absent key whose chain
walk stops at slot `i` gives, before any rehash, a table `t2` of the same tier
whose cursor is at most the cursor before: within a tier the cursor only
decreases. A rehash is forced when the cursor reaches index 0 (not when it
reaches the boundary of the primary region): then `rehash` is called on `t2`
before anything else; otherwise the cursor of `t2` is again a never-written slot
other than slot 0, and an `insert` that returns without a rehash returns `t2`.
When the insert extends a chain (slot `i` was written before), the newly
allocated slot is the slot at the cursor, a never-written slot whose index is
positive and below the capacity, and the cursor strictly decreases; the index
can be below the primary size. -/
theorem cursor_descends [DecidableEq K] [Inhabited K] [Inhabited V] {hash : K → Nat}
    {t : Table K V} (hr : Reachable hash t) {k : K} (v : V) {fuel0 : Nat}
    (habs : find_result hash fuel0 t k = .ok none) {fuel : Nat} (hf : enough_fuel ≤ fuel) :
    ∃ (i : Nat) (buf : Element K V) (t2 : Table K V),
      insert_walk t fuel (hash k % t.hash_capacity) = .ok i ∧ t.data[i]? = some buf ∧
      t2.size_id = t.size_id ∧ t2.hash_capacity = t.hash_capacity ∧
      t2.capacity = t.capacity ∧ t2.collision_bucket_id ≤ t.collision_bucket_id ∧
      (t2.collision_bucket_id = 0 → ∀ rh : Table K V → Outcome (Table K V),
        insert_with hash rh fuel t k v = (rh t2).and_then (load_step rh)) ∧
      (t2.collision_bucket_id ≠ 0 → Cursor t2 ∧ ∀ rh : Table K V → Outcome (Table K V),
        insert_with hash rh fuel t k v = load_step rh t2) ∧
      (∀ t1, insert_no_rehash hash fuel t k v = .ok t1 →
        t1 = t2 ∧ 0 < t1.collision_bucket_id) ∧
      (buf.is_used = true →
        0 < t.collision_bucket_id ∧ t.collision_bucket_id < t.capacity ∧
        (∃ e0 : Element K V, t.data[t.collision_bucket_id]? = some e0 ∧
          e0.is_used = false) ∧
        t2.data = (t.data.set i (Element.mk buf.key buf.value buf.is_used buf.is_empty false
          t.collision_bucket_id)).set t.collision_bucket_id
          (Element.mk k v true false true SIZE_MAX) ∧
        t2.collision_bucket_id < t.collision_bucket_id) := by
  have hg := hr.good
  have h := hg.inv
  have hc := hg.cursor
  have hnone : ∀ w, ¬ Has t k w :=
    (lookup_eq_none t k).mp (find_result_sound h habs).symm
  obtain ⟨i, p, c1, d1, buf, hw, _, hbuf, _, _, hused, hpl, hi2, hle, _, hcur, _, hsh⟩ :=
    insert_with_shape h hc v hnone (hg.fuel hf)
  have hsh0 : c1 = 0 → ∀ rh : Table K V → Outcome (Table K V),
      insert_with hash rh fuel t k v =
        (rh (Table.mk (t.current_size + 1) t.size_id t.hash_capacity t.capacity c1
          d1)).and_then (load_step rh) := by
    intro hc1 rh
    rw [hsh rh, if_pos hc1]
    cases rh (Table.mk (t.current_size + 1) t.size_id t.hash_capacity t.capacity c1 d1) <;>
      rfl
  have hsh1 : c1 ≠ 0 → ∀ rh : Table K V → Outcome (Table K V),
      insert_with hash rh fuel t k v =
        load_step rh (Table.mk (t.current_size + 1) t.size_id t.hash_capacity t.capacity c1
          d1) := by
    intro hc1 rh
    rw [hsh rh, if_neg hc1]
    rfl
  refine ⟨i, buf, Table.mk (t.current_size + 1) t.size_id t.hash_capacity t.capacity c1 d1,
    hw, hbuf, rfl, rfl, rfl, hle, hsh0, fun hc1 => ⟨hcur hc1, hsh1 hc1⟩, ?_, ?_⟩
  · intro t1 h1
    unfold insert_no_rehash at h1
    by_cases hc1 : c1 = 0
    · rw [hsh0 hc1] at h1
      cases h1
    · rw [hsh1 hc1] at h1
      unfold load_step at h1
      split at h1
      · cases h1
      · cases h1
        exact ⟨rfl, Nat.pos_of_ne_zero hc1⟩
  · intro hu
    obtain ⟨hp, hd⟩ := hused hu
    have hlt := hc.lt
    rw [h.len] at hlt
    have hclt := hc.lt
    refine ⟨hc.pos, hlt, ⟨_, List.getElem?_eq_getElem hclt,
      hc.free _ (List.getElem?_eq_getElem hclt)⟩, hd, ?_⟩
    show c1 < t.collision_bucket_id
    have hpos := hc.pos
    by_cases hc1 : c1 = 0
    · omega
    · have hne : c1 ≠ t.collision_bucket_id := by
        intro heq
        obtain ⟨e, he, _, _, he2, _⟩ := hpl.new
        rw [hp, ← heq] at he
        have := (hcur hc1).free e he
        rw [he2] at this
        cases this
      omega

set_option maxRecDepth 100000 in
/-- Witness of C13 (amended): key 0 is absent from `churned`. -/
theorem cursor_descends_witness :
    find_result id 64 churned 0 = .ok none ∧
    ∃ (i : Nat) (buf : Element Nat Nat) (t2 : Table Nat Nat),
      insert_walk churned enough_fuel (id 0 % churned.hash_capacity) = .ok i ∧
      churned.data[i]? = some buf ∧
      t2.size_id = churned.size_id ∧ t2.hash_capacity = churned.hash_capacity ∧
      t2.capacity = churned.capacity ∧
      t2.collision_bucket_id ≤ churned.collision_bucket_id ∧
      (t2.collision_bucket_id = 0 → ∀ rh : Table Nat Nat → Outcome (Table Nat Nat),
        insert_with id rh enough_fuel churned 0 7 = (rh t2).and_then (load_step rh)) ∧
      (t2.collision_bucket_id ≠ 0 → Cursor t2 ∧
        ∀ rh : Table Nat Nat → Outcome (Table Nat Nat),
          insert_with id rh enough_fuel churned 0 7 = load_step rh t2) ∧
      (∀ t1, insert_no_rehash id enough_fuel churned 0 7 = .ok t1 →
        t1 = t2 ∧ 0 < t1.collision_bucket_id) ∧
      (buf.is_used = true →
        0 < churned.collision_bucket_id ∧ churned.collision_bucket_id < churned.capacity ∧
        (∃ e0 : Element Nat Nat, churned.data[churned.collision_bucket_id]? = some e0 ∧
          e0.is_used = false) ∧
        t2.data = (churned.data.set i (Element.mk buf.key buf.value buf.is_used
          buf.is_empty false churned.collision_bucket_id)).set churned.collision_bucket_id
          (Element.mk 0 7 true false true SIZE_MAX) ∧
        t2.collision_bucket_id < churned.collision_bucket_id) :=
  ⟨by decide, cursor_descends churned_reachable 7
    (by decide : find_result id 64 churned 0 = .ok none) (Nat.le_refl enough_fuel)⟩

end claims13

end HashMap

namespace HashMap

section claims18

variable {K V : Type}

theorem chain_slots_succ (d : List (Element K V)) (f i : Nat) :
    chain_slots d (f + 1) i =
      match d[i]? with
      | none => []
      | some e => if e.last = false then i :: chain_slots d f e.next else [i] := rfl

/-- The chain walked from a slot depends on the flags `last` and the links only. -/
theorem chain_slots_congr {d d2 : List (Element K V)} (hlen : d2.length = d.length)
    (hsame : ∀ (j : Nat) (e : Element K V), d[j]? = some e →
      ∃ e1 : Element K V, d2[j]? = some e1 ∧ e1.last = e.last ∧ e1.next = e.next) :
    ∀ f j, chain_slots d2 f j = chain_slots d f j := by
  intro f
  induction f with
  | zero =>
    intro j
    rfl
  | succ f ih =>
    intro j
    rw [chain_slots_succ, chain_slots_succ]
    cases hj : d[j]? with
    | none =>
      have h2 : d2[j]? = none := by
        rw [List.getElem?_eq_none_iff] at hj ⊢
        omega
      simp only [h2]
    | some e =>
      obtain ⟨e1, h1, h2, h3⟩ := hsame j e hj
      simp only [h1, h2, h3, ih]

/-- More fuel than the rank of the start slot does not change the chain walked. -/
theorem chain_slots_stable {d : List (Element K V)} {rank : Nat → Nat}
    (hl : ∀ (i : Nat) (e : Element K V), d[i]? = some e → e.last = false →
      e.next < d.length ∧ rank e.next < rank i) :
    ∀ f j, rank j < f → chain_slots d (f + 1) j = chain_slots d f j := by
  intro f
  induction f with
  | zero =>
    intro j hj
    omega
  | succ f ih =>
    intro j hj
    rw [chain_slots_succ d (f + 1) j, chain_slots_succ d f j]
    cases hd : d[j]? with
    | none => rfl
    | some e =>
      by_cases hlast : e.last = false
      · have := (hl j e hd hlast).2
        simp only [hlast, if_true]
        rw [ih e.next (by omega)]
      · dsimp only
        rw [if_neg hlast, if_neg hlast]

/-- Extending a chain: the terminal slot `i` gets the link to slot `c`, which
becomes the terminal slot; the chain walked from a slot that leads to `i` gets
`c` appended. -/
theorem chain_slots_extend {d : List (Element K V)} {rank : Nat → Nat}
    (hl : ∀ (i : Nat) (e : Element K V), d[i]? = some e → e.last = false →
      e.next < d.length ∧ rank e.next < rank i)
    {i c : Nat} {b : Element K V} (b1 e1 : Element K V) (hb : d[i]? = some b)
    (hbl : b.last = true)
    (hclt : c < d.length) (hb1 : b1.last = false) (hb1n : b1.next = c)
    (he1 : e1.last = true) :
    ∀ f j, rank j < f → OnChain d j i → (∀ x, OnChain d j x → x ≠ c) →
      chain_slots ((d.set i b1).set c e1) (f + 1) j = chain_slots d f j ++ [c] := by
  have hilt : i < d.length := (List.getElem?_eq_some.mp hb).1
  have hc1 : ((d.set i b1).set c e1)[c]? = some e1 :=
    List.getElem?_set_self (by simpa using hclt)
  intro f
  induction f with
  | zero =>
    intro j hj
    omega
  | succ f ih =>
    intro j hj hon hav
    have hjc : c ≠ j := fun a => hav j (OnChain.here j) a.symm
    rw [chain_slots_succ _ (f + 1) j, chain_slots_succ d f j]
    by_cases hji : j = i
    · subst hji
      have h1 : ((d.set j b1).set c e1)[j]? = some b1 := by
        rw [List.getElem?_set_ne hjc]
        exact List.getElem?_set_self hilt
      simp only [h1, hb, hb1, hbl, if_true, Bool.true_eq_false, if_false]
      rw [hb1n, chain_slots_succ]
      simp only [hc1, he1, Bool.true_eq_false, if_false]
      rfl
    · rcases hon.cases_head with h0 | ⟨e, he, hlast, hrest⟩
      · exact absurd h0.symm hji
      · have h1 : ((d.set i b1).set c e1)[j]? = some e := by
          rw [List.getElem?_set_ne hjc, List.getElem?_set_ne (fun a => hji a.symm)]
          exact he
        have hrk := (hl j e he hlast).2
        simp only [h1, he, hlast, if_true]
        rw [ih e.next (by omega) hrest (fun x hx => hav x (OnChain.step he hlast hx))]
        rfl

/-- Every slot of a chain that leads to a written slot was written. -/
theorem chain_written {hash : K → Nat} {t : Table K V} (h : Inv hash t) {s i : Nat}
    (hon : OnChain t.data s i) {b : Element K V} (hb : t.data[i]? = some b)
    (hu : b.is_used = true) {x : Nat} (hx : OnChain t.data s x) :
    ∃ e : Element K V, t.data[x]? = some e ∧ e.is_used = true := by
  have hs : ∃ e : Element K V, t.data[s]? = some e ∧ e.is_used = true := by
    rcases hon.cases_head with h0 | ⟨e, he, hlast, _⟩
    · subst h0
      exact ⟨b, hb, hu⟩
    · refine ⟨e, he, ?_⟩
      cases hue : e.is_used with
      | true => rfl
      | false =>
        have := (h.unused s e he hue).2
        rw [hlast] at this
        cases this
  clear hon
  induction hx with
  | here => exact hs
  | step h1 h2 _ ih => exact ih (h.target _ _ h1 h2)

/-- A slot reached from another slot is the `next` of a slot that is not terminal. -/
theorem OnChain.cases_last {d : List (Element K V)} {i j : Nat} (h : OnChain d i j) :
    j = i ∨
      ∃ (x : Nat) (e : Element K V), d[x]? = some e ∧ e.last = false ∧ e.next = j := by
  induction h with
  | here => exact Or.inl rfl
  | step h1 h2 _ ih =>
    rcases ih with h0 | h3
    · exact Or.inr ⟨_, _, h1, h2, h0.symm⟩
    · exact Or.inr h3

/-- A call of `insert` for an absent key that returns with a `rehash` that stops
the run: the pair was written into the never-written slot `p`, and the call
returns the same table with every `rehash`. -/
theorem insert_no_rehash_shape [DecidableEq K] {hash : K → Nat} {t t1 : Table K V}
    (h : Inv hash t) (hc : Cursor t) {k : K} {v : V} (habs : ∀ w, ¬ Has t k w) {fuel : Nat}
    (hf : t.capacity < fuel) (h1 : insert_no_rehash hash fuel t k v = .ok t1) :
    ∃ (i p : Nat) (buf : Element K V),
      OnChain t.data (hash k % t.hash_capacity) i ∧
      t.data[i]? = some buf ∧ (buf.is_used = false ∨ buf.last = true) ∧
      (buf.is_used = true → p = t.collision_bucket_id ∧
        t1.data = (t.data.set i (Element.mk buf.key buf.value buf.is_used buf.is_empty false
          t.collision_bucket_id)).set t.collision_bucket_id
          (Element.mk k v true false true SIZE_MAX)) ∧
      Placed t.data t1.data p k v ∧
      t1.current_size = t.current_size + 1 ∧ t1.hash_capacity = t.hash_capacity ∧
      ∀ rh : Table K V → Outcome (Table K V), insert_with hash rh fuel t k v = .ok t1 := by
  obtain ⟨i, p, c1, d1, buf, _, hon, hbuf, hterm, _, hused, hpl, _, _, _, _, _, hsh⟩ :=
    insert_with_shape h hc v habs hf
  unfold insert_no_rehash at h1
  rw [hsh] at h1
  by_cases hc1 : c1 = 0
  · rw [if_pos hc1] at h1
    cases h1
  · rw [if_neg hc1] at h1
    by_cases hl : reaches_load (t.current_size + 1) t.capacity = true
    · rw [if_pos hl] at h1
      cases h1
    · rw [if_neg hl] at h1
      cases h1
      refine ⟨i, p, buf, hon, hbuf, hterm, hused, hpl, rfl, rfl, fun rh => ?_⟩
      rw [hsh rh, if_neg hc1, if_neg hl]

/-- C18. Tombstoned slots are not reused. On a reachable table: (a) an `insert` of
an absent key that returns without a call of `rehash` writes the pair into a slot
that was never written, and the number of written slots grows by exactly one;
(b) `erase` keeps the number of written slots; (c) after `insert(k)`, `erase(k)`
and a second `insert(k)` that returns without a call of `rehash`, the key is in
slot `p2`, another slot than the slot `p1` that held it after the first insert
(slot `p1` stays a tombstone), the chain walked from the home bucket of `k` is
the chain walked after the first insert with slot `p2` appended, and the count
is the count after the first insert. -/
theorem tombstones_not_reused [DecidableEq K] [Inhabited K] [Inhabited V] {hash : K → Nat}
    {t : Table K V} (hr : Reachable hash t) {fuel : Nat} (hf : enough_fuel ≤ fuel) :
    (∀ (k : K) (v : V) (t1 : Table K V), find_result hash fuel t k = .ok none →
      insert_no_rehash hash fuel t k v = .ok t1 →
      insert hash fuel t k v = .ok t1 ∧
      ∃ (p : Nat) (e0 : Element K V), t.data[p]? = some e0 ∧ e0.is_used = false ∧
        (∃ e1 : Element K V, t1.data[p]? = some e1 ∧ e1.key = k ∧ e1.value = v ∧
          e1.is_used = true ∧ e1.is_empty = false) ∧
        used_count t1.data = used_count t.data + 1) ∧
    (∀ (k : K) (t1 : Table K V), erase hash fuel t k = .ok t1 →
      used_count t1.data = used_count t.data) ∧
    (∀ (k : K) (v v2 : V) (t1 t2 t3 : Table K V), insert hash fuel t k v = .ok t1 →
      erase hash fuel t1 k = .ok t2 → insert_no_rehash hash fuel t2 k v2 = .ok t3 →
      insert hash fuel t2 k v2 = .ok t3 ∧
      ∃ (p1 p2 : Nat) (e1 : Element K V), t1.data[p1]? = some e1 ∧ e1.key = k ∧
        e1.is_empty = false ∧
        t3.data[p2]? = some (Element.mk k v2 true false true SIZE_MAX) ∧ p2 ≠ p1 ∧
        (∃ e3 : Element K V, t3.data[p1]? = some e3 ∧ e3.is_used = true ∧
          e3.is_empty = true) ∧
        chain_slots t3.data fuel (hash k % t3.hash_capacity) =
          chain_slots t1.data fuel (hash k % t1.hash_capacity) ++ [p2] ∧
        t3.current_size = t1.current_size) := by
  have hg := hr.good
  have hfuel : ∃ f, fuel = f + 1 ∧ max_capacity < f := by
    unfold enough_fuel at hf
    exact ⟨fuel - 1, by omega, by omega⟩
  obtain ⟨f, rfl, hfm⟩ := hfuel
  refine ⟨?_, ?_, ?_⟩
  · intro k v t1 habs h1
    have hnone : ∀ w, ¬ Has t k w :=
      (lookup_eq_none t k).mp (find_result_sound hg.inv habs).symm
    obtain ⟨i, p, buf, _, _, _, _, hpl, _, _, hall⟩ :=
      insert_no_rehash_shape hg.inv hg.cursor hnone (hg.fuel hf) h1
    refine ⟨?_, ?_⟩
    · rw [insert]
      exact hall _
    · obtain ⟨e0, a1, a2⟩ := hpl.old
      exact ⟨p, e0, a1, a2, hpl.new, hpl.used_count⟩
  · intro k t1 he
    rcases erase_shape hg.inv he with ⟨_, rfl⟩ | ⟨id, e, a1, a2, a3, rfl⟩
    · rfl
    · have hilt : id < t.data.length := (List.getElem?_eq_some.mp a1).1
      unfold used_count
      apply countP_eq_of_pointwise _ t.data _ (by simp)
      intro j b b1 hb hb1
      by_cases hj : id = j
      · subst hj
        have hb2 : (t.data.set id { e with is_empty := true })[id]? = some b1 := hb1
        rw [List.getElem?_set_self hilt] at hb2
        rw [a1] at hb
        cases hb
        cases hb2
        rfl
      · have hb2 : (t.data.set id { e with is_empty := true })[j]? = some b1 := hb1
        rw [List.getElem?_set_ne hj, hb] at hb2
        cases hb2
        rfl
  · intro k v v2 t1 t2 t3 h1 he h3
    have hr1 : Reachable hash t1 := Reachable.insert hr h1
    have hg1 := hr1.good
    have hr2 : Reachable hash t2 := Reachable.erase hr1 he
    have hg2 := hr2.good
    have hpres : ∃ w, Has t1 k w := by
      by_cases hex : ∃ w, Has t k w
      · obtain ⟨w, hw⟩ := hex
        exact ⟨w, ((insert_good hg h1).2 k w).mpr (Or.inl hw)⟩
      · exact ⟨v, ((insert_good hg h1).2 k v).mpr
          (Or.inr ⟨fun w hw => hex ⟨w, hw⟩, rfl, rfl⟩)⟩
    obtain ⟨w, hw⟩ := hpres
    have hnone2 : ∀ w, ¬ Has t2 k w := fun w hw2 =>
      (((erase_spec hg1 he).2 k w).mp hw2).2 rfl
    obtain ⟨i, p, buf, hon, hbuf, hterm, hused, hpl, hcount, hhc, hall⟩ :=
      insert_no_rehash_shape hg2.inv hg2.cursor hnone2 (hg2.fuel hf) h3
    rcases erase_shape hg1.inv he with ⟨habs, _⟩ | ⟨id, e, a1, a2, a3, ht2⟩
    · exact absurd hw (habs w)
    · have hilt : id < t1.data.length := (List.getElem?_eq_some.mp a1).1
      have hd2 : t2.data = t1.data.set id (Element.mk e.key e.value e.is_used true e.last
          e.next) := by
        rw [ht2]
      have hh2 : t2.hash_capacity = t1.hash_capacity := by
        rw [ht2]
      have hcur2 : t2.collision_bucket_id = t1.collision_bucket_id := by
        rw [ht2]
      have hcnt2 : t2.current_size + 1 = t1.current_size := by
        rw [ht2]
        exact (tombstone_good hg1 a1 a2).2.1
      have heu : e.is_used = true := by
        cases hue : e.is_used with
        | true => rfl
        | false =>
          have := (hg1.inv.unused id e a1 hue).1
          rw [a2] at this
          cases this
      have htomb : t2.data[id]? = some (Element.mk e.key e.value e.is_used true e.last
          e.next) := by
        rw [hd2]
        exact List.getElem?_set_self hilt
      have hsame : ∀ (j : Nat) (b : Element K V), t1.data[j]? = some b →
          ∃ b1 : Element K V, t2.data[j]? = some b1 ∧ b1.last = b.last ∧
            b1.next = b.next := by
        intro j b hb
        by_cases hj : id = j
        · subst hj
          rw [a1] at hb
          cases hb
          exact ⟨_, htomb, rfl, rfl⟩
        · refine ⟨b, ?_, rfl, rfl⟩
          rw [hd2, List.getElem?_set_ne hj]
          exact hb
      have hlen2 : t2.data.length = t1.data.length := by
        rw [hd2]
        simp
      -- the tombstone is on the chain of the home bucket
      have hon1 : OnChain t1.data (hash k % t1.hash_capacity) id := by
        have := hg1.inv.home id e a1 a2
        rw [a3] at this
        exact this
      have hon2 : OnChain t2.data (hash k % t2.hash_capacity) id := by
        rw [hh2]
        exact OnChain.transfer (fun j b hb hl => by
          obtain ⟨b1, c1, c2, c3⟩ := hsame j b hb
          exact ⟨b1, c1, c2.trans hl, c3⟩) hon1
      -- the walk of the second insert stops at a slot that was written
      have hu : buf.is_used = true := by
        cases hbu : buf.is_used with
        | true => rfl
        | false =>
          exfalso
          have hlast := (hg2.inv.unused i buf hbuf hbu).2
          rcases hon.cases_last with h0 | ⟨x, b, hb, hbl, hbn⟩
          · subst h0
            rcases hon2.cases_head with h4 | ⟨b, hb, hbl, _⟩
            · subst h4
              rw [htomb] at hbuf
              cases hbuf
              rw [heu] at hbu
              cases hbu
            · rw [hbuf] at hb
              cases hb
              rw [hlast] at hbl
              cases hbl
          · obtain ⟨b2, hb2, hb3⟩ := hg2.inv.target x b hb hbl
            rw [hbn, hbuf] at hb2
            cases hb2
            rw [hbu] at hb3
            cases hb3
      obtain ⟨hp, hd3⟩ := hused hu
      have hclt := hg2.cursor.lt
      have hfree : ∀ b : Element K V, t2.data[t2.collision_bucket_id]? = some b →
          b.is_used = false := hg2.cursor.free
      have hpid : t2.collision_bucket_id ≠ id := by
        intro heq
        have := hfree _ (heq ▸ htomb)
        rw [heu] at this
        cases this
      refine ⟨?_, id, t2.collision_bucket_id, e, a1, a3, a2, ?_, hpid, ?_, ?_, by omega⟩
      · rw [insert]
        exact hall _
      · rw [hd3]
        exact List.getElem?_set_self (by simpa using hclt)
      · obtain ⟨b1, c1, _, _, c4, c5, _⟩ := hpl.other id _ (hp ▸ hpid.symm) htomb
        exact ⟨b1, c1, c4.trans heu, c5⟩
      · obtain ⟨rank, hrb, hrl⟩ := hg2.inv.link
        have hs := hg2.inv.small
        have hrk : rank (hash k % t2.hash_capacity) < f := by
          have := hrb (hash k % t2.hash_capacity)
          have := used_count_le t2.data
          omega
        have hbl : buf.last = true := by
          rcases hterm with h0 | h0
          · rw [hu] at h0
            cases h0
          · exact h0
        have hav : ∀ x, OnChain t2.data (hash k % t2.hash_capacity) x →
            x ≠ t2.collision_bucket_id := by
          intro x hx heq
          obtain ⟨b, hb, hbu⟩ := chain_written hg2.inv hon hbuf hu hx
          have := hfree b (heq ▸ hb)
          rw [hbu] at this
          cases this
        have hext := chain_slots_extend hrl
          (Element.mk buf.key buf.value buf.is_used buf.is_empty false
            t2.collision_bucket_id)
          (Element.mk k v2 true false true SIZE_MAX) hbuf hbl hclt rfl rfl rfl f _ hrk hon
          hav
        rw [hd3, hhc, hext, ← chain_slots_stable hrl f _ hrk,
          chain_slots_congr hlen2 hsame, hh2]

set_option maxRecDepth 100000 in
/-- Witness of C18: on the default-constructed table, `insert(1, 10); erase(1);
insert(1, 11)` puts key 1 into slot 1 and then into the cellar slot 21; the
chain of home bucket 1 grows from slot 1 to the slots 1, 21. -/
theorem tombstones_not_reused_witness :
    (chain_slots (insert id 64 (empty : Table Nat Nat) 1 10).table.data 64 1 = [1] ∧
      chain_slots
          (run id 64 [.ins 1 10, .del 1, .ins 1 11] (empty : Table Nat Nat)).table.data 64 1 =
        [1, 21] ∧
      insert_no_rehash id 64 (run id 64 [.ins 1 10, .del 1] (empty : Table Nat Nat)).table 1 11 =
        run id 64 [.ins 1 10, .del 1, .ins 1 11] (empty : Table Nat Nat)) ∧
    ((∀ (k : Nat) (v : Nat) (t1 : Table Nat Nat),
        find_result id enough_fuel (empty : Table Nat Nat) k = .ok none →
        insert_no_rehash id enough_fuel (empty : Table Nat Nat) k v = .ok t1 →
        insert id enough_fuel (empty : Table Nat Nat) k v = .ok t1 ∧
        ∃ (p : Nat) (e0 : Element Nat Nat), (empty : Table Nat Nat).data[p]? = some e0 ∧
          e0.is_used = false ∧
          (∃ e1 : Element Nat Nat, t1.data[p]? = some e1 ∧ e1.key = k ∧ e1.value = v ∧
            e1.is_used = true ∧ e1.is_empty = false) ∧
          used_count t1.data = used_count (empty : Table Nat Nat).data + 1) ∧
      (∀ (k : Nat) (t1 : Table Nat Nat),
        erase id enough_fuel (empty : Table Nat Nat) k = .ok t1 →
        used_count t1.data = used_count (empty : Table Nat Nat).data) ∧
      (∀ (k : Nat) (v v2 : Nat) (t1 t2 t3 : Table Nat Nat),
        insert id enough_fuel (empty : Table Nat Nat) k v = .ok t1 →
        erase id enough_fuel t1 k = .ok t2 →
        insert_no_rehash id enough_fuel t2 k v2 = .ok t3 →
        insert id enough_fuel t2 k v2 = .ok t3 ∧
        ∃ (p1 p2 : Nat) (e1 : Element Nat Nat), t1.data[p1]? = some e1 ∧ e1.key = k ∧
          e1.is_empty = false ∧
          t3.data[p2]? = some (Element.mk k v2 true false true SIZE_MAX) ∧ p2 ≠ p1 ∧
          (∃ e3 : Element Nat Nat, t3.data[p1]? = some e3 ∧ e3.is_used = true ∧
            e3.is_empty = true) ∧
          chain_slots t3.data enough_fuel (id k % t3.hash_capacity) =
            chain_slots t1.data enough_fuel (id k % t1.hash_capacity) ++ [p2] ∧
          t3.current_size = t1.current_size)) :=
  ⟨by decide, tombstones_not_reused Reachable.empty (Nat.le_refl enough_fuel)⟩

end claims18

end HashMap

namespace HashMap

section claims12

variable {K V : Type} [DecidableEq K] [Inhabited K] [Inhabited V]

omit [DecidableEq K] [Inhabited K] [Inhabited V] in
/-- The growth decision in integers, for a primary size of the schedule. -/
theorem next_tier_eq {h : Nat} (hm : h ∈ sizes) (size_id count : Nat) :
    next_tier size_id h count = (if 3 * h < 10 * count then size_id + 1 else size_id) := by
  unfold next_tier
  rw [exceeds_load_of_check (load_check_sizes hm).1]
  simp only [decide_eq_true_eq]

omit [DecidableEq K] in
/-- The table into which `rehash` reinserts the entries. -/
theorem blank_eq {h1 : Nat} (hm : h1 ∈ sizes) (i : Nat) :
    (blank i h1 : Table K V) = Table.mk 0 i h1 (2 * h1) (2 * h1 - 1) (init (2 * h1)) := by
  have hb := sizes_bounds hm
  unfold blank
  have hd : decr (cellar_capacity h1) = 2 * h1 - 1 := by
    rw [cellar_capacity_eq]
    apply decr_eq
    · unfold max_capacity
      omega
    · omega
  rw [hd, cellar_capacity_eq]

/-- The tier of the table that `rehash` returns, when the table satisfies the
structural invariant (with any cursor) and its count is at most one insertion
above the load threshold. -/
theorem rehash_tier (hash : K → Nat) {fuel : Nat} (hf : max_capacity < fuel)
    {t : Table K V} (h : Inv hash t) (hlt : 10 * t.current_size < 3 * t.capacity + 10) :
    (∃ h1 t1, sizes[next_tier t.size_id t.hash_capacity t.current_size]? = some h1 ∧
        rehash hash fuel t = .ok t1 ∧
        t1.size_id = next_tier t.size_id t.hash_capacity t.current_size ∧
        t1.hash_capacity = h1 ∧ t1.capacity = 2 * h1) ∨
      (next_tier t.size_id t.hash_capacity t.current_size = 23 ∧
        rehash hash fuel t = .fault .schedule) := by
  have hs := h.small
  have hnext := next_tier_eq (sizes_mem h.tier) t.size_id t.current_size
  have hidx := sizes_index h.tier
  cases hsz : sizes[next_tier t.size_id t.hash_capacity t.current_size]? with
  | none =>
    right
    constructor
    · have hge : sizes.length ≤ next_tier t.size_id t.hash_capacity t.current_size :=
        List.getElem?_eq_none_iff.mp hsz
      have hlen : sizes.length = 23 := rfl
      rw [hnext] at hge ⊢
      split at hge <;> split <;> omega
    · unfold rehash
      rw [rehash_with_eq]
      simp only [hsz]
  | some h1 =>
    left
    have hb := sizes_bounds (sizes_mem hsz)
    have hload : 10 * live_count t.data < 3 * cellar_capacity h1 := by
      rw [← h.count, cellar_capacity_eq]
      rw [hnext] at hsz
      split at hsz
      · rename_i hx
        have h22 : t.size_id < 22 := by
          have := sizes_index hsz
          omega
        obtain ⟨h2, e1, e2⟩ := sizes_next h.tier h22
        rw [hsz] at e1
        cases e1
        omega
      · rw [h.tier] at hsz
        cases hsz
        omega
    obtain ⟨t1, b1, b2, b3, b4, _⟩ := rehash_with_total hash hf h.uniq hsz hload
    exact ⟨h1, t1, rfl, b1, b2, b3, by rw [b4, cellar_capacity_eq]⟩

/-- The table that `insert` hands to `rehash` satisfies the structural invariant,
and its count is one above the count of a table below the load threshold. -/
theorem insert_rehash_arg {hash : K → Nat} {t t2 : Table K V} (hr : Reachable hash t)
    {fuel : Nat} (hf : enough_fuel ≤ fuel) {k : K} {v : V}
    (habs : find_result hash fuel t k = .ok none)
    (hq : insert_with hash Outcome.ok fuel t k v = .ok t2) :
    Inv hash t2 ∧ 10 * t2.current_size < 3 * t2.capacity + 10 := by
  have hg := hr.good
  have h := hg.inv
  have hnone : ∀ w, ¬ Has t k w :=
    (lookup_eq_none t k).mp (find_result_sound h habs).symm
  obtain ⟨i, p, c1, d1, buf, _, _, _, _, _, _, _, hi2, _, _, _, _, hsh⟩ :=
    insert_with_shape h hg.cursor v hnone (hg.fuel hf)
  have hlt := Loaded.lt h hg.loaded
  rw [hsh] at hq
  have ht2 : t2 = Table.mk (t.current_size + 1) t.size_id t.hash_capacity t.capacity c1
      d1 := by
    by_cases hc1 : c1 = 0
    · rw [if_pos hc1] at hq
      dsimp only at hq
      split at hq <;> cases hq <;> rfl
    · rw [if_neg hc1] at hq
      split at hq <;> cases hq <;> rfl
  rw [ht2]
  refine ⟨hi2, ?_⟩
  show 10 * (t.current_size + 1) < 3 * t.capacity + 10
  omega

/-- C12. The growth decision of `rehash()`, for every table whose primary size is
an entry of the growth schedule: the tier advances by exactly one when the count
is strictly greater than `0.3` times the primary size
(`3 * hash_capacity < 10 * current_size`) and is unchanged otherwise; when the
schedule has no entry for that tier the call stops there; otherwise the entries
are reinserted into a table of that tier whose primary size is the schedule
entry, whose capacity is twice the primary size, whose count is 0 and whose
cursor is `capacity - 1`. In every state in which the program calls `rehash`
(`RehashCall`: from `insert`, with the cursor at slot 0 or the count at the load
threshold, and from `clear`), the table that `rehash()` returns is in that tier
with that primary size and capacity, or the tier is 23 and the schedule is
exhausted. -/
theorem rehash_growth {hash : K → Nat} {t : Table K V} (hm : t.hash_capacity ∈ sizes)
    {fuel : Nat} (hf : enough_fuel ≤ fuel) :
    next_tier t.size_id t.hash_capacity t.current_size =
      (if 3 * t.hash_capacity < 10 * t.current_size then t.size_id + 1 else t.size_id) ∧
    (sizes[next_tier t.size_id t.hash_capacity t.current_size]? = none →
      rehash hash fuel t = .fault .schedule) ∧
    (∀ h1, sizes[next_tier t.size_id t.hash_capacity t.current_size]? = some h1 →
      rehash hash fuel t = reinsert (insert hash fuel) t.data
        (blank (next_tier t.size_id t.hash_capacity t.current_size) h1) ∧
      (blank (next_tier t.size_id t.hash_capacity t.current_size) h1 : Table K V) =
        Table.mk 0 (next_tier t.size_id t.hash_capacity t.current_size) h1 (2 * h1)
          (2 * h1 - 1) (init (2 * h1))) ∧
    (RehashCall hash t →
      (∃ h1 t1, sizes[next_tier t.size_id t.hash_capacity t.current_size]? = some h1 ∧
        rehash hash fuel t = .ok t1 ∧
        t1.size_id = next_tier t.size_id t.hash_capacity t.current_size ∧
        t1.hash_capacity = h1 ∧ t1.capacity = 2 * h1 ∧ Good hash t1) ∨
      (next_tier t.size_id t.hash_capacity t.current_size = 23 ∧
        rehash hash fuel t = .fault .schedule)) := by
  have hf1 : max_capacity < fuel := by
    unfold enough_fuel at hf
    omega
  refine ⟨next_tier_eq hm _ _, ?_, ?_, ?_⟩
  · intro hsz
    unfold rehash
    rw [rehash_with_eq]
    simp only [hsz]
  · intro h1 hsz
    refine ⟨?_, blank_eq (sizes_mem hsz) _⟩
    unfold rehash
    rw [rehash_with_eq]
    simp only [hsz]
  · intro hcall
    have fin : ∀ t2 : Table K V, Inv hash t2 →
        10 * t2.current_size < 3 * t2.capacity + 10 →
        (∃ h1 t1, sizes[next_tier t2.size_id t2.hash_capacity t2.current_size]? = some h1 ∧
          rehash hash fuel t2 = .ok t1 ∧
          t1.size_id = next_tier t2.size_id t2.hash_capacity t2.current_size ∧
          t1.hash_capacity = h1 ∧ t1.capacity = 2 * h1 ∧ Good hash t1) ∨
        (next_tier t2.size_id t2.hash_capacity t2.current_size = 23 ∧
          rehash hash fuel t2 = .fault .schedule) := by
      intro t2 hi2 hl2
      rcases rehash_tier hash hf1 hi2 hl2 with ⟨h1, t1, a1, a2, a3, a4, a5⟩ | a
      · left
        obtain ⟨b1, b2, b3, _⟩ := rehash_with_spec (insert_spec hash fuel) t2 t1 hi2.uniq a2
        exact ⟨h1, t1, a1, a2, a3, a4, a5, ⟨b1, b2, b3⟩⟩
      · exact Or.inr a
    cases hcall with
    | cursor hr hf0 habs heq =>
      have hq := heq Outcome.ok
      have hq2 : (Outcome.ok t).and_then (load_step Outcome.ok) = Outcome.ok t := by
        show load_step Outcome.ok t = Outcome.ok t
        unfold load_step
        split <;> rfl
      obtain ⟨a1, a2⟩ := insert_rehash_arg hr hf0 habs (hq.trans hq2)
      exact fin _ a1 a2
    | load hr hf0 habs heq =>
      obtain ⟨a1, a2⟩ := insert_rehash_arg hr hf0 habs (heq Outcome.ok)
      exact fin _ a1 a2
    | clear hr =>
      rename_i t0
      have h0 := hr.good.inv
      have hc : clear hash fuel t0 = _ := clear_eq h0 fuel
      unfold HashMap.clear at hc
      rw [if_pos (by rw [h0.len])] at hc
      have hnt : next_tier 0 t0.hash_capacity t0.current_size =
          (if exceeds_load t0.current_size t0.hash_capacity = true then 1 else 0) := by
        unfold next_tier
        simp only [Nat.zero_add]
      left
      by_cases hx : exceeds_load t0.current_size t0.hash_capacity = true
      · rw [if_pos hx] at hc hnt
        exact ⟨11, blank 1 11, by
          show sizes[next_tier 0 t0.hash_capacity t0.current_size]? = some 11
          rw [hnt]
          rfl, hc, hnt.symm, rfl, rfl, blank_good hash (rfl : sizes[1]? = some 11)⟩
      · rw [if_neg hx] at hc hnt
        exact ⟨5, blank 0 5, by
          show sizes[next_tier 0 t0.hash_capacity t0.current_size]? = some 5
          rw [hnt]
          rfl, hc, hnt.symm, rfl, rfl, blank_good hash (rfl : sizes[0]? = some 5)⟩

set_option maxRecDepth 100000 in
/-- Witness of C12: `insert(34, 340)` on `sample` calls `rehash` on `sample_full`,
which is in tier 1 with count 7 > 11 × 0.3; `rehash()` moves it to tier 2. -/
theorem rehash_growth_witness :
    (sample_full.size_id = 1 ∧ sample_full.hash_capacity = 11 ∧
      sample_full.current_size = 7 ∧
      next_tier sample_full.size_id sample_full.hash_capacity sample_full.current_size = 2 ∧
      RehashCall id sample_full) ∧
    (next_tier sample_full.size_id sample_full.hash_capacity sample_full.current_size =
      (if 3 * sample_full.hash_capacity < 10 * sample_full.current_size then
        sample_full.size_id + 1
       else sample_full.size_id) ∧
    (sizes[next_tier sample_full.size_id sample_full.hash_capacity
        sample_full.current_size]? = none →
      rehash id enough_fuel sample_full = .fault .schedule) ∧
    (∀ h1, sizes[next_tier sample_full.size_id sample_full.hash_capacity
        sample_full.current_size]? = some h1 →
      rehash id enough_fuel sample_full = reinsert (insert id enough_fuel) sample_full.data
        (blank (next_tier sample_full.size_id sample_full.hash_capacity
          sample_full.current_size) h1) ∧
      (blank (next_tier sample_full.size_id sample_full.hash_capacity
          sample_full.current_size) h1 : Table Nat Nat) =
        Table.mk 0 (next_tier sample_full.size_id sample_full.hash_capacity
          sample_full.current_size) h1 (2 * h1) (2 * h1 - 1) (init (2 * h1))) ∧
    (RehashCall id sample_full →
      (∃ h1 t1, sizes[next_tier sample_full.size_id sample_full.hash_capacity
          sample_full.current_size]? = some h1 ∧
        rehash id enough_fuel sample_full = .ok t1 ∧
        t1.size_id = next_tier sample_full.size_id sample_full.hash_capacity
          sample_full.current_size ∧
        t1.hash_capacity = h1 ∧ t1.capacity = 2 * h1 ∧ Good id t1) ∨
      (next_tier sample_full.size_id sample_full.hash_capacity sample_full.current_size =
          23 ∧
        rehash id enough_fuel sample_full = .fault .schedule))) :=
  ⟨⟨by decide, by decide, by decide, by decide,
      RehashCall.load sample_reachable (Nat.le_refl enough_fuel)
        (by decide : find_result id enough_fuel sample 34 = .ok none)
        (fun _ => rfl :
          ∀ rh : Table Nat Nat → Outcome (Table Nat Nat),
            insert_with id rh enough_fuel sample 34 340 = rh sample_full)⟩,
    rehash_growth (by decide : sample_full.hash_capacity ∈ sizes)
      (Nat.le_refl enough_fuel)⟩

end claims12

end HashMap

namespace HashMap

section claims5b

variable {K V : Type} [DecidableEq K] [Inhabited K] [Inhabited V]

/-- When `insert` reports the exhausted schedule, the table is in the last tier and
the count after the insertion exceeds `0.3` times its primary size. -/
theorem insert_fault_bound {hash : K → Nat} {t : Table K V} (hg : Good hash t) {fuel : Nat}
    (hf : enough_fuel ≤ fuel) {k : K} {v : V}
    (hi : insert hash fuel t k v = .fault .schedule) :
    t.size_id = 22 ∧ (∀ w, ¬ Has t k w) ∧ 3 * t.hash_capacity < 10 * (t.current_size + 1) := by
  have h := hg.inv
  have hlt := Loaded.lt h hg.loaded
  rcases insert_total hg hf k v with ⟨t1, h1, _⟩ | ⟨_, h22, habs, _⟩
  · rw [h1] at hi
    cases hi
  · refine ⟨h22, habs, ?_⟩
    obtain ⟨i, p, c1, d1, buf, _, _, _, _, _, _, _, hi2, _, _, _, _, hsh⟩ :=
      insert_with_shape h hg.cursor v habs (hg.fuel hf)
    cases fuel with
    | zero =>
      unfold enough_fuel at hf
      omega
    | succ f =>
      have hf1 : max_capacity < f := by
        unfold enough_fuel at hf
        omega
      rw [insert, hsh] at hi
      have hl3 : 10 * (t.current_size + 1) < 3 * t.capacity + 10 := by omega
      have key : rehash_with (insert hash f)
          (Table.mk (t.current_size + 1) t.size_id t.hash_capacity t.capacity c1 d1) =
            .fault .schedule → 3 * t.hash_capacity < 10 * (t.current_size + 1) := by
        intro hrh
        rcases rehash_after_insert hf1 hi2 hl3 with ⟨t1, a1, _⟩ | ⟨_, _, a3⟩
        · rw [hrh] at a1
          cases a1
        · exact a3
      by_cases hc1 : c1 = 0
      · rw [if_pos hc1] at hi
        cases hrh : rehash_with (insert hash f)
            (Table.mk (t.current_size + 1) t.size_id t.hash_capacity t.capacity c1 d1) with
        | fault e =>
          rw [hrh] at hi
          cases hi
          exact key hrh
        | ok t3 =>
          rw [hrh] at hi
          have hl : reaches_load t3.current_size t3.capacity = false :=
            (rehash_with_spec (insert_spec hash f) _ t3 hi2.uniq hrh).2.2.1
          simp only [hl, Bool.false_eq_true, if_false] at hi
          cases hi
      · rw [if_neg hc1] at hi
        split at hi
        · exact key hi
        · cases hi

omit [Inhabited K] [Inhabited V] in
theorem card_le_ref_peak (ops : List (Op K V)) (s : Finset K) : s.card ≤ ref_peak ops s := by
  cases ops with
  | nil => exact Nat.le_refl _
  | cons o ops =>
    cases o with
    | ins k v => exact Nat.le_max_left _ _
    | del k => exact Nat.le_max_left _ _

/-- A sequence of `insert` and `erase` calls tracks the reference key set; when it
stops at the exhausted schedule, the reference key set had outgrown the last
tier. -/
theorem run_keys_peak {hash : K → Nat} {fuel : Nat} (hf : enough_fuel ≤ fuel) :
    ∀ (ops : List (Op K V)) (t : Table K V), Good hash t →
      (∃ t1, run hash fuel ops t = .ok t1 ∧ Good hash t1 ∧
        keys t1 = ref_keys ops (keys t)) ∨
      (run hash fuel ops t = .fault .schedule ∧ 8692187 < ref_peak ops (keys t)) := by
  intro ops
  induction ops with
  | nil =>
    intro t hg
    exact Or.inl ⟨t, rfl, hg, rfl⟩
  | cons o ops ih =>
    intro t hg
    cases o with
    | ins k v =>
      unfold run ref_keys ref_peak
      cases h1 : insert hash fuel t k v with
      | ok t1 =>
        have h2 := (insert_good hg h1).1
        have hk := keys_insert (insert_good hg h1).2
        simp only []
        rw [← hk]
        rcases ih t1 h2 with a | ⟨a1, a2⟩
        · exact Or.inl a
        · exact Or.inr ⟨a1, lt_of_lt_of_le a2 (Nat.le_max_right _ _)⟩
      | fault e =>
        rcases insert_total hg hf k v with ⟨t1, a1, _⟩ | ⟨a1, _⟩
        · rw [a1] at h1
          cases h1
        · rw [a1] at h1
          cases h1
          obtain ⟨h22, habs, hb⟩ := insert_fault_bound hg hf a1
          right
          refine ⟨rfl, ?_⟩
          have hk : k ∉ keys t := by
            rw [mem_keys]
            rintro ⟨w, hw⟩
            exact habs w hw
          have hcard : (keys t).card = t.current_size := (size_eq_card hg.inv).symm
          have htier := hg.inv.tier
          rw [h22] at htier
          have e : sizes[22]? = some 28973957 := rfl
          rw [e] at htier
          have hh : t.hash_capacity = 28973957 := (Option.some.inj htier).symm
          have h3 := card_le_ref_peak ops (Insert.insert k (keys t))
          rw [Finset.card_insert_of_not_mem hk] at h3
          have h4 := Nat.le_max_right (keys t).card (ref_peak ops (Insert.insert k (keys t)))
          omega
    | del k =>
      unfold run ref_keys ref_peak
      obtain ⟨t1, h1⟩ := erase_total hg.inv (hg.fuel hf) k
      obtain ⟨g1, hh⟩ := erase_spec hg h1
      simp only [h1]
      rw [← keys_erase hh]
      rcases ih t1 g1 with a | ⟨a1, a2⟩
      · exact Or.inl a
      · exact Or.inr ⟨a1, lt_of_lt_of_le a2 (Nat.le_max_right _ _)⟩

/-- C5. For every sequence of `insert` and `erase` calls applied to the
default-constructed table: as long as the reference key set, obtained by
replaying the sequence on a mathematical set, never holds more than 8692187 keys
(`0.3` times the primary size of the last tier of the growth schedule), the calls
return and `size()` is the number of keys of the reference set, which is also the
number of non-tombstoned slots of the array, and `empty()` holds iff that number
is 0. For every sequence whatsoever the calls return with these properties, or
they stop at the exhausted growth schedule and the reference key set has
exceeded that bound. -/
theorem size_accounting {hash : K → Nat} (ops : List (Op K V)) {fuel : Nat}
    (hf : enough_fuel ≤ fuel) :
    (ref_peak ops (∅ : Finset K) ≤ 8692187 →
      ∃ t : Table K V, run hash fuel ops empty = .ok t ∧
        size t = (ref_keys ops ∅).card ∧ size t = live_count t.data ∧
        (is_empty t = true ↔ (ref_keys ops ∅).card = 0)) ∧
    ((∃ t : Table K V, run hash fuel ops empty = .ok t ∧
        size t = (ref_keys ops ∅).card ∧ size t = live_count t.data ∧
        (is_empty t = true ↔ (ref_keys ops ∅).card = 0)) ∨
      (run hash fuel ops (empty : Table K V) = .fault .schedule ∧
        8692187 < ref_peak ops (∅ : Finset K))) := by
  have main : (∃ t : Table K V, run hash fuel ops empty = .ok t ∧
        size t = (ref_keys ops ∅).card ∧ size t = live_count t.data ∧
        (is_empty t = true ↔ (ref_keys ops ∅).card = 0)) ∨
      (run hash fuel ops (empty : Table K V) = .fault .schedule ∧
        8692187 < ref_peak ops (∅ : Finset K)) := by
    have hke : keys (empty : Table K V) = ∅ := keys_empty
    rcases run_keys_peak hf ops (empty : Table K V) (empty_good hash) with
      ⟨t, h1, h2, h3⟩ | ⟨h1, h2⟩
    · left
      rw [hke] at h3
      have hc : size t = (ref_keys ops ∅).card := by
        rw [← h3]
        exact size_eq_card h2.inv
      refine ⟨t, h1, hc, h2.inv.count, ?_⟩
      rw [← hc]
      unfold is_empty size
      simp
    · right
      rw [hke] at h2
      exact ⟨h1, h2⟩
  refine ⟨fun hfit => ?_, main⟩
  rcases main with a | ⟨_, a2⟩
  · exact a
  · omega

set_option maxRecDepth 100000 in
/-- Witness of C5: the scenario of the specification holds at most two keys at a
time and ends with size 1. -/
theorem size_accounting_witness :
    (ref_peak sample_ops (∅ : Finset Nat) = 2 ∧
      ∃ t : Table Nat Nat, run id enough_fuel sample_ops empty = .ok t ∧ size t = 1) ∧
    ((ref_peak sample_ops (∅ : Finset Nat) ≤ 8692187 →
      ∃ t : Table Nat Nat, run id enough_fuel sample_ops empty = .ok t ∧
        size t = (ref_keys sample_ops ∅).card ∧ size t = live_count t.data ∧
        (is_empty t = true ↔ (ref_keys sample_ops ∅).card = 0)) ∧
    ((∃ t : Table Nat Nat, run id enough_fuel sample_ops empty = .ok t ∧
        size t = (ref_keys sample_ops ∅).card ∧ size t = live_count t.data ∧
        (is_empty t = true ↔ (ref_keys sample_ops ∅).card = 0)) ∨
      (run id enough_fuel sample_ops (empty : Table Nat Nat) = .fault .schedule ∧
        8692187 < ref_peak sample_ops (∅ : Finset Nat)))) :=
  ⟨⟨by decide, (run id enough_fuel sample_ops empty).table, by decide, by decide⟩,
    size_accounting sample_ops (Nat.le_refl enough_fuel)⟩

end claims5b

end HashMap

namespace HashMap

section frames

variable {K V : Type}

theorem heap_read_ok {H : Heap K V} {a : Nat} {e : Element K V} :
    heap_read H a = .ok e ↔ H[a]? = some (some e) := by
  unfold heap_read
  constructor
  · intro h
    split at h
    · cases h
      assumption
    · cases h
  · intro h
    rw [h]

theorem heap_free_ok {H H1 : Heap K V} {a : Nat} (h : heap_free H a = .ok H1) :
    (∃ e, H[a]? = some (some e)) ∧ H1 = H.set a none := by
  unfold heap_free at h
  cases hr : heap_read H a with
  | fault f =>
    rw [hr] at h
    cases h
  | ok e =>
    rw [hr] at h
    cases h
    exact ⟨⟨e, heap_read_ok.mp hr⟩, rfl⟩

theorem heap_free_of {H : Heap K V} {a : Nat} {e : Element K V}
    (h : H[a]? = some (some e)) : heap_free H a = .ok (H.set a none) := by
  unfold heap_free
  rw [heap_read_ok.mpr h]

theorem Frame.refl (H : Heap K V) (own : List Nat) : Frame H H own own :=
  ⟨Nat.le_refl _, fun _ _ _ => rfl, fun _ h => Or.inl h⟩

theorem Frame.comp {H H1 H2 : Heap K V} {o o1 o2 : List Nat} (h1 : Frame H H1 o o1)
    (h2 : Frame H1 H2 o1 o2) : Frame H H2 o o2 := by
  refine ⟨Nat.le_trans h1.len h2.len, ?_, ?_⟩
  · intro a ha hn
    rw [← h1.keep a ha hn]
    apply h2.keep a (Nat.lt_of_lt_of_le ha h1.len)
    intro hm
    rcases h1.fresh a hm with h | h
    · exact hn h
    · omega
  · intro a ha
    rcases h2.fresh a ha with h | h
    · exact h1.fresh a h
    · exact Or.inr (Nat.le_trans h1.len h)

theorem Frame.weaken {H H1 : Heap K V} {o o1 o2 o3 : List Nat} (h : Frame H H1 o o1)
    (h2 : ∀ a, a ∈ o → a ∈ o2) (h3 : ∀ a, a ∈ o3 → a ∈ o1 ∨ a ∈ o2) : Frame H H1 o2 o3 := by
  refine ⟨h.len, fun a ha hn => h.keep a ha (fun hm => hn (h2 a hm)), ?_⟩
  intro a ha
  rcases h3 a ha with h4 | h4
  · rcases h.fresh a h4 with h5 | h5
    · exact Or.inl (h2 a h5)
    · exact Or.inr h5
  · exact Or.inl h4

/-- Reading a vector of pointers whose cells are unchanged. -/
theorem read_all_congr {H H1 : Heap K V} :
    ∀ q : List Nat, (∀ a, a ∈ q → H1[a]? = H[a]?) → read_all H1 q = read_all H q := by
  intro q
  induction q with
  | nil =>
    intro _
    rfl
  | cons a q ih =>
    intro h
    unfold read_all heap_read
    rw [h a (List.mem_cons_self _ _), ih (fun b hb => h b (List.mem_cons_of_mem _ hb))]

/-- A table object whose pointers another object does not own is read the same
after a call on the other object. -/
theorem view_frame {H H1 : Heap K V} {o o1 : List Nat} (h : Frame H H1 o o1) {q : PTable}
    (hq : ∀ a, a ∈ q.data → a < H.length ∧ a ∉ o) :
    view H1 q = view H q ∧ ∀ a, a ∈ q.data → a < H1.length ∧ a ∉ o1 := by
  constructor
  · unfold view
    rw [read_all_congr q.data (fun a ha => h.keep a (hq a ha).1 (hq a ha).2)]
  · intro a ha
    refine ⟨Nat.lt_of_lt_of_le (hq a ha).1 h.len, fun hm => ?_⟩
    rcases h.fresh a hm with h1 | h1
    · exact (hq a ha).2 h1
    · have := (hq a ha).1
      omega

theorem write_entry_ptr_frame {s s2 : HState K V} {i : Nat} {k : K} {v : V} {upd : Bool}
    (h : write_entry_ptr s i k v = .ok (s2, upd)) :
    Frame s.heap s2.heap s.tab.data s2.tab.data := by
  unfold write_entry_ptr at h
  cases hi : s.tab.data[i]? with
  | none => simp [hi] at h
  | some a =>
    simp only [hi] at h
    have ha : a ∈ s.tab.data := List.getElem?_mem hi
    cases hr : heap_read s.heap a with
    | fault f => simp [hr] at h
    | ok buf =>
      simp only [hr] at h
      by_cases hu : buf.is_used = false
      · rw [if_pos hu] at h
        cases hf : heap_free (s.heap ++ [some (Element.mk k v true false buf.last
            buf.next)]) a with
        | fault f => simp [hf] at h
        | ok H1 =>
          simp only [hf, Outcome.ok.injEq, Prod.mk.injEq] at h
          obtain ⟨rfl, _⟩ := h
          obtain ⟨_, rfl⟩ := heap_free_ok hf
          refine ⟨by simp, ?_, ?_⟩
          · intro b hb hn
            have hba : a ≠ b := fun e => hn (e ▸ ha)
            show ((s.heap ++ _).set a none)[b]? = s.heap[b]?
            rw [List.getElem?_set_ne hba, List.getElem?_append_left hb]
          · intro b hb
            rcases List.mem_or_eq_of_mem_set hb with h1 | h1
            · exact Or.inl h1
            · exact Or.inr (by omega)
      · rw [if_neg hu] at h
        cases hc : s.tab.data[s.tab.collision_bucket_id]? with
        | none => simp [hc] at h
        | some c =>
          simp only [hc] at h
          have hcm : c ∈ s.tab.data := List.getElem?_mem hc
          cases hf : heap_free (s.heap.set a (some (Element.mk buf.key buf.value
              buf.is_used buf.is_empty false s.tab.collision_bucket_id))) c with
          | fault f => simp [hf] at h
          | ok H2 =>
            simp only [hf, Outcome.ok.injEq, Prod.mk.injEq] at h
            obtain ⟨rfl, _⟩ := h
            obtain ⟨_, rfl⟩ := heap_free_ok hf
            refine ⟨by simp, ?_, ?_⟩
            · intro b hb hn
              have hba : a ≠ b := fun e => hn (e ▸ ha)
              have hbc : c ≠ b := fun e => hn (e ▸ hcm)
              show (((s.heap.set a _).set c none) ++ _)[b]? = s.heap[b]?
              rw [List.getElem?_append_left (by simpa using hb), List.getElem?_set_ne hbc,
                List.getElem?_set_ne hba]
            · intro b hb
              rcases List.mem_or_eq_of_mem_set hb with h1 | h1
              · exact Or.inl h1
              · refine Or.inr ?_
                rw [h1]
                simp

end frames

end HashMap

namespace HashMap

section frames2

variable {K V : Type} [DecidableEq K] [Inhabited K] [Inhabited V]

omit [DecidableEq K] [Inhabited K] [Inhabited V] in
theorem update_collision_bucket_id_ptr_frame {rh : HState K V → Outcome (HState K V)}
    (hrh : FrameRehash rh) {s s1 : HState K V}
    (h : update_collision_bucket_id_ptr rh s = .ok s1) :
    Frame s.heap s1.heap s.tab.data s1.tab.data := by
  unfold update_collision_bucket_id_ptr at h
  cases hv : view s.heap s.tab with
  | fault f => simp [hv] at h
  | ok t =>
    simp only [hv] at h
    cases hl : lower_cursor t.data t.collision_bucket_id with
    | fault f => simp [hl] at h
    | ok c =>
      simp only [hl] at h
      split at h
      · cases h
      · split at h
        · have := hrh _ _ h
          exact this
        · cases h
          exact Frame.refl _ _

omit [Inhabited K] [Inhabited V] in
theorem insert_with_ptr_frame (hash : K → Nat) {rh : HState K V → Outcome (HState K V)}
    (hrh : FrameRehash rh) (fuel : Nat) : FrameInsert (insert_with_ptr hash rh fuel) := by
  intro s k v s1 h
  unfold insert_with_ptr at h
  cases hv : view s.heap s.tab with
  | fault f => simp [hv] at h
  | ok t =>
    simp only [hv] at h
    cases hg : get_key_id hash fuel t k with
    | fault f => simp [hg] at h
    | ok id =>
      simp only [hg] at h
      split at h
      · cases h
        exact Frame.refl _ _
      · cases hw : insert_walk t fuel (hash k % t.hash_capacity) with
        | fault f => simp [hw] at h
        | ok i =>
          simp only [hw] at h
          cases he : write_entry_ptr
              (HState.mk s.heap { s.tab with current_size := incr s.tab.current_size })
              i k v with
          | fault f => simp [he] at h
          | ok r =>
            obtain ⟨s2, upd⟩ := r
            simp only [he] at h
            have f1 : Frame s.heap s2.heap s.tab.data s2.tab.data := by
              have := write_entry_ptr_frame he
              exact this
            cases hu : (if upd = true then update_collision_bucket_id_ptr rh s2
                else .ok s2) with
            | fault f => simp [hu] at h
            | ok s3 =>
              simp only [hu] at h
              have f2 : Frame s2.heap s3.heap s2.tab.data s3.tab.data := by
                split at hu
                · exact update_collision_bucket_id_ptr_frame hrh hu
                · cases hu
                  exact Frame.refl _ _
              split at h
              · exact (f1.comp f2).comp (hrh _ _ h)
              · cases h
                exact f1.comp f2

omit [DecidableEq K] in
/-- The cells and the pointers that `init()` makes on a vector of null pointers. -/
theorem init_ptr_eq (n : Nat) :
    ∀ H : Heap K V, (init_ptr n H).1 = H ++ List.replicate n (some Element.fresh) ∧
      (init_ptr n H).2 = List.range' H.length n := by
  induction n with
  | zero =>
    intro H
    exact ⟨by simp [init_ptr], rfl⟩
  | succ n ih =>
    intro H
    obtain ⟨h1, h2⟩ := ih (H ++ [some Element.fresh])
    constructor
    · show (init_ptr n (H ++ [some Element.fresh])).1 = _
      rw [h1, List.append_assoc]
      rfl
    · show H.length :: (init_ptr n (H ++ [some Element.fresh])).2 = _
      rw [h2]
      simp [List.range'_succ]

omit [DecidableEq K] in
theorem init_ptr_frame (n : Nat) (H : Heap K V) (own : List Nat) :
    Frame H (init_ptr n H).1 own (init_ptr n H).2 := by
  obtain ⟨h1, h2⟩ := init_ptr_eq n H
  rw [h1, h2]
  refine ⟨by simp, fun a ha _ => List.getElem?_append_left ha, fun a ha => ?_⟩
  rw [List.mem_range'] at ha
  obtain ⟨i, _, rfl⟩ := ha
  exact Or.inr (by omega)

omit [DecidableEq K] in
/-- The loop `delete element; element = new Element()`: the deleted cells are the
old pointers, the new pointers designate new cells. -/
theorem reset_ptr_spec :
    ∀ (as : List Nat) (H : Heap K V) (r : Heap K V × List Nat), reset_ptr as H = .ok r →
      r.1.length = H.length + as.length ∧ r.2 = List.range' H.length as.length ∧
      (∀ b, b < H.length → b ∉ as → r.1[b]? = H[b]?) ∧
      ((∀ a, a ∈ as → a < H.length) →
        ∀ b, H.length ≤ b → b < H.length + as.length →
          r.1[b]? = some (some Element.fresh)) := by
  intro as
  induction as with
  | nil =>
    intro H r h
    cases h
    exact ⟨rfl, rfl, fun _ _ _ => rfl, fun _ b h1 h2 => by
      simp only [List.length_nil, Nat.add_zero] at h2
      omega⟩
  | cons a as ih =>
    intro H r h
    unfold reset_ptr at h
    cases hf : heap_free H a with
    | fault f => simp [hf] at h
    | ok H1 =>
      simp only [hf] at h
      obtain ⟨_, rfl⟩ := heap_free_ok hf
      cases hr : reset_ptr as (H.set a none ++ [some Element.fresh]) with
      | fault f => simp [hr] at h
      | ok r1 =>
        simp only [hr, Outcome.ok.injEq] at h
        subst h
        obtain ⟨a1, a2, a3, a4⟩ := ih _ r1 hr
        have hlen : (H.set a none ++ [some (Element.fresh : Element K V)]).length =
            H.length + 1 := by simp
        rw [hlen] at a1 a2 a3 a4
        refine ⟨?_, ?_, ?_, ?_⟩
        · show r1.1.length = H.length + (as.length + 1)
          omega
        · show (H.set a none).length :: r1.2 = _
          rw [a2]
          simp [List.range'_succ]
        · intro b hb hn
          show r1.1[b]? = H[b]?
          have hba : a ≠ b := fun e => hn (e ▸ List.mem_cons_self _ _)
          rw [a3 b (by omega) (fun hm => hn (List.mem_cons_of_mem _ hm)),
            List.getElem?_append_left (by simpa using hb), List.getElem?_set_ne hba]
        · intro hv b hb1 hb2
          show r1.1[b]? = _
          have hv1 : ∀ x, x ∈ as → x < H.length + 1 := fun x hx =>
            Nat.lt_succ_of_lt (hv x (List.mem_cons_of_mem _ hx))
          by_cases hb : b = H.length
          · subst hb
            rw [a3 H.length (by omega) (fun hm => by
              have := hv H.length (List.mem_cons_of_mem _ hm)
              omega)]
            rw [List.getElem?_append_right (by simp)]
            simp
          · apply a4 hv1 b (by omega)
            simp only [List.length_cons] at hb2
            omega

omit [DecidableEq K] in
theorem reset_ptr_frame {as : List Nat} {H : Heap K V} {r : Heap K V × List Nat}
    (h : reset_ptr as H = .ok r) {own : List Nat} (hown : ∀ a, a ∈ as → a ∈ own) :
    Frame H r.1 own r.2 := by
  obtain ⟨a1, a2, a3, _⟩ := reset_ptr_spec as H r h
  refine ⟨by omega, fun b hb hn => a3 b hb (fun hm => hn (hown b hm)), fun b hb => ?_⟩
  rw [a2, List.mem_range'] at hb
  obtain ⟨i, _, rfl⟩ := hb
  exact Or.inr (by omega)

omit [DecidableEq K] [Inhabited K] [Inhabited V] in
/-- The loop of `rehash` touches the cells of the new table and the old elements
only. -/
theorem reinsert_ptr_frame {ins : HState K V → K → V → Outcome (HState K V)}
    (hins : FrameInsert ins) :
    ∀ (as : List Nat) (s s1 : HState K V), reinsert_ptr ins as s = .ok s1 →
      Frame s.heap s1.heap (s.tab.data ++ as) s1.tab.data := by
  intro as
  induction as with
  | nil =>
    intro s s1 h
    cases h
    exact (Frame.refl _ _).weaken (fun a ha => by simpa using ha) (fun a ha => Or.inl ha)
  | cons a as ih =>
    intro s s1 h
    unfold reinsert_ptr at h
    cases hr : heap_read s.heap a with
    | fault f => simp [hr] at h
    | ok e =>
      simp only [hr] at h
      cases hi : (if e.is_empty = false then ins s e.key e.value else .ok s) with
      | fault f => simp [hi] at h
      | ok s2 =>
        simp only [hi] at h
        have f1 : Frame s.heap s2.heap s.tab.data s2.tab.data := by
          split at hi
          · exact hins _ _ _ _ hi
          · cases hi
            exact Frame.refl _ _
        cases hf : heap_free s2.heap a with
        | fault f => simp [hf] at h
        | ok H2 =>
          simp only [hf] at h
          obtain ⟨_, rfl⟩ := heap_free_ok hf
          have f3 := ih _ _ h
          have f1w : Frame s.heap s2.heap (s.tab.data ++ a :: as) (s2.tab.data ++ a :: as) :=
            f1.weaken (fun x hx => List.mem_append_left _ hx) (fun x hx => by
              rcases List.mem_append.mp hx with h1 | h1
              · exact Or.inl h1
              · exact Or.inr (List.mem_append_right _ h1))
          have f2 : Frame s2.heap (s2.heap.set a none) (s2.tab.data ++ a :: as)
              (s2.tab.data ++ as) := by
            refine ⟨by simp, fun b hb hn => ?_, fun b hb => ?_⟩
            · have hba : a ≠ b := fun e =>
                hn (List.mem_append_right _ (e ▸ List.mem_cons_self _ _))
              rw [List.getElem?_set_ne hba]
            · rcases List.mem_append.mp hb with h1 | h1
              · exact Or.inl (List.mem_append_left _ h1)
              · exact Or.inl (List.mem_append_right _ (List.mem_cons_of_mem _ h1))
          exact (f1w.comp f2).comp f3

omit [DecidableEq K] in
theorem rehash_with_ptr_frame {ins : HState K V → K → V → Outcome (HState K V)}
    (hins : FrameInsert ins) : FrameRehash (rehash_with_ptr ins) := by
  intro s s1 h
  unfold rehash_with_ptr at h
  dsimp only at h
  split at h
  · cases h
  · rename_i hc hsz
    have f1 := init_ptr_frame (cellar_capacity hc) s.heap s.tab.data
    have f2 := reinsert_ptr_frame hins _ _ _ h
    unfold blank_ptr at f2
    have f1w : Frame s.heap (init_ptr (cellar_capacity hc) s.heap).1 s.tab.data
        ((init_ptr (cellar_capacity hc) s.heap).2 ++ s.tab.data) :=
      f1.weaken (fun _ hx => hx) (fun x hx => by
        rcases List.mem_append.mp hx with h1 | h1
        · exact Or.inl h1
        · exact Or.inr h1)
    exact f1w.comp f2

theorem insert_ptr_frame (hash : K → Nat) :
    ∀ fuel : Nat, FrameInsert (insert_ptr hash fuel : HState K V → K → V → _) := by
  intro fuel
  induction fuel with
  | zero =>
    intro s k v s1 h
    cases h
  | succ f ih =>
    intro s k v s1 h
    rw [insert_ptr] at h
    exact insert_with_ptr_frame hash (rehash_with_ptr_frame ih) (f + 1) s k v s1 h

theorem rehash_ptr_frame (hash : K → Nat) (fuel : Nat) :
    FrameRehash (rehash_ptr hash fuel : HState K V → _) :=
  rehash_with_ptr_frame (insert_ptr_frame hash fuel)

omit [Inhabited K] [Inhabited V] in
theorem erase_ptr_frame {hash : K → Nat} {fuel : Nat} {s s1 : HState K V} {k : K}
    (h : erase_ptr hash fuel s k = .ok s1) :
    Frame s.heap s1.heap s.tab.data s1.tab.data := by
  obtain ⟨H1, p1⟩ := s1
  show Frame s.heap H1 s.tab.data p1.data
  unfold erase_ptr at h
  cases hv : view s.heap s.tab with
  | fault f => simp [hv] at h
  | ok t =>
    simp only [hv] at h
    cases hg : get_key_id hash fuel t k with
    | fault f => simp [hg] at h
    | ok id =>
      simp only [hg] at h
      split at h
      · cases h
        exact Frame.refl _ _
      · cases hi : s.tab.data[id]? with
        | none => simp [hi] at h
        | some a =>
          simp only [hi] at h
          cases hr : heap_read s.heap a with
          | fault f => simp [hr] at h
          | ok e =>
            simp only [hr, Outcome.ok.injEq, HState.mk.injEq] at h
            obtain ⟨rfl, rfl⟩ := h
            have ha : a ∈ s.tab.data := List.getElem?_mem hi
            refine ⟨by simp, fun b hb hn => ?_, fun b hb => Or.inl hb⟩
            have hba : a ≠ b := fun e => hn (e ▸ ha)
            rw [List.getElem?_set_ne hba]

theorem index_ptr_frame {hash : K → Nat} {fuel : Nat} {s s1 : HState K V} {k : K} {id : Nat}
    (h : index_ptr hash fuel s k = .ok (s1, id)) :
    Frame s.heap s1.heap s.tab.data s1.tab.data := by
  unfold index_ptr at h
  cases hv : view s.heap s.tab with
  | fault f => simp [hv] at h
  | ok t =>
    simp only [hv] at h
    cases hg : get_key_id hash fuel t k with
    | fault f => simp [hg] at h
    | ok id0 =>
      simp only [hg] at h
      split at h
      · cases hi : insert_ptr hash fuel s k default with
        | fault f => simp [hi] at h
        | ok s2 =>
          simp only [hi] at h
          cases hv2 : view s2.heap s2.tab with
          | fault f => simp [hv2] at h
          | ok t2 =>
            simp only [hv2] at h
            cases hg2 : get_key_id hash fuel t2 k with
            | fault f => simp [hg2] at h
            | ok id1 =>
              simp only [hg2] at h
              split at h
              · cases h
              · split at h
                · simp only [Outcome.ok.injEq, Prod.mk.injEq] at h
                  obtain ⟨rfl, _⟩ := h
                  exact insert_ptr_frame hash fuel _ _ _ _ hi
                · cases h
      · split at h
        · simp only [Outcome.ok.injEq, Prod.mk.injEq] at h
          obtain ⟨rfl, _⟩ := h
          exact Frame.refl _ _
        · cases h

theorem store_ptr_frame {hash : K → Nat} {fuel : Nat} {s s1 : HState K V} {k : K} {v : V}
    (h : store_ptr hash fuel s k v = .ok s1) :
    Frame s.heap s1.heap s.tab.data s1.tab.data := by
  unfold store_ptr at h
  cases hi : index_ptr hash fuel s k with
  | fault f => simp [hi] at h
  | ok r =>
    obtain ⟨s2, id⟩ := r
    simp only [hi] at h
    have f1 := index_ptr_frame hi
    cases hd : s2.tab.data[id]? with
    | none => simp [hd] at h
    | some a =>
      simp only [hd] at h
      cases hr : heap_read s2.heap a with
      | fault f => simp [hr] at h
      | ok e =>
        simp only [hr, Outcome.ok.injEq] at h
        subst h
        have ha : a ∈ s2.tab.data := List.getElem?_mem hd
        dsimp only
        refine f1.comp ⟨by simp, fun b hb hn => ?_, fun b hb => Or.inl hb⟩
        have hba : a ≠ b := fun e => hn (e ▸ ha)
        rw [List.getElem?_set_ne hba]

theorem step_ptr_frame {hash : K → Nat} {fuel : Nat} {s s1 : HState K V} {m : Mut K V}
    (h : step_ptr hash fuel s m = .ok s1) :
    Frame s.heap s1.heap s.tab.data s1.tab.data := by
  cases m with
  | ins k v => exact insert_ptr_frame hash fuel _ _ _ _ h
  | del k => exact erase_ptr_frame h
  | idx k =>
    unfold step_ptr at h
    cases hi : index_ptr hash fuel s k with
    | fault f => simp [hi] at h
    | ok r =>
      obtain ⟨s2, id⟩ := r
      simp only [hi, Outcome.ok.injEq] at h
      subst h
      exact index_ptr_frame hi
  | put k v => exact store_ptr_frame h

/-- A client program on one table object touches the cells of that object and new
cells only. -/
theorem run_ptr_frame {hash : K → Nat} {fuel : Nat} :
    ∀ (ms : List (Mut K V)) (s s1 : HState K V), run_ptr hash fuel ms s = .ok s1 →
      Frame s.heap s1.heap s.tab.data s1.tab.data := by
  intro ms
  induction ms with
  | nil =>
    intro s s1 h
    cases h
    exact Frame.refl _ _
  | cons m ms ih =>
    intro s s1 h
    unfold run_ptr at h
    cases hi : step_ptr hash fuel s m with
    | fault f => simp [hi] at h
    | ok s2 =>
      simp only [hi] at h
      exact (step_ptr_frame hi).comp (ih _ _ h)

end frames2

end HashMap

namespace HashMap

section simulation

variable {K V : Type}

theorem read_all_ok {H : Heap K V} :
    ∀ (l : List Nat) (d : List (Element K V)), read_all H l = .ok d →
      l.length = d.length ∧
      ∀ (j a : Nat) (e : Element K V), l[j]? = some a → d[j]? = some e →
        H[a]? = some (some e) := by
  intro l
  induction l with
  | nil =>
    intro d h
    cases h
    exact ⟨rfl, fun j a e h1 _ => by simp at h1⟩
  | cons a l ih =>
    intro d h
    unfold read_all at h
    cases hr : heap_read H a with
    | fault f => simp [hr] at h
    | ok e =>
      simp only [hr] at h
      cases hl : read_all H l with
      | fault f => simp [hl] at h
      | ok es =>
        simp only [hl, Outcome.ok.injEq] at h
        subst h
        obtain ⟨h1, h2⟩ := ih es hl
        refine ⟨by simp [h1], ?_⟩
        intro j b e1 hb he1
        cases j with
        | zero =>
          simp only [List.getElem?_cons_zero, Option.some.injEq] at hb he1
          subst hb
          subst he1
          exact heap_read_ok.mp hr
        | succ j =>
          simp only [List.getElem?_cons_succ] at hb he1
          exact h2 j b e1 hb he1

theorem read_all_of {H : Heap K V} :
    ∀ (l : List Nat) (d : List (Element K V)), l.length = d.length →
      (∀ (j a : Nat) (e : Element K V), l[j]? = some a → d[j]? = some e →
        H[a]? = some (some e)) →
      read_all H l = .ok d := by
  intro l
  induction l with
  | nil =>
    intro d hlen _
    cases d with
    | nil => rfl
    | cons e es => simp at hlen
  | cons a l ih =>
    intro d hlen hc
    cases d with
    | nil => simp at hlen
    | cons e es =>
      unfold read_all
      have h0 := hc 0 a e (by simp) (by simp)
      rw [heap_read_ok.mpr h0]
      have h1 := ih es (by simpa using hlen) (fun j b e1 hb he1 =>
        hc (j + 1) b e1 (by simpa using hb) (by simpa using he1))
      simp only [h1]

/-- A table object that designates a table reads as that table. -/
theorem Rep.view {H : Heap K V} {p : PTable} {t : Table K V} (h : Rep H p t) :
    view H p = .ok t := by
  unfold HashMap.view
  rw [read_all_of p.data t.data h.len h.cells]
  simp only [h.current_size, h.size_id, h.hash_capacity, h.capacity, h.collision_bucket_id]

/-- A table object with pairwise distinct pointers designates the table it reads
as. -/
theorem Rep.of_view {H : Heap K V} {p : PTable} {t : Table K V}
    (h : HashMap.view H p = .ok t)
    (hnd : p.data.Nodup) : Rep H p t := by
  unfold HashMap.view at h
  cases hr : read_all H p.data with
  | fault f => simp [hr] at h
  | ok d =>
    simp only [hr, Outcome.ok.injEq] at h
    subst h
    obtain ⟨h1, h2⟩ := read_all_ok p.data d hr
    refine ⟨rfl, rfl, rfl, rfl, rfl, ?_, h1, h2⟩
    intro i j a hi hj
    have hi1 := (List.getElem?_eq_some.mp hi)
    have hj1 := (List.getElem?_eq_some.mp hj)
    obtain ⟨hil, hie⟩ := hi1
    obtain ⟨hjl, hje⟩ := hj1
    exact (List.Nodup.getElem_inj_iff hnd).mp (hie.trans hje.symm)

theorem Rep.ptr_nodup {H : Heap K V} {p : PTable} {t : Table K V} (h : Rep H p t) :
    p.data.Nodup := by
  rw [List.nodup_iff_getElem?_ne_getElem?]
  intro i j hij hj heq
  have hi : i < p.data.length := by omega
  have h1 : p.data[i]? = some p.data[i] := List.getElem?_eq_getElem hi
  have h2 : p.data[j]? = some p.data[i] := by rw [← heq, h1]
  have := h.inj i j _ h1 h2
  omega

/-- The pointer of a slot and the cell it designates. -/
theorem Rep.get {H : Heap K V} {p : PTable} {t : Table K V} (h : Rep H p t) {j : Nat}
    {e : Element K V} (he : t.data[j]? = some e) :
    ∃ a, p.data[j]? = some a ∧ H[a]? = some (some e) ∧ a < H.length := by
  have hj : j < p.data.length := by
    rw [h.len]
    exact (List.getElem?_eq_some.mp he).1
  have ha : p.data[j]? = some p.data[j] := List.getElem?_eq_getElem hj
  have hc := h.cells j _ e ha he
  refine ⟨_, ha, hc, ?_⟩
  by_contra hn
  rw [List.getElem?_eq_none (by omega)] at hc
  cases hc

/-- The pointers of a table object designate cells of the free store. -/
theorem Rep.valid {H : Heap K V} {p : PTable} {t : Table K V} (h : Rep H p t) {a : Nat}
    (ha : a ∈ p.data) : a < H.length := by
  obtain ⟨j, hj⟩ := List.mem_iff_getElem?.mp ha
  have hjl : j < t.data.length := by
    rw [← h.len]
    exact (List.getElem?_eq_some.mp hj).1
  have hc := h.cells j a _ hj (List.getElem?_eq_getElem hjl)
  by_contra hn
  rw [List.getElem?_eq_none (by omega)] at hc
  cases hc

theorem Rep.get_ptr {H : Heap K V} {p : PTable} {t : Table K V} (h : Rep H p t) {j a : Nat}
    (ha : p.data[j]? = some a) :
    ∃ e, t.data[j]? = some e ∧ H[a]? = some (some e) := by
  have hjl : j < t.data.length := by
    rw [← h.len]
    exact (List.getElem?_eq_some.mp ha).1
  exact ⟨_, List.getElem?_eq_getElem hjl, h.cells j a _ ha (List.getElem?_eq_getElem hjl)⟩

/-- A table object keeps designating its table when its cells are unchanged. -/
theorem Rep.keep {H H1 : Heap K V} {p : PTable} {t : Table K V} (h : Rep H p t)
    (hk : ∀ a, a ∈ p.data → H1[a]? = H[a]?) : Rep H1 p t :=
  ⟨h.current_size, h.size_id, h.hash_capacity, h.capacity, h.collision_bucket_id, h.inj,
    h.len, fun j a e ha he => (hk a (List.getElem?_mem ha)).trans (h.cells j a e ha he)⟩

/-- A call on another table object, which owns none of the pointers of `q`, leaves
`q` designating its table, and owns none of them afterwards. -/
theorem Rep.frame {H H1 : Heap K V} {q : PTable} {t : Table K V} (h : Rep H q t)
    {o o1 : List Nat} (hf : Frame H H1 o o1) (hd : ∀ a, a ∈ q.data → a ∉ o) :
    Rep H1 q t ∧ ∀ a, a ∈ q.data → a ∉ o1 := by
  refine ⟨h.keep (fun a ha => hf.keep a (h.valid ha) (hd a ha)), fun a ha hm => ?_⟩
  rcases hf.fresh a hm with h1 | h1
  · exact hd a ha h1
  · have := h.valid ha
    omega

/-- New pointer vector and new elements, same counters. -/
theorem Rep.update {H H1 : Heap K V} {p : PTable} {t : Table K V} (h : Rep H p t)
    {l : List Nat} {d : List (Element K V)}
    (hinj : ∀ (i j a : Nat), l[i]? = some a → l[j]? = some a → i = j)
    (hlen : l.length = d.length)
    (hcells : ∀ (j a : Nat) (e : Element K V), l[j]? = some a → d[j]? = some e →
      H1[a]? = some (some e)) :
    Rep H1 (PTable.mk p.current_size p.size_id p.hash_capacity p.capacity
        p.collision_bucket_id l)
      (Table.mk t.current_size t.size_id t.hash_capacity t.capacity
        t.collision_bucket_id d) :=
  ⟨h.current_size, h.size_id, h.hash_capacity, h.capacity, h.collision_bucket_id, hinj,
    hlen, hcells⟩

theorem Rep.set_size {H : Heap K V} {p : PTable} {t : Table K V} (h : Rep H p t)
    (f : Nat → Nat) :
    Rep H (PTable.mk (f p.current_size) p.size_id p.hash_capacity p.capacity
        p.collision_bucket_id p.data)
      (Table.mk (f t.current_size) t.size_id t.hash_capacity t.capacity
        t.collision_bucket_id t.data) :=
  ⟨congrArg f h.current_size, h.size_id, h.hash_capacity, h.capacity,
    h.collision_bucket_id, h.inj, h.len, h.cells⟩

theorem Rep.set_cursor {H : Heap K V} {p : PTable} {t : Table K V} (h : Rep H p t)
    (c : Nat) :
    Rep H (PTable.mk p.current_size p.size_id p.hash_capacity p.capacity c p.data)
      (Table.mk t.current_size t.size_id t.hash_capacity t.capacity c t.data) :=
  ⟨h.current_size, h.size_id, h.hash_capacity, h.capacity, rfl, h.inj, h.len, h.cells⟩

end simulation

end HashMap

namespace HashMap

section simulation2

variable {K V : Type}

/-- Replacing the pointer of one slot by a pointer to a new cell keeps the
pointers of two slots distinct. -/
theorem inj_set_fresh {l : List Nat} {n i : Nat}
    (hinj : ∀ (i j a : Nat), l[i]? = some a → l[j]? = some a → i = j)
    (hv : ∀ a, a ∈ l → a < n) (hil : i < l.length) :
    ∀ (j1 j2 x : Nat), (l.set i n)[j1]? = some x → (l.set i n)[j2]? = some x → j1 = j2 := by
  intro j1 j2 x h1 h2
  by_cases e1 : i = j1
  · subst e1
    rw [List.getElem?_set_self hil] at h1
    cases h1
    by_cases e2 : i = j2
    · exact e2
    · rw [List.getElem?_set_ne e2] at h2
      have := hv _ (List.getElem?_mem h2)
      omega
  · rw [List.getElem?_set_ne e1] at h1
    by_cases e2 : i = j2
    · subst e2
      rw [List.getElem?_set_self hil] at h2
      cases h2
      have := hv _ (List.getElem?_mem h1)
      omega
    · rw [List.getElem?_set_ne e2] at h2
      exact hinj j1 j2 x h1 h2

/-- Lines 334-347 of `insert` on the free store follow the table. -/
theorem write_entry_sim {s : HState K V} {t t2 : Table K V} {i : Nat} {k : K} {v : V}
    {upd : Bool} (hrep : Rep s.heap s.tab t) (hw : write_entry t i k v = .ok (t2, upd)) :
    ∃ s2, write_entry_ptr s i k v = .ok (s2, upd) ∧ Rep s2.heap s2.tab t2 := by
  obtain ⟨H, p⟩ := s
  have hr : Rep H p t := hrep
  have hcb := hr.collision_bucket_id
  unfold write_entry at hw
  cases hb : t.data[i]? with
  | none => simp [hb] at hw
  | some buf =>
    simp only [hb] at hw
    obtain ⟨a, hpa, hHa, hav⟩ := hr.get hb
    have hil : i < p.data.length := (List.getElem?_eq_some.mp hpa).1
    have hil2 : i < t.data.length := by
      rw [← hr.len]
      exact hil
    unfold write_entry_ptr
    simp only [hpa, heap_read_ok.mpr hHa]
    by_cases hu : buf.is_used = false
    · rw [if_pos hu] at hw ⊢
      simp only [Outcome.ok.injEq, Prod.mk.injEq] at hw
      obtain ⟨rfl, rfl⟩ := hw
      have hfree := heap_free_of
        (H := H ++ [some (Element.mk k v true false buf.last buf.next)]) (a := a)
        (e := buf) (by rw [List.getElem?_append_left hav]; exact hHa)
      simp only [hfree]
      have hdec : decide (i = p.collision_bucket_id) = decide (i = t.collision_bucket_id) := by
        rw [hcb]
      rw [hdec]
      refine ⟨_, rfl, ?_⟩
      dsimp only
      refine ⟨hr.current_size, hr.size_id, hr.hash_capacity, hr.capacity, hcb, ?_, ?_, ?_⟩
      · exact inj_set_fresh hr.inj (fun x hx => hr.valid hx) hil
      · simp [hr.len]
      · intro j x e hx he
        by_cases e1 : i = j
        · subst e1
          rw [List.getElem?_set_self hil] at hx
          rw [List.getElem?_set_self hil2] at he
          cases hx
          cases he
          rw [List.getElem?_set_ne (by omega), List.getElem?_append_right (Nat.le_refl _)]
          simp
        · rw [List.getElem?_set_ne e1] at hx he
          have hxa : a ≠ x := fun e2 => e1 (hr.inj i j a hpa (e2 ▸ hx))
          have hxv := hr.valid (List.getElem?_mem hx)
          rw [List.getElem?_set_ne hxa, List.getElem?_append_left hxv]
          exact hr.cells j x e hx he
    · rw [if_neg hu] at hw ⊢
      split at hw
      · rename_i hclt
        simp only [Outcome.ok.injEq, Prod.mk.injEq] at hw
        obtain ⟨rfl, rfl⟩ := hw
        have hclt1 : t.collision_bucket_id < t.data.length := by simpa using hclt
        have hcl : p.collision_bucket_id < p.data.length := by
          rw [hcb, hr.len]
          exact hclt1
        obtain ⟨c, hpc⟩ : ∃ c, p.data[p.collision_bucket_id]? = some c :=
          ⟨_, List.getElem?_eq_getElem hcl⟩
        obtain ⟨ec, hec, hHc⟩ := hr.get_ptr hpc
        have hcv := hr.valid (List.getElem?_mem hpc)
        simp only [hpc]
        obtain ⟨e0, he0⟩ : ∃ e0, (H.set a (some (Element.mk buf.key buf.value buf.is_used
            buf.is_empty false p.collision_bucket_id)))[c]? = some (some e0) := by
          by_cases hac : a = c
          · rw [← hac, List.getElem?_set_self hav]
            exact ⟨_, rfl⟩
          · rw [List.getElem?_set_ne hac]
            exact ⟨_, hHc⟩
        simp only [heap_free_of he0]
        refine ⟨_, rfl, ?_⟩
        dsimp only
        refine ⟨hr.current_size, hr.size_id, hr.hash_capacity, hr.capacity, hcb, ?_, ?_, ?_⟩
        · simp only [List.length_set]
          exact inj_set_fresh hr.inj (fun x hx => hr.valid hx) hcl
        · simp [hr.len]
        · intro j x e hx he
          simp only [List.length_set] at hx
          rw [← hcb] at he
          by_cases e1 : p.collision_bucket_id = j
          · subst e1
            rw [List.getElem?_set_self hcl] at hx
            rw [List.getElem?_set_self (by simpa [← hr.len] using hcl)] at he
            cases hx
            cases he
            rw [List.getElem?_append_right (by simp)]
            simp
          · rw [List.getElem?_set_ne e1] at hx he
            have hxv := hr.valid (List.getElem?_mem hx)
            have hxc : c ≠ x := fun e2 => e1 (hr.inj _ j _ hpc (e2 ▸ hx))
            rw [List.getElem?_append_left (by simpa using hxv), List.getElem?_set_ne hxc]
            by_cases e3 : i = j
            · subst e3
              rw [hpa] at hx
              cases hx
              rw [List.getElem?_set_self hil2] at he
              cases he
              rw [List.getElem?_set_self hav]
            · rw [List.getElem?_set_ne e3] at he
              have hxa : a ≠ x := fun e2 => e3 (hr.inj i j a hpa (e2 ▸ hx))
              rw [List.getElem?_set_ne hxa]
              exact hr.cells j x e hx he
      · cases hw

end simulation2

end HashMap

namespace HashMap

section simulation3

variable {K V : Type} [DecidableEq K] [Inhabited K] [Inhabited V]

omit [DecidableEq K] [Inhabited K] [Inhabited V] in
theorem update_collision_bucket_id_sim {rh : Table K V → Outcome (Table K V)}
    {rhp : HState K V → Outcome (HState K V)} (hrh : SimRehash rh rhp)
    {s : HState K V} {t t1 : Table K V} (hrep : Rep s.heap s.tab t)
    (h : update_collision_bucket_id rh t = .ok t1) :
    ∃ s1, update_collision_bucket_id_ptr rhp s = .ok s1 ∧ Rep s1.heap s1.tab t1 := by
  unfold update_collision_bucket_id at h
  unfold update_collision_bucket_id_ptr
  rw [hrep.view]
  cases hl : lower_cursor t.data t.collision_bucket_id with
  | fault f => simp [hl] at h
  | ok c =>
    simp only [hl] at h ⊢
    by_cases h1 : c = SIZE_MAX
    · rw [if_pos h1] at h
      cases h
    · rw [if_neg h1] at h ⊢
      by_cases h2 : c = 0
      · rw [if_pos h2] at h ⊢
        exact hrh (HState.mk s.heap { s.tab with collision_bucket_id := c }) _ _
          (hrep.set_cursor c) h
      · rw [if_neg h2] at h ⊢
        cases h
        exact ⟨_, rfl, hrep.set_cursor c⟩

omit [Inhabited K] [Inhabited V] in
/-- `insert` on the free store follows `insert` on the table, when the `rehash` it
calls does. -/
theorem insert_with_sim (hash : K → Nat) {rh : Table K V → Outcome (Table K V)}
    {rhp : HState K V → Outcome (HState K V)} (hrh : SimRehash rh rhp) (fuel : Nat) :
    SimInsert (insert_with hash rh fuel) (insert_with_ptr hash rhp fuel) := by
  intro s t k v t1 hrep h
  unfold insert_with at h
  unfold insert_with_ptr
  rw [hrep.view]
  cases hg : get_key_id hash fuel t k with
  | fault f => simp [hg] at h
  | ok id =>
    simp only [hg] at h ⊢
    by_cases hid : id ≠ t.capacity
    · rw [if_pos hid] at h ⊢
      cases h
      exact ⟨s, rfl, hrep⟩
    · rw [if_neg hid] at h ⊢
      cases hw : insert_walk t fuel (hash k % t.hash_capacity) with
      | fault f => simp [hw] at h
      | ok i =>
        simp only [hw] at h ⊢
        cases he : write_entry { t with current_size := incr t.current_size } i k v with
        | fault f => simp [he] at h
        | ok r =>
          obtain ⟨t2, upd⟩ := r
          simp only [he] at h
          obtain ⟨s2, hs2, hrep2⟩ := write_entry_sim
            (s := HState.mk s.heap { s.tab with current_size := incr s.tab.current_size })
            (hrep.set_size incr) he
          simp only [hs2]
          cases hu : (if upd = true then update_collision_bucket_id rh t2 else .ok t2) with
          | fault f => simp [hu] at h
          | ok t3 =>
            simp only [hu] at h
            have hup : ∃ s3, (if upd = true then update_collision_bucket_id_ptr rhp s2
                else .ok s2) = .ok s3 ∧ Rep s3.heap s3.tab t3 := by
              by_cases hupd : upd = true
              · rw [if_pos hupd] at hu ⊢
                exact update_collision_bucket_id_sim hrh hrep2 hu
              · rw [if_neg hupd] at hu ⊢
                cases hu
                exact ⟨s2, rfl, hrep2⟩
            obtain ⟨s3, hs3, hrep3⟩ := hup
            simp only [hs3]
            rw [hrep3.current_size, hrep3.capacity]
            by_cases hl : reaches_load t3.current_size t3.capacity = true
            · rw [if_pos hl] at h ⊢
              exact hrh s3 t3 t1 hrep3 h
            · rw [if_neg hl] at h ⊢
              cases h
              exact ⟨s3, rfl, hrep3⟩

omit [DecidableEq K] [Inhabited K] [Inhabited V] in
theorem range'_get {s n j a : Nat} (h : (List.range' s n)[j]? = some a) :
    j < n ∧ a = s + j := by
  obtain ⟨hj, he⟩ := List.getElem?_eq_some.mp h
  simp only [List.length_range'] at hj
  rw [List.getElem_range'] at he
  exact ⟨hj, by omega⟩

omit [DecidableEq K] in
/-- The new table object of `rehash` designates the blank table. -/
theorem blank_ptr_rep (i h : Nat) (H : Heap K V) :
    Rep (blank_ptr i h H).heap (blank_ptr i h H).tab (blank i h : Table K V) ∧
    (∀ a, a < H.length → (blank_ptr i h H).heap[a]? = H[a]?) ∧
    (∀ a, a ∈ (blank_ptr i h H).tab.data → H.length ≤ a) := by
  obtain ⟨h1, h2⟩ := init_ptr_eq (cellar_capacity h) H
  have hheap : (blank_ptr i h H).heap =
      H ++ List.replicate (cellar_capacity h) (some Element.fresh) := h1
  have hdata : (blank_ptr i h H).tab.data = List.range' H.length (cellar_capacity h) := h2
  have hbd : (blank i h : Table K V).data =
      List.replicate (cellar_capacity h) Element.fresh := rfl
  refine ⟨⟨rfl, rfl, rfl, rfl, rfl, ?_, ?_, ?_⟩, ?_, ?_⟩
  · rw [hdata]
    intro j1 j2 a e1 e2
    have := range'_get e1
    have := range'_get e2
    omega
  · rw [hdata, hbd]
    simp
  · rw [hdata, hbd, hheap]
    intro j a e ha he
    obtain ⟨hj, rfl⟩ := range'_get ha
    rw [List.getElem?_replicate] at he
    rw [if_pos hj] at he
    cases he
    rw [List.getElem?_append_right (by omega)]
    simp [hj]
  · intro a ha
    rw [hheap]
    exact List.getElem?_append_left ha
  · intro a ha
    rw [hdata, List.mem_range'] at ha
    obtain ⟨j, _, rfl⟩ := ha
    omega

omit [DecidableEq K] [Inhabited K] [Inhabited V] in
/-- The loop of `rehash` on the free store follows the loop on the table. -/
theorem reinsert_sim {ins : Table K V → K → V → Outcome (Table K V)}
    {insp : HState K V → K → V → Outcome (HState K V)} (hsim : SimInsert ins insp)
    (hfr : FrameInsert insp) :
    ∀ (as : List Nat) (es : List (Element K V)) (s : HState K V) (t t1 : Table K V),
      Rep s.heap s.tab t → as.length = es.length →
      (∀ (j a : Nat) (e : Element K V), as[j]? = some a → es[j]? = some e →
        s.heap[a]? = some (some e)) →
      as.Nodup → (∀ a, a ∈ as → a ∉ s.tab.data) →
      reinsert ins es t = .ok t1 →
      ∃ s1, reinsert_ptr insp as s = .ok s1 ∧ Rep s1.heap s1.tab t1 := by
  intro as
  induction as with
  | nil =>
    intro es s t t1 hrep hlen _ _ _ h
    cases es with
    | nil =>
      cases h
      exact ⟨s, rfl, hrep⟩
    | cons e es => simp at hlen
  | cons a as ih =>
    intro es s t t1 hrep hlen hold hnd hdis h
    cases es with
    | nil => simp at hlen
    | cons e es =>
      have h0 : s.heap[a]? = some (some e) := hold 0 a e (by simp) (by simp)
      have hav : a < s.heap.length := by
        by_contra hn
        rw [List.getElem?_eq_none (by omega)] at h0
        cases h0
      have hna : a ∉ s.tab.data := hdis a (List.mem_cons_self _ _)
      rw [List.nodup_cons] at hnd
      have hlen1 : as.length = es.length := by simpa using hlen
      -- the rest of the loop, after the element was reinserted
      have cont : ∀ (s2 : HState K V) (t2 : Table K V), Rep s2.heap s2.tab t2 →
          Frame s.heap s2.heap s.tab.data s2.tab.data → reinsert ins es t2 = .ok t1 →
          heap_free s2.heap a = .ok (s2.heap.set a none) ∧
          ∃ s1, reinsert_ptr insp as (HState.mk (s2.heap.set a none) s2.tab) = .ok s1 ∧
            Rep s1.heap s1.tab t1 := by
        intro s2 t2 hrep2 f h2
        have hk : s2.heap[a]? = some (some e) := (f.keep a hav hna).trans h0
        refine ⟨heap_free_of hk, ?_⟩
        have hna2 : a ∉ s2.tab.data := by
          intro hm
          rcases f.fresh a hm with h3 | h3
          · exact hna h3
          · omega
        have hrep3 : Rep (s2.heap.set a none) s2.tab t2 :=
          hrep2.keep (fun x hx => by
            have hxa : a ≠ x := fun e1 => hna2 (e1 ▸ hx)
            rw [List.getElem?_set_ne hxa])
        have htail : ∀ (j x : Nat) (e1 : Element K V), as[j]? = some x →
            es[j]? = some e1 → s.heap[x]? = some (some e1) := fun j x e1 hx he1 =>
          hold (j + 1) x e1 (by simpa using hx) (by simpa using he1)
        have hvalid : ∀ x, x ∈ as → x < s.heap.length := by
          intro x hx
          obtain ⟨j, hj⟩ := List.mem_iff_getElem?.mp hx
          have hjl : j < es.length := by
            rw [← hlen1]
            exact (List.getElem?_eq_some.mp hj).1
          have := htail j x _ hj (List.getElem?_eq_getElem hjl)
          by_contra hn
          rw [List.getElem?_eq_none (by omega)] at this
          cases this
        apply ih es (HState.mk (s2.heap.set a none) s2.tab) t2 t1 hrep3 hlen1 ?_ hnd.2 ?_ h2
        · intro j x e1 hx he1
          have hxm : x ∈ as := List.getElem?_mem hx
          have hxa : a ≠ x := fun e2 => hnd.1 (e2 ▸ hxm)
          show (s2.heap.set a none)[x]? = some (some e1)
          rw [List.getElem?_set_ne hxa,
            f.keep x (hvalid x hxm) (hdis x (List.mem_cons_of_mem _ hxm))]
          exact htail j x e1 hx he1
        · intro x hxm hm
          rcases f.fresh x hm with h3 | h3
          · exact hdis x (List.mem_cons_of_mem _ hxm) h3
          · have := hvalid x hxm
            omega
      unfold reinsert at h
      unfold reinsert_ptr
      simp only [heap_read_ok.mpr h0]
      by_cases hl : e.is_empty = false
      · rw [if_pos hl] at h ⊢
        cases hi : ins t e.key e.value with
        | fault f => simp [hi] at h
        | ok t2 =>
          simp only [hi] at h
          obtain ⟨s2, hs2, hrep2⟩ := hsim s t _ _ t2 hrep hi
          simp only [hs2]
          obtain ⟨c1, c2⟩ := cont s2 t2 hrep2 (hfr _ _ _ _ hs2) h
          simp only [c1]
          exact c2
      · rw [if_neg hl] at h ⊢
        obtain ⟨c1, c2⟩ := cont s t hrep (Frame.refl _ _) h
        simp only [c1]
        exact c2

omit [DecidableEq K] in
/-- `rehash` on the free store follows `rehash` on the table, when the `insert` it
calls does. -/
theorem rehash_with_sim {ins : Table K V → K → V → Outcome (Table K V)}
    {insp : HState K V → K → V → Outcome (HState K V)} (hsim : SimInsert ins insp)
    (hfr : FrameInsert insp) : SimRehash (rehash_with ins) (rehash_with_ptr insp) := by
  intro s t t1 hrep h
  unfold rehash_with at h
  unfold rehash_with_ptr
  dsimp only at h ⊢
  rw [hrep.current_size, hrep.hash_capacity, hrep.size_id]
  cases hsz : sizes[if exceeds_load t.current_size t.hash_capacity = true then t.size_id + 1
      else t.size_id]? with
  | none => simp [hsz] at h
  | some hc =>
    simp only [hsz] at h ⊢
    obtain ⟨b1, b2, b3⟩ := blank_ptr_rep (K := K) (V := V)
      (if exceeds_load t.current_size t.hash_capacity = true then t.size_id + 1
        else t.size_id) hc s.heap
    apply reinsert_sim hsim hfr s.tab.data t.data _ _ t1 b1 hrep.len ?_ hrep.ptr_nodup ?_ h
    · intro j a e ha he
      rw [b2 a (hrep.valid (List.getElem?_mem ha))]
      exact hrep.cells j a e ha he
    · intro a ha hm
      have := b3 a hm
      have := hrep.valid ha
      omega

/-- The member `insert` on the free store follows the member on the table. -/
theorem insert_sim (hash : K → Nat) :
    ∀ fuel : Nat, SimInsert (insert hash fuel : Table K V → K → V → _)
      (insert_ptr hash fuel) := by
  intro fuel
  induction fuel with
  | zero =>
    intro s t k v t1 _ h
    cases h
  | succ f ih =>
    intro s t k v t1 hrep h
    rw [insert] at h
    rw [insert_ptr]
    exact insert_with_sim hash (rehash_with_sim ih (insert_ptr_frame hash f)) (f + 1)
      s t k v t1 hrep h

/-- The member `rehash` on the free store follows the member on the table. -/
theorem rehash_sim (hash : K → Nat) (fuel : Nat) :
    SimRehash (rehash hash fuel : Table K V → _) (rehash_ptr hash fuel) :=
  rehash_with_sim (insert_sim hash fuel) (insert_ptr_frame hash fuel)

end simulation3

end HashMap

namespace HashMap

section simulation4

variable {K V : Type} [DecidableEq K] [Inhabited K] [Inhabited V]

omit [DecidableEq K] in
theorem reset_ptr_total :
    ∀ (as : List Nat) (H : Heap K V), as.Nodup →
      (∀ a, a ∈ as → ∃ e : Element K V, H[a]? = some (some e)) →
      ∃ r, reset_ptr as H = .ok r := by
  intro as
  induction as with
  | nil =>
    intro H _ _
    exact ⟨_, rfl⟩
  | cons a as ih =>
    intro H hnd hv
    rw [List.nodup_cons] at hnd
    obtain ⟨e, he⟩ := hv a (List.mem_cons_self _ _)
    have hav : a < H.length := by
      by_contra hn
      rw [List.getElem?_eq_none (by omega)] at he
      cases he
    unfold reset_ptr
    simp only [heap_free_of he]
    obtain ⟨r, hr⟩ := ih (H.set a none ++ [some Element.fresh]) hnd.2 (by
      intro x hx
      obtain ⟨e1, he1⟩ := hv x (List.mem_cons_of_mem _ hx)
      have hxv : x < H.length := by
        by_contra hn
        rw [List.getElem?_eq_none (by omega)] at he1
        cases he1
      have hxa : a ≠ x := fun e2 => hnd.1 (e2 ▸ hx)
      refine ⟨e1, ?_⟩
      rw [List.getElem?_append_left (by simpa using hxv), List.getElem?_set_ne hxa]
      exact he1)
    simp only [hr]
    exact ⟨_, rfl⟩

omit [DecidableEq K] in
/-- The loop `delete element; element = new Element()` over the vector of a table
object: the new vector designates default-constructed elements. -/
theorem reset_ptr_rep {H : Heap K V} {p : PTable} {t : Table K V} (hrep : Rep H p t) :
    ∃ r, reset_ptr p.data H = .ok r ∧
      Rep r.1 (PTable.mk p.current_size p.size_id p.hash_capacity p.capacity
          p.collision_bucket_id r.2)
        (Table.mk t.current_size t.size_id t.hash_capacity t.capacity
          t.collision_bucket_id (init t.data.length)) ∧
      Frame H r.1 p.data r.2 := by
  obtain ⟨r, hr⟩ := reset_ptr_total p.data H hrep.ptr_nodup (fun a ha => by
    obtain ⟨j, hj⟩ := List.mem_iff_getElem?.mp ha
    obtain ⟨e, _, he⟩ := hrep.get_ptr hj
    exact ⟨e, he⟩)
  obtain ⟨a1, a2, _, a4⟩ := reset_ptr_spec p.data H r hr
  refine ⟨r, hr, ?_, reset_ptr_frame hr (fun _ h => h)⟩
  apply hrep.update
  · rw [a2]
    intro j1 j2 a e1 e2
    have := range'_get e1
    have := range'_get e2
    omega
  · rw [a2]
    simp [init, hrep.len]
  · intro j a e ha he
    rw [a2] at ha
    obtain ⟨hj, rfl⟩ := range'_get ha
    unfold init at he
    rw [List.getElem?_replicate] at he
    split at he
    · cases he
      exact a4 (fun x hx => hrep.valid hx) _ (by omega) (by omega)
    · cases he

/-- The member `clear` on the free store follows the member on the table. -/
theorem clear_sim {hash : K → Nat} {fuel : Nat} {s : HState K V} {t t1 : Table K V}
    (hrep : Rep s.heap s.tab t) (hlen : t.data.length = t.capacity)
    (h : clear hash fuel t = .ok t1) :
    ∃ s1, clear_ptr hash fuel s = .ok s1 ∧ Rep s1.heap s1.tab t1 := by
  unfold clear at h
  rw [if_pos (by omega)] at h
  unfold clear_ptr
  have hpl : s.tab.data.length = s.tab.capacity := by
    rw [hrep.len, hrep.capacity]
    exact hlen
  rw [if_pos (by omega)]
  rw [List.take_of_length_le (by omega), List.drop_eq_nil_of_le (by omega)]
  rw [List.drop_eq_nil_of_le (by omega)] at h
  obtain ⟨r, hr, hrep2, _⟩ := reset_ptr_rep hrep
  simp only [hr]
  apply rehash_sim hash fuel _ _ t1 ?_ h
  refine ⟨hrep.current_size, rfl, hrep.hash_capacity, hrep.capacity,
    hrep.collision_bucket_id, ?_, ?_, ?_⟩
  · show ∀ (i j a : Nat), (r.2 ++ [])[i]? = some a → (r.2 ++ [])[j]? = some a → i = j
    rw [List.append_nil]
    exact hrep2.inj
  · show (r.2 ++ []).length = (init t.capacity ++ []).length
    rw [List.append_nil, List.append_nil, ← hlen]
    exact hrep2.len
  · show ∀ (j a : Nat) (e : Element K V), (r.2 ++ [])[j]? = some a →
      (init t.capacity ++ [])[j]? = some e → r.1[a]? = some (some e)
    rw [List.append_nil, List.append_nil, ← hlen]
    exact hrep2.cells

theorem clear_ptr_frame {hash : K → Nat} {fuel : Nat} {s s1 : HState K V}
    (h : clear_ptr hash fuel s = .ok s1) :
    Frame s.heap s1.heap s.tab.data s1.tab.data := by
  unfold clear_ptr at h
  split at h
  · cases hr : reset_ptr (s.tab.data.take s.tab.capacity) s.heap with
    | fault f => simp [hr] at h
    | ok r =>
      simp only [hr] at h
      have f1 : Frame s.heap r.1 s.tab.data r.2 :=
        reset_ptr_frame hr (fun a ha => List.mem_of_mem_take ha)
      have f2 := rehash_ptr_frame hash fuel _ _ h
      have f1w : Frame s.heap r.1 s.tab.data (r.2 ++ s.tab.data.drop s.tab.capacity) :=
        f1.weaken (fun _ hx => hx) (fun x hx => by
          rcases List.mem_append.mp hx with h1 | h1
          · exact Or.inl h1
          · exact Or.inr (List.mem_of_mem_drop h1))
      exact f1w.comp f2
  · cases h

/-- The loop of the copy constructor and of `operator=` on the free store follows
the loop on the tables, and leaves the table object it reads as it was. -/
theorem insert_from_sim (hash : K → Nat) (fuel : Nat) {q : PTable} {o : Table K V} :
    ∀ (steps id : Nat) (s : HState K V) (t t1 : Table K V),
      Rep s.heap s.tab t → Rep s.heap q o → (∀ a, a ∈ q.data → a ∉ s.tab.data) →
      insert_from hash fuel o steps id t = .ok t1 →
      ∃ s1, insert_from_ptr hash fuel q steps id s = .ok s1 ∧ Rep s1.heap s1.tab t1 ∧
        Rep s1.heap q o ∧ (∀ a, a ∈ q.data → a ∉ s1.tab.data) ∧
        Frame s.heap s1.heap s.tab.data s1.tab.data := by
  intro steps
  induction steps with
  | zero =>
    intro id s t t1 _ _ _ h
    cases h
  | succ n ih =>
    intro id s t t1 hrep hq hdis h
    unfold insert_from at h
    unfold insert_from_ptr
    rw [hq.view]
    simp only
    by_cases hid : id = end_ o
    · rw [if_pos hid] at h ⊢
      cases h
      exact ⟨s, rfl, hrep, hq, hdis, Frame.refl _ _⟩
    · rw [if_neg hid] at h ⊢
      cases hd : deref o id with
      | fault f => simp [hd] at h
      | ok kv =>
        obtain ⟨k, v⟩ := kv
        simp only [hd] at h ⊢
        cases hi : insert hash fuel t k v with
        | fault f => simp [hi] at h
        | ok t2 =>
          simp only [hi] at h
          obtain ⟨s2, hs2, hrep2⟩ := insert_sim hash fuel s t k v t2 hrep hi
          have f := insert_ptr_frame hash fuel _ _ _ _ hs2
          obtain ⟨hq2, hdis2⟩ := hq.frame f hdis
          simp only [hs2, hq2.view]
          cases hn : iter_next o id with
          | fault f => simp [hn] at h
          | ok id1 =>
            simp only [hn] at h ⊢
            obtain ⟨s1, a1, a2, a3, a4, a5⟩ := ih id1 s2 t2 t1 hrep2 hq2 hdis2 h
            exact ⟨s1, a1, a2, a3, a4, f.comp a5⟩

/-- The copy constructor on the free store follows the copy constructor on the
table; the copy is made of new cells, and the original is left as it was. -/
theorem copy_sim {hash : K → Nat} {fuel : Nat} {H : Heap K V} {q : PTable}
    {o c : Table K V} (hq : Rep H q o) (h : copy hash fuel o = .ok c) :
    ∃ s1, copy_ptr hash fuel H q = .ok s1 ∧ Rep s1.heap s1.tab c ∧ Rep s1.heap q o ∧
      (∀ a, a ∈ q.data → a ∉ s1.tab.data) ∧ Frame H s1.heap [] s1.tab.data := by
  unfold copy at h
  unfold copy_ptr empty_ptr
  obtain ⟨b1, b2, b3⟩ := blank_ptr_rep (K := K) (V := V) 1 11 H
  have hq0 : Rep (blank_ptr 1 11 H).heap q o :=
    hq.keep (fun a ha => b2 a (hq.valid ha))
  have hdis0 : ∀ a, a ∈ q.data → a ∉ (blank_ptr 1 11 H : HState K V).tab.data := by
    intro a ha hm
    have := b3 a hm
    have := hq.valid ha
    omega
  rw [hq0.view]
  cases hb : begin o with
  | fault f => simp [hb] at h
  | ok id =>
    simp only [hb] at h ⊢
    obtain ⟨s1, a1, a2, a3, a4, a5⟩ :=
      insert_from_sim hash fuel fuel id (blank_ptr 1 11 H) empty c b1 hq0 hdis0 h
    refine ⟨s1, a1, a2, a3, a4, Frame.comp ?_ a5⟩
    have hlen : H.length ≤ (blank_ptr 1 11 H : HState K V).heap.length := by
      have := (init_ptr_eq (K := K) (V := V) (cellar_capacity 11) H).1
      have e : (blank_ptr 1 11 H : HState K V).heap =
          H ++ List.replicate (cellar_capacity 11) (some Element.fresh) := this
      rw [e]
      simp
    exact ⟨hlen, fun a ha _ => b2 a ha, fun a ha => Or.inr (b3 a ha)⟩

/-- The member `operator=` on the free store follows the member on the tables, and
leaves the table object it reads as it was. -/
theorem assign_sim {hash : K → Nat} {fuel : Nat} {s : HState K V} {q : PTable}
    {t o c : Table K V} (hrep : Rep s.heap s.tab t) (hlen : t.data.length = t.capacity)
    (hq : Rep s.heap q o) (hdis : ∀ a, a ∈ q.data → a ∉ s.tab.data)
    (h : assign hash fuel t o = .ok c) :
    ∃ s1, assign_ptr hash fuel s q = .ok s1 ∧ Rep s1.heap s1.tab c ∧ Rep s1.heap q o ∧
      (∀ a, a ∈ q.data → a ∉ s1.tab.data) ∧
      Frame s.heap s1.heap s.tab.data s1.tab.data := by
  unfold assign at h
  unfold assign_ptr
  cases hc : clear hash fuel t with
  | fault f => simp [hc] at h
  | ok t1 =>
    simp only [hc] at h
    obtain ⟨s1, hs1, hrep1⟩ := clear_sim hrep hlen hc
    have f1 := clear_ptr_frame hs1
    obtain ⟨hq1, hdis1⟩ := hq.frame f1 hdis
    simp only [hs1]
    obtain ⟨r, hr, hrep2, f2⟩ := reset_ptr_rep hrep1
    obtain ⟨hq2, hdis2⟩ := hq1.frame f2 hdis1
    simp only [hr, hq2.view]
    cases hb : begin o with
    | fault f => simp [hb] at h
    | ok id =>
      simp only [hb] at h ⊢
      obtain ⟨s2, a1, a2, a3, a4, a5⟩ := insert_from_sim hash fuel fuel id
        (HState.mk r.1 { s1.tab with data := r.2 }) _ c hrep2 hq2 hdis2 h
      exact ⟨s2, a1, a2, a3, a4, (f1.comp f2).comp a5⟩

end simulation4

end HashMap

namespace HashMap

section claims10

variable {K V : Type} [DecidableEq K] [Inhabited K] [Inhabited V]

omit [Inhabited K] [Inhabited V] in
theorem find_ptr_eq {hash : K → Nat} {fuel : Nat} {H : Heap K V} {p : PTable}
    {t : Table K V} (h : view H p = .ok t) (k : K) :
    find_ptr hash fuel H p k = find_result hash fuel t k := by
  unfold find_ptr
  rw [h]

/-- What holds of a table object `s` that designates a table `c` with the pairs of
the table `t` of another object `p`, none of whose pointers it owns. -/
theorem copy_independent {hash : K → Nat} {H : Heap K V} {p : PTable} {t : Table K V}
    (hg : Good hash t) (hv : view H p = .ok t) {fuel : Nat} (hf : enough_fuel ≤ fuel)
    {s : HState K V} {c : Table K V} (hc : Rep s.heap s.tab c) (hp : Rep s.heap p t)
    (hdis : ∀ a, a ∈ p.data → a ∉ s.tab.data) (gc : Good hash c)
    (hh : ∀ k v, Has c k v ↔ Has t k v) (hs : c.current_size = t.current_size) :
    view s.heap s.tab = .ok c ∧ size c = size t ∧
    (∀ k, find_ptr hash fuel s.heap s.tab k = find_ptr hash fuel H p k) ∧
    (∀ a, a ∈ s.tab.data → a ∉ p.data) ∧
    ∀ (ms : List (Mut K V)) (s1 : HState K V), run_ptr hash fuel ms s = .ok s1 →
      view s1.heap p = .ok t ∧
      ∀ k, find_ptr hash fuel s1.heap p k = find_ptr hash fuel H p k := by
  refine ⟨hc.view, hs, ?_, fun a ha hm => hdis a hm ha, ?_⟩
  · intro k
    rw [find_ptr_eq hc.view, find_ptr_eq hv, find_result_eq gc.inv (gc.fuel hf),
      find_result_eq hg.inv (hg.fuel hf)]
    congr 1
    exact lookup_congr hg.inv gc.inv hh k
  · intro ms s1 hrun
    have f := run_ptr_frame ms s s1 hrun
    have hp1 := (hp.frame f hdis).1
    exact ⟨hp1.view, fun k => by rw [find_ptr_eq hp1.view, find_ptr_eq hv]⟩

/-- C10. Let the table object `p` designate the reachable table `t` in the free
store `H`. The copy constructor returns a table object `s` that designates the
table `c` which the copy constructor gives on `t`: `size()` is the same and
`find` reports the same for every key as on `t`; the copy owns none of the
pointers of `p`, and whatever sequence of `insert`, `erase`, `operator[]` and
assignments through the reference returned by `operator[]` is run on the copy
afterwards, `p` still designates `t`, so every `find` on the original reports
what it reported before. The same holds of `operator=` from `p` into any other
table object `p0` that designates a reachable table, whatever it held. -/
theorem deep_copy {hash : K → Nat} {H : Heap K V} {p : PTable} {t : Table K V}
    (hrep : Rep H p t) (hr : Reachable hash t) {fuel : Nat} (hf : enough_fuel ≤ fuel) :
    (∃ (s : HState K V) (c : Table K V), copy_ptr hash fuel H p = .ok s ∧
      copy hash fuel t = .ok c ∧ view s.heap s.tab = .ok c ∧ size c = size t ∧
      (∀ k, find_ptr hash fuel s.heap s.tab k = find_ptr hash fuel H p k) ∧
      (∀ a, a ∈ s.tab.data → a ∉ p.data) ∧
      ∀ (ms : List (Mut K V)) (s1 : HState K V), run_ptr hash fuel ms s = .ok s1 →
        view s1.heap p = .ok t ∧
        ∀ k, find_ptr hash fuel s1.heap p k = find_ptr hash fuel H p k) ∧
    (∀ (p0 : PTable) (t0 : Table K V), Rep H p0 t0 → Reachable hash t0 →
      (∀ a, a ∈ p0.data → a ∉ p.data) →
      ∃ (s : HState K V) (c : Table K V),
        assign_ptr hash fuel (HState.mk H p0) p = .ok s ∧
        assign hash fuel t0 t = .ok c ∧ view s.heap s.tab = .ok c ∧ size c = size t ∧
        (∀ k, find_ptr hash fuel s.heap s.tab k = find_ptr hash fuel H p k) ∧
        (∀ a, a ∈ s.tab.data → a ∉ p.data) ∧
        ∀ (ms : List (Mut K V)) (s1 : HState K V), run_ptr hash fuel ms s = .ok s1 →
          view s1.heap p = .ok t ∧
          ∀ k, find_ptr hash fuel s1.heap p k = find_ptr hash fuel H p k) := by
  have hg := hr.good
  constructor
  · obtain ⟨c, h1⟩ := copy_total hg hf
    obtain ⟨gc, hh, hs⟩ := copy_spec hg.inv h1
    obtain ⟨s, a1, a2, a3, a4, _⟩ := copy_sim hrep h1
    exact ⟨s, c, a1, h1, copy_independent hg hrep.view hf a2 a3 a4 gc hh hs⟩
  · intro p0 t0 hrep0 hr0 hdis0
    have hg0 := hr0.good
    obtain ⟨c, h1⟩ := assign_total hg0.inv hg hf
    obtain ⟨gc, hh, hs⟩ := assign_spec hg0.inv hg.inv h1
    obtain ⟨s, a1, a2, a3, a4, _⟩ := assign_sim (s := HState.mk H p0) hrep0 hg0.inv.len
      hrep (fun a ha hm => hdis0 a hm ha) h1
    exact ⟨s, c, a1, h1, copy_independent hg hrep.view hf a2 a3 a4 gc hh hs⟩

set_option maxRecDepth 1000000 in
/-- Witness of C10: the elements of `sample` in the cells 0 to 21 of a free store.
After `c[1] = 99; c.erase(12); c.insert({5, 50}); c[7];` on the copy `c`, the
copy reports 99 for key 1 and no key 12, and the original still reports 10 and
120. -/
theorem deep_copy_witness :
    (view sample_store sample_ptr = .ok sample ∧
      sample_copy_run.and_then (fun s => find_ptr id 64 s.heap s.tab 1) = .ok (some 99) ∧
      sample_copy_run.and_then (fun s => find_ptr id 64 s.heap s.tab 12) = .ok none ∧
      sample_copy_run.and_then (fun s => find_ptr id 64 s.heap sample_ptr 1) =
        .ok (some 10) ∧
      sample_copy_run.and_then (fun s => find_ptr id 64 s.heap sample_ptr 12) =
        .ok (some 120)) ∧
    ((∃ (s : HState Nat Nat) (c : Table Nat Nat),
      copy_ptr id enough_fuel sample_store sample_ptr = .ok s ∧
      copy id enough_fuel sample = .ok c ∧ view s.heap s.tab = .ok c ∧
      size c = size sample ∧
      (∀ k, find_ptr id enough_fuel s.heap s.tab k =
        find_ptr id enough_fuel sample_store sample_ptr k) ∧
      (∀ a, a ∈ s.tab.data → a ∉ sample_ptr.data) ∧
      ∀ (ms : List (Mut Nat Nat)) (s1 : HState Nat Nat),
        run_ptr id enough_fuel ms s = .ok s1 →
        view s1.heap sample_ptr = .ok sample ∧
        ∀ k, find_ptr id enough_fuel s1.heap sample_ptr k =
          find_ptr id enough_fuel sample_store sample_ptr k) ∧
    (∀ (p0 : PTable) (t0 : Table Nat Nat), Rep sample_store p0 t0 → Reachable id t0 →
      (∀ a, a ∈ p0.data → a ∉ sample_ptr.data) →
      ∃ (s : HState Nat Nat) (c : Table Nat Nat),
        assign_ptr id enough_fuel (HState.mk sample_store p0) sample_ptr = .ok s ∧
        assign id enough_fuel t0 sample = .ok c ∧ view s.heap s.tab = .ok c ∧
        size c = size sample ∧
        (∀ k, find_ptr id enough_fuel s.heap s.tab k =
          find_ptr id enough_fuel sample_store sample_ptr k) ∧
        (∀ a, a ∈ s.tab.data → a ∉ sample_ptr.data) ∧
        ∀ (ms : List (Mut Nat Nat)) (s1 : HState Nat Nat),
          run_ptr id enough_fuel ms s = .ok s1 →
          view s1.heap sample_ptr = .ok sample ∧
          ∀ k, find_ptr id enough_fuel s1.heap sample_ptr k =
            find_ptr id enough_fuel sample_store sample_ptr k)) :=
  ⟨⟨by decide, by decide, by decide, by decide, by decide⟩,
    deep_copy (Rep.of_view (by decide : view sample_store sample_ptr = .ok sample)
      (by decide : sample_ptr.data.Nodup)) sample_reachable (Nat.le_refl enough_fuel)⟩

end claims10

end HashMap
